import Mathlib

/-!
# Request creation in the `airequest` module

A shallow embedding of `handleMsgSetOCRRequest` (`x/airequest/handler_ocr.go`) and of
`validateExpirationCount` (`x/airesult/types/params.go`), together with the part of the
cosmos-sdk coin arithmetic (`types/coin.go`, `types/dec_coin.go`, `types/decimal.go`) that
the handler calls.

Conventions of the embedding.

* `sdk.Int` wraps a `big.Int`; it is embedded as `Int`.  The sdk panics when a result needs
  more than 255 bits (`Int.Add`, `NewIntFromBigInt`); the guard is part of the embedding.
* `sdk.Dec` is a `big.Int` holding the value scaled by `10^18`; it is embedded as the scaled
  integer (`Dec.raw`).  The sdk panics when a result needs more than `255 + 60` bits
  (`Dec.Mul`, `Dec.MulTruncate`, `Dec.Add`, `Dec.Sub`); the guard is part of the embedding.
* Denominations are strings; Go compares strings bytewise, which on UTF-8 text is the
  lexicographic order of the code points (`String.data` with the order of `List Char`).
  The syntactic check of a denomination (`ValidateDenom`) is outside the embedding.
* A Go `panic` raised by the sdk on an overflow, on a negative coin amount or on a malformed
  coin set is an explicit outcome: `none` in the arithmetic, `Abort.panic` in the handler.
* Go slices are embedded as lists, which are values.  `sdk.NewCoins` sorts the slice it is
  given in place; the handler hands it `fees` (sorted by `sdk.ParseCoins`) and `totalFees`,
  which the handler keeps using afterwards: the embedding of the handler continues with the
  sorted slice (`Coins.Sort`).
* Everything the handler obtains from its collaborators (validator sampler, parameter store,
  provider keeper, the `bash` process, the request store) is a field of `Keeper`; every call
  to a collaborator is recorded, in program order, in `Ctx.calls`.
-/

namespace Orai

/-! ## `sdk.Coin` and `sdk.Coins` -/

/-- Go `sdk.Coin`: a denomination and an integer amount. -/
structure Coin where
  Denom : String
  Amount : Int
  deriving DecidableEq, Repr

/-- Go `sdk.Coins`: a slice of coins. -/
abbrev Coins := List Coin

/-- Go `Coin.IsZero`. -/
def Coin.IsZero (coin : Coin) : Bool := decide (coin.Amount = 0)

/-- Go `Coin.IsPositive`. -/
def Coin.IsPositive (coin : Coin) : Bool := decide (0 < coin.Amount)

/-- Go `maxBitLen`, the number of bits of the magnitude of an `sdk.Int`. -/
def maxBitLen : Nat := 255

/-- Go `i.BitLen() > n` on a `big.Int`: the magnitude of `i` does not fit in `n` bits, that
is, shifted right by `n` bits it is not zero. -/
def bitLenExceeds (i : Int) (n : Nat) : Bool := i.natAbs >>> n != 0

/-- Go `Int.Add` of `sdk.Int`: panics (`none`) when the sum needs more than 255 bits. -/
def Int.Add (i i2 : Int) : Option Int :=
  let res := i + i2
  if bitLenExceeds res maxBitLen then none else some res

/-- Go `sdk.NewIntFromBigInt`: panics (`none`) when the value needs more than 255 bits. -/
def NewIntFromBigInt (i : Int) : Option Int :=
  if bitLenExceeds i maxBitLen then none else some i

/-- Go `Coin.Add`: panics (`none`) when the denominations differ or the sum overflows. -/
def Coin.Add (coin coinB : Coin) : Option Coin :=
  if coin.Denom ≠ coinB.Denom then none
  else (Int.Add coin.Amount coinB.Amount).map (fun amount => ⟨coin.Denom, amount⟩)

/-- Go `removeZeroCoins`. -/
def removeZeroCoins (coins : Coins) : Coins := coins.filter (fun c => !c.IsZero)

/-- The loop of Go `Coins.safeAdd`: a merge of two denomination-sorted slices that adds the
amounts of equal denominations and drops zero coins.  The first argument bounds the number of
iterations (`len(coins) + len(coinsB)` suffices). -/
def Coins.safeAddLoop : Nat → Coins → Coins → Option Coins
  | 0, _, _ => some []
  | _ + 1, [], coinsB => some (removeZeroCoins coinsB)
  | _ + 1, coinA :: restA, [] => some (removeZeroCoins (coinA :: restA))
  | fuel + 1, coinA :: restA, coinB :: restB =>
    if coinA.Denom.data < coinB.Denom.data then
      (Coins.safeAddLoop fuel restA (coinB :: restB)).map (fun sum =>
        (if coinA.IsZero then [] else [coinA]) ++ sum)
    else if coinA.Denom = coinB.Denom then
      (coinA.Add coinB).bind (fun res =>
        (Coins.safeAddLoop fuel restA restB).map (fun sum =>
          (if res.IsZero then [] else [res]) ++ sum))
    else
      (Coins.safeAddLoop fuel (coinA :: restA) restB).map (fun sum =>
        (if coinB.IsZero then [] else [coinB]) ++ sum)

/-- Go `Coins.safeAdd`; panics (`none`) when a sum of two amounts overflows. -/
def Coins.safeAdd (coins coinsB : Coins) : Option Coins :=
  Coins.safeAddLoop (coins.length + coinsB.length + 1) coins coinsB

/-- Go `Coins.Add(coinsB...)`. -/
def Coins.Add (coins coinsB : Coins) : Option Coins := coins.safeAdd coinsB

/-- The binary search of Go `Coins.AmountOf`; the first argument bounds the recursion depth. -/
def Coins.AmountOfLoop : Nat → Coins → String → Int
  | 0, _, _ => 0
  | fuel + 1, coins, denom =>
    match coins with
    | [] => 0
    | [coin] => if coin.Denom = denom then coin.Amount else 0
    | _ =>
      let midIdx := coins.length / 2
      match coins[midIdx]? with
      | none => 0
      | some coin =>
        if denom.data < coin.Denom.data then
          Coins.AmountOfLoop fuel (coins.take midIdx) denom
        else if denom = coin.Denom then coin.Amount
        else Coins.AmountOfLoop fuel (coins.drop (midIdx + 1)) denom

/-- Go `Coins.AmountOf`. -/
def Coins.AmountOf (coins : Coins) (denom : String) : Int :=
  Coins.AmountOfLoop coins.length coins denom

/-- Go `Coins.IsAnyGT`: some coin of `coins` is strictly greater than the amount of its
denomination in `coinsB`, that amount being non-zero; `false` when `coinsB` is empty. -/
def Coins.IsAnyGT (coins coinsB : Coins) : Bool :=
  if coinsB.length = 0 then false
  else coins.any (fun coin =>
    let amt := coinsB.AmountOf coin.Denom
    decide (coin.Amount > amt) && !decide (amt = 0))

/-- The well-formedness of a coin set that the sdk maintains (`Coins.IsValid`, without the
syntactic check of the denominations): denominations strictly increasing, amounts positive. -/
def Coins.IsValid : Coins → Bool
  | [] => true
  | [coin] => coin.IsPositive
  | coin :: next :: rest =>
    coin.IsPositive && decide (coin.Denom.data < next.Denom.data) && Coins.IsValid (next :: rest)

/-- Go `findDup`: whether two neighbours of a sorted slice share a denomination. -/
def findDup : Coins → Bool
  | [] => false
  | [_] => false
  | coin :: next :: rest => decide (coin.Denom = next.Denom) || findDup (next :: rest)

/-- Go `Coins.Sort`: the coins in increasing order of their denominations. -/
def Coins.Sort (coins : Coins) : Coins :=
  coins.insertionSort (fun a b => a.Denom.data ≤ b.Denom.data)

/-- Go `sdk.NewCoins`: zero coins removed, sorted by denomination; panics (`none`) on a
duplicate denomination or a non-positive amount. -/
def NewCoins (coins : Coins) : Option Coins :=
  let newCoins := removeZeroCoins coins
  if newCoins.length = 0 then some []
  else
    let sorted := newCoins.Sort
    if findDup sorted then none
    else if !Coins.IsValid sorted then none
    else some sorted

/-- Go `sdk.NewCoin`: panics (`none`) on a negative amount. -/
def NewCoin (denom : String) (amount : Int) : Option Coin :=
  if amount < 0 then none else some ⟨denom, amount⟩

/-! ## `sdk.Dec` and `sdk.DecCoins` -/

/-- Go `sdk.Dec`: the value scaled by `10^18`. -/
structure Dec where
  raw : Int
  deriving DecidableEq, Repr

/-- Go `precisionReuse`, `10^Precision` with `Precision = 18`. -/
def precisionReuse : Int := 10 ^ 18

/-- Go `fivePrecision`, half of `precisionReuse`. -/
def fivePrecision : Int := 5 * 10 ^ 17

/-- Go `chopPrecisionAndRound` on a non-negative argument: division by `10^18` with
banker's rounding. -/
def chopPrecisionAndRoundNonNeg (d : Int) : Int :=
  let quo := d.tdiv precisionReuse
  let rem := d.tmod precisionReuse
  if rem = 0 then quo
  else if rem < fivePrecision then quo
  else if rem > fivePrecision then quo + 1
  else if quo % 2 = 0 then quo
  else quo + 1

/-- Go `chopPrecisionAndRound`: the sign is removed, the magnitude rounded, the sign restored. -/
def chopPrecisionAndRound (d : Int) : Int :=
  if d < 0 then -(chopPrecisionAndRoundNonNeg (-d)) else chopPrecisionAndRoundNonNeg d

/-- Go `chopPrecisionAndTruncate`: `big.Int.Quo`, truncated toward zero. -/
def chopPrecisionAndTruncate (d : Int) : Int := d.tdiv precisionReuse

/-- Go `sdk.NewDecWithPrec(i, prec)` for `prec ≤ 18`. -/
def NewDecWithPrec (i : Int) (prec : Nat) : Dec := ⟨i * 10 ^ (18 - prec)⟩

/-- Go `sdk.NewDec(i)`. -/
def NewDec (i : Int) : Dec := NewDecWithPrec i 0

/-- Go `Int.ToDec`. -/
def ToDec (i : Int) : Dec := ⟨i * precisionReuse⟩

/-- Go `DecimalPrecisionBits`, the bits needed for the 18 decimal places. -/
def DecimalPrecisionBits : Nat := 60

/-- Go `Dec.Mul`: product of the scaled integers, chopped with rounding; panics (`none`) when
the result needs more than `255 + 60` bits. -/
def Dec.Mul (d d2 : Dec) : Option Dec :=
  let chopped := chopPrecisionAndRound (d.raw * d2.raw)
  if bitLenExceeds chopped (255 + DecimalPrecisionBits) then none else some ⟨chopped⟩

/-- Go `Dec.MulTruncate`: product of the scaled integers, chopped with truncation; panics
(`none`) when the result needs more than `255 + 60` bits. -/
def Dec.MulTruncate (d d2 : Dec) : Option Dec :=
  let chopped := chopPrecisionAndTruncate (d.raw * d2.raw)
  if bitLenExceeds chopped (255 + DecimalPrecisionBits) then none else some ⟨chopped⟩

/-- Go `Dec.Add`: panics (`none`) when the sum needs more than `255 + 60` bits. -/
def Dec.Add (d d2 : Dec) : Option Dec :=
  let res := d.raw + d2.raw
  if bitLenExceeds res (255 + DecimalPrecisionBits) then none else some ⟨res⟩

/-- Go `Dec.Sub`: panics (`none`) when the difference needs more than `255 + 60` bits. -/
def Dec.Sub (d d2 : Dec) : Option Dec :=
  let res := d.raw - d2.raw
  if bitLenExceeds res (255 + DecimalPrecisionBits) then none else some ⟨res⟩

/-- Go `Dec.TruncateInt`: the integer part through `NewIntFromBigInt`, which panics (`none`)
when it needs more than 255 bits. -/
def Dec.TruncateInt (d : Dec) : Option Int := NewIntFromBigInt (chopPrecisionAndTruncate d.raw)

/-- Go `sdk.DecCoin`. -/
structure DecCoin where
  Denom : String
  Amount : Dec
  deriving DecidableEq, Repr

/-- Go `sdk.DecCoins`. -/
abbrev DecCoins := List DecCoin

/-- Go `DecCoin.IsZero`. -/
def DecCoin.IsZero (coin : DecCoin) : Bool := decide (coin.Amount.raw = 0)

/-- Go `DecCoin.Add`: panics (`none`) when the denominations differ or the sum overflows. -/
def DecCoin.Add (coin coinB : DecCoin) : Option DecCoin :=
  if coin.Denom ≠ coinB.Denom then none
  else (coin.Amount.Add coinB.Amount).map (fun amount => ⟨coin.Denom, amount⟩)

/-- Go `removeZeroDecCoins`. -/
def removeZeroDecCoins (coins : DecCoins) : DecCoins := coins.filter (fun c => !c.IsZero)

/-- The loop of Go `DecCoins.safeAdd`, the same merge as `Coins.safeAdd`. -/
def DecCoins.safeAddLoop : Nat → DecCoins → DecCoins → Option DecCoins
  | 0, _, _ => some []
  | _ + 1, [], coinsB => some (removeZeroDecCoins coinsB)
  | _ + 1, coinA :: restA, [] => some (removeZeroDecCoins (coinA :: restA))
  | fuel + 1, coinA :: restA, coinB :: restB =>
    if coinA.Denom.data < coinB.Denom.data then
      (DecCoins.safeAddLoop fuel restA (coinB :: restB)).map (fun sum =>
        (if coinA.IsZero then [] else [coinA]) ++ sum)
    else if coinA.Denom = coinB.Denom then
      (coinA.Add coinB).bind (fun res =>
        (DecCoins.safeAddLoop fuel restA restB).map (fun sum =>
          (if res.IsZero then [] else [res]) ++ sum))
    else
      (DecCoins.safeAddLoop fuel (coinA :: restA) restB).map (fun sum =>
        (if coinB.IsZero then [] else [coinB]) ++ sum)

/-- Go `DecCoins.Add(decCoinsB...)`. -/
def DecCoins.Add (coins coinsB : DecCoins) : Option DecCoins :=
  DecCoins.safeAddLoop (coins.length + coinsB.length + 1) coins coinsB

/-- Go `sdk.NewDecCoinsFromCoins(coins...)`: the coins pass through `NewCoins` and each
amount is scaled by `10^18`.  The result is allocated with `len(coins)` entries and filled
from `NewCoins(coins...)`: when zero coins were removed its last entries hold no amount, and
the multiplication that the handler applies next dereferences a nil `big.Int` (`none`). -/
def NewDecCoinsFromCoins (coins : Coins) : Option DecCoins :=
  (NewCoins coins).bind (fun newCoins =>
    if newCoins.length = coins.length then
      some (newCoins.map (fun coin => ⟨coin.Denom, ToDec coin.Amount⟩))
    else none)

/-- Go `DecCoins.MulDec`: every amount multiplied (rounding) by `d`, zero products dropped. -/
def DecCoins.MulDec (coins : DecCoins) (d : Dec) : Option DecCoins :=
  coins.foldlM (fun res coin =>
    (coin.Amount.Mul d).bind (fun amount =>
      let product : DecCoin := ⟨coin.Denom, amount⟩
      if !product.IsZero then res.Add [product] else some res)) []

/-- Go `DecCoins.MulDecTruncate`: every amount multiplied (truncating) by `d`, zero products
dropped. -/
def DecCoins.MulDecTruncate (coins : DecCoins) (d : Dec) : Option DecCoins :=
  coins.foldlM (fun res coin =>
    (coin.Amount.MulTruncate d).bind (fun amount =>
      let product : DecCoin := ⟨coin.Denom, amount⟩
      if !product.IsZero then res.Add [product] else some res)) []

/-- Go `sdk.NewDecCoinFromDec`: panics (`none`) on a negative amount. -/
def NewDecCoinFromDec (denom : String) (amount : Dec) : Option DecCoin :=
  if amount.raw < 0 then none else some ⟨denom, amount⟩

/-- Go `DecCoin.TruncateDecimal`: the coin of the truncated amount and the change, built
through `NewCoin` and `NewDecCoinFromDec`. -/
def DecCoin.TruncateDecimal (coin : DecCoin) : Option (Coin × DecCoin) :=
  coin.Amount.TruncateInt.bind (fun truncated =>
    (coin.Amount.Sub (ToDec truncated)).bind (fun change =>
      (NewCoin coin.Denom truncated).bind (fun t =>
        (NewDecCoinFromDec coin.Denom change).map (fun c => (t, c)))))

/-- Go `DecCoins.TruncateDecimal`, first result: each coin truncated, zero coins dropped.  The
second result, the change coins, is discarded by the handler; their accumulation adds amounts
below `1` per denomination and is not embedded. -/
def DecCoins.TruncateDecimal (coins : DecCoins) : Option Coins :=
  coins.foldlM (fun truncatedCoins coin =>
    coin.TruncateDecimal.bind (fun tc =>
      if !tc.1.IsZero then truncatedCoins.Add [tc.1] else some truncatedCoins)) []

/-! ## Go `strings` helpers used by the handler -/

/-- Go `unicode.IsSpace`. -/
def isSpace (c : Char) : Bool :=
  c = '\t' || c = '\n' || c.toNat = 0x0B || c.toNat = 0x0C || c = '\r' || c = ' ' ||
  c.toNat = 0x85 || c.toNat = 0xA0 || c.toNat = 0x1680 ||
  (decide (0x2000 ≤ c.toNat) && decide (c.toNat ≤ 0x200A)) ||
  c.toNat = 0x2028 || c.toNat = 0x2029 || c.toNat = 0x202F || c.toNat = 0x205F ||
  c.toNat = 0x3000

/-- The scan of Go `strings.Fields`: `cur` holds the characters of the field being read, in
reverse; a field ends at a space character or at the end of the input. -/
def FieldsLoop : List Char → List Char → List String
  | [], cur => if cur.isEmpty then [] else [String.mk cur.reverse]
  | c :: cs, cur =>
    if isSpace c then
      if cur.isEmpty then FieldsLoop cs [] else String.mk cur.reverse :: FieldsLoop cs []
    else FieldsLoop cs (c :: cur)

/-- Go `strings.Fields`: the maximal runs of non-space characters, in order. -/
def Fields (s : String) : List String := FieldsLoop s.data []

/-- Go `strings.TrimSuffix(s, "\n")`: one trailing newline is removed when present. -/
def TrimSuffixNewline (s : String) : String :=
  match s.data.reverse with
  | '\n' :: rest => String.mk rest.reverse
  | _ => s

/-- Go `string(n)` for an integer `n`: the UTF-8 text of the code point `n`, and U+FFFD for a
value that is not a valid code point. -/
def runeToString (n : Int) : String :=
  if 0 ≤ n ∧ n ≤ 0x10FFFF ∧ ¬ (0xD800 ≤ n ∧ n ≤ 0xDFFF) then String.singleton (Char.ofNat n.toNat)
  else String.singleton (Char.ofNat 0xFFFD)

/-- Go `int64(v)` for a `uint64` value `v`. -/
def toInt64 (v : Nat) : Int :=
  if v % 2 ^ 64 < 2 ^ 63 then (v % 2 ^ 64 : Nat) else ((v % 2 ^ 64 : Nat) : Int) - 2 ^ 64

/-! ## Data of the `airequest` module -/

/-- Go `sdk.ValAddress`, identified with its bech32 text (`ValAddress.String()`). -/
structure ValAddress where
  bech32 : String
  deriving DecidableEq, Repr

/-- Go `sdk.AccAddress`, identified with its bech32 text (`AccAddress.String()`). -/
structure AccAddress where
  bech32 : String
  deriving DecidableEq, Repr

/-- A validator of the roster: `NewValidator(address, votingPower, status)`
(`x/websocket/keeper/keeper_validator.go`). -/
structure Validator where
  Address : ValAddress
  VotingPower : Int
  Status : String
  deriving DecidableEq, Repr

/-- Go `provider.TestCaseI`: the handler reads `GetFees()` only. -/
structure TestCaseI where
  Name : String
  Owner : AccAddress
  Fees : Coins
  deriving DecidableEq, Repr

/-- Go `provider.AIDataSourceI`: the handler reads `GetFees()` only. -/
structure AIDataSourceI where
  Name : String
  Owner : AccAddress
  Fees : Coins
  deriving DecidableEq, Repr

/-- Go `types.MsgSetAIRequest`, the field `MsgAIRequest` of the message.  `Fees` holds the
coin set that `sdk.ParseCoins` returns on the text of the field (the handler discards the
parse error: the text was validated with the message); `sdk.ParseCoins` returns its coins
sorted. -/
structure MsgSetAIRequest where
  RequestID : String
  OracleScriptName : String
  Creator : AccAddress
  ValidatorCount : Int
  Fees : Coins
  Input : String
  ExpectedOutput : String
  deriving DecidableEq, Repr

/-- Go `types.MsgSetOCRRequest`. -/
structure MsgSetOCRRequest where
  ImageHash : String
  ImageName : String
  MsgAIRequest : MsgSetAIRequest
  deriving DecidableEq, Repr

/-- Go `types.AIRequest`, with the fields in the order of the arguments of
`types.NewAIRequest`. -/
structure AIRequest where
  RequestID : String
  OracleScriptName : String
  Creator : AccAddress
  Validators : List ValAddress
  BlockHeight : Int
  AIDataSources : List AIDataSourceI
  TestCases : List TestCaseI
  Fees : Coins
  Input : String
  ExpectedOutput : String
  deriving DecidableEq, Repr

/-- Go `types.NewAIRequest`. -/
def NewAIRequest (requestID oscriptName : String) (creator : AccAddress)
    (validators : List ValAddress) (blockHeight : Int) (aiDataSources : List AIDataSourceI)
    (testCases : List TestCaseI) (fees : Coins) (input expectedOutput : String) : AIRequest :=
  ⟨requestID, oscriptName, creator, validators, blockHeight, aiDataSources, testCases, fees,
    input, expectedOutput⟩

/-- The registered errors of `x/airequest/types` that the handler wraps. -/
inductive ErrKind where
  | ErrCannotRandomValidators
  | ErrFailedToOpenFile
  | ErrTestCaseNotFound
  | ErrDataSourceNotFound
  | ErrNeedMoreFees
  deriving DecidableEq, Repr

/-- How a run of the handler ends without a result: `sdkerrors.Wrap(kind, description)`
returned as the error, or a Go panic raised inside the sdk. -/
inductive Abort where
  | error (kind : ErrKind) (description : String)
  | panic
  deriving DecidableEq, Repr

/-- The event types of `x/airequest/types` used by the handler. -/
inductive EventType where
  | EventTypeSetOCRRequest
  | EventTypeRequestWithData
  deriving DecidableEq, Repr

/-- The attribute keys of `x/airequest/types` used by the handler. -/
inductive AttributeKey where
  | AttributeRequestID
  | AttributeRequestValidator
  | AttributeOracleScriptName
  | AttributeRequestCreator
  | AttributeRequestImageHash
  | AttributeRequestImageName
  | AttributeRequestValidatorCount
  | AttributeRequestInput
  | AttributeRequestExpectedOutput
  deriving DecidableEq, Repr

/-- Go `sdk.Attribute`. -/
structure Attribute where
  Key : AttributeKey
  Value : String
  deriving DecidableEq, Repr

/-- Go `sdk.Event`; `Ty` is the Go field `Type`. -/
structure Event where
  Ty : EventType
  Attributes : List Attribute
  deriving DecidableEq, Repr

/-- Go `sdk.NewEvent(ty)` without attributes. -/
def NewEvent (ty : EventType) : Event := ⟨ty, []⟩

/-- Go `Event.AppendAttributes`. -/
def Event.AppendAttributes (e : Event) (attrs : List Attribute) : Event :=
  ⟨e.Ty, e.Attributes ++ attrs⟩

/-- Go `sdk.Result`, of which the handler fills `Events`. -/
structure Result where
  Events : List Event
  deriving DecidableEq, Repr

/-- The parameter keys read by the handler. -/
inductive ParamKey where
  | KeyOracleScriptRewardPercentage
  deriving DecidableEq, Repr

/-- One call from the handler to a collaborator. -/
inductive Call where
  | RandomValidators (size : Int) (nonce : String)
  | GetParam (key : ParamKey)
  | GetOScriptPath (name : String)
  | Run (oscriptPath : String) (mode : String)
  | GetTestCaseI (name : String)
  | GetAIDataSourceI (name : String)
  | SetAIRequest (id : String) (request : AIRequest)
  | EmitEvent (event : Event)
  deriving DecidableEq, Repr

/-- The request store: the records under their keys. -/
abbrev Store := List (String × AIRequest)

/-- Go `sdk.Context` as far as the handler uses it: the block height, the validator roster
and the request store reachable through it, the events of its event manager, and the calls
made so far. -/
structure Ctx where
  BlockHeight : Int
  Roster : List Validator
  store : Store
  events : List Event
  calls : List Call
  deriving DecidableEq, Repr

/-- A call is appended to the record of calls. -/
def Ctx.record (ctx : Ctx) (c : Call) : Ctx := { ctx with calls := ctx.calls ++ [c] }

/-- Go `ctx.EventManager().EmitEvent(event)`. -/
def Ctx.EmitEvent (ctx : Ctx) (event : Event) : Ctx :=
  { ctx.record (.EmitEvent event) with events := ctx.events ++ [event] }

/-- The collaborators of the handler, none of which is part of the handler file; each is a
parameter of the embedding.

* `RandomValidators`: the sampler of the keeper (`k.RandomValidators(ctx, size, nonce)`), a
  function of what it reads through `ctx` (the block height and the validator roster), of the
  requested size and of the nonce (the bytes of the request ID, represented by the string
  itself); it returns the ordered committee or fails with a message.
* `GetParam`: the `uint64` stored under a parameter key.
* `GetOScriptPath`, `GetTestCaseI`, `GetAIDataSourceI`: the provider keeper.
* `Run`: `exec.Command("bash", oscriptPath, mode)` with standard input `some input`; `none`
  when `cmd.Run()` returns an error, else the text written to standard output.
* `SetAIRequest`: the store write of the keeper, whose result the handler does not inspect. -/
structure Keeper where
  RandomValidators : Int → List Validator → Int → String → Except String (List ValAddress)
  GetParam : ParamKey → Nat
  GetOScriptPath : String → String
  Run : String → String → Option String
  GetTestCaseI : String → Except String TestCaseI
  GetAIDataSourceI : String → Except String AIDataSourceI
  SetAIRequest : Store → String → AIRequest → Store

/-- A key-value store write that replaces the record under the key, as `KVStore.Set` does. -/
def kvSet (store : Store) (id : String) (request : AIRequest) : Store :=
  (id, request) :: store.filter (fun kv => kv.1 ≠ id)

/-- The record under a key of the store. -/
def kvGet (store : Store) (id : String) : Option AIRequest := store.lookup id

/-! ## `handleMsgSetOCRRequest` -/

/-- Lines 79-89: the test cases are fetched in listed order; the first failing lookup ends the
handler with `ErrTestCaseNotFound`, otherwise the object is appended and its fees are added to
the running total (a panic when the addition overflows). -/
def testCaseLoop (k : Keeper) :
    List String → Ctx → List TestCaseI → Coins → Except Abort (List TestCaseI × Coins) × Ctx
  | [], ctx, testcaseObjs, totalFees => (.ok (testcaseObjs, totalFees), ctx)
  | name :: rest, ctx, testcaseObjs, totalFees =>
    let ctx := ctx.record (.GetTestCaseI name)
    match k.GetTestCaseI name with
    | .error err =>
      (.error (.error .ErrTestCaseNotFound ("failed to get test case: " ++ err)), ctx)
    | .ok testCase =>
      match totalFees.Add testCase.Fees with
      | none => (.error .panic, ctx)
      | some totalFees => testCaseLoop k rest ctx (testcaseObjs ++ [testCase]) totalFees

/-- Lines 91-100: the data sources are fetched in listed order; the first failing lookup ends
the handler with `ErrDataSourceNotFound`, otherwise the object is appended and its fees are
added to the running total (a panic when the addition overflows). -/
def dataSourceLoop (k : Keeper) :
    List String → Ctx → List AIDataSourceI → Coins →
      Except Abort (List AIDataSourceI × Coins) × Ctx
  | [], ctx, dataSourceObjs, totalFees => (.ok (dataSourceObjs, totalFees), ctx)
  | name :: rest, ctx, dataSourceObjs, totalFees =>
    let ctx := ctx.record (.GetAIDataSourceI name)
    match k.GetAIDataSourceI name with
    | .error err =>
      (.error (.error .ErrDataSourceNotFound ("failed to get data source: " ++ err)), ctx)
    | .ok aiDataSource =>
      match totalFees.Add aiDataSource.Fees with
      | none => (.error .panic, ctx)
      | some totalFees => dataSourceLoop k rest ctx (dataSourceObjs ++ [aiDataSource]) totalFees

/-- Line 31: `sdk.NewDecCoinsFromCoins(fees...).MulDecTruncate(rewardRatio).TruncateDecimal()`. -/
def providedCoinsOf (fees : Coins) (rewardRatio : Dec) : Option Coins :=
  (NewDecCoinsFromCoins fees).bind (fun dec =>
    (dec.MulDecTruncate rewardRatio).bind (fun product => product.TruncateDecimal))

/-- Line 103:
`sdk.NewDecCoinsFromCoins(totalFees...).MulDec(sdk.NewDecWithPrec(int64(40), 2)).TruncateDecimal()`. -/
def valFeesOf (totalFees : Coins) : Option Coins :=
  (NewDecCoinsFromCoins totalFees).bind (fun dec =>
    (dec.MulDec (NewDecWithPrec 40 2)).bind (fun product => product.TruncateDecimal))

/-- Lines 105-106: `bothFees := sdk.NewDecCoinsFromCoins(totalFees.Add(valFees...)...)` and
`finalFees, _ := bothFees.MulDec(sdk.NewDec(int64(ValidatorCount))).TruncateDecimal()`. -/
def finalFeesOf (totalFees valFees : Coins) (validatorCount : Int) : Option Coins :=
  (totalFees.Add valFees).bind (fun sum =>
    (NewDecCoinsFromCoins sum).bind (fun bothFees =>
      (bothFees.MulDec (NewDec validatorCount)).bind (fun product => product.TruncateDecimal)))

/-- Lines 124-132: the event naming the request and its validators. -/
def requestEvent (request : AIRequest) (validators : List ValAddress) : Event :=
  validators.foldl
    (fun event validator =>
      event.AppendAttributes [⟨.AttributeRequestValidator, validator.bech32⟩])
    ((NewEvent .EventTypeSetOCRRequest).AppendAttributes
      [⟨.AttributeRequestID, request.RequestID⟩])

/-- Lines 137-147: the event carrying the data of the request. -/
def requestWithDataEvent (request : AIRequest) (msg : MsgSetOCRRequest) : Event :=
  (NewEvent .EventTypeRequestWithData).AppendAttributes
    [⟨.AttributeRequestID, request.RequestID⟩,
     ⟨.AttributeOracleScriptName, request.OracleScriptName⟩,
     ⟨.AttributeRequestCreator, msg.MsgAIRequest.Creator.bech32⟩,
     ⟨.AttributeRequestImageHash, msg.ImageHash⟩,
     ⟨.AttributeRequestImageName, msg.ImageName⟩,
     ⟨.AttributeRequestValidatorCount, runeToString msg.MsgAIRequest.ValidatorCount⟩,
     ⟨.AttributeRequestInput, msg.MsgAIRequest.Input⟩,
     ⟨.AttributeRequestExpectedOutput, msg.MsgAIRequest.ExpectedOutput⟩]

/-- Go `handleMsgSetOCRRequest(ctx, k, msg)`: the returned pair `(*sdk.Result, error)` (or a
panic) and the context after the run.  The `fmt.Println` calls write to standard output only
and are not embedded. -/
def handleMsgSetOCRRequest (ctx : Ctx) (k : Keeper) (msg : MsgSetOCRRequest) :
    Except Abort Result × Ctx :=
  -- line 19
  let ctx := ctx.record (.RandomValidators msg.MsgAIRequest.ValidatorCount msg.MsgAIRequest.RequestID)
  match k.RandomValidators ctx.BlockHeight ctx.Roster msg.MsgAIRequest.ValidatorCount
      msg.MsgAIRequest.RequestID with
  | .error err => (.error (.error .ErrCannotRandomValidators err), ctx)
  | .ok validators =>
  -- lines 25-31
  let fees := msg.MsgAIRequest.Fees
  let ctx := ctx.record (.GetParam .KeyOracleScriptRewardPercentage)
  let rewardRatio := NewDecWithPrec (toInt64 (k.GetParam .KeyOracleScriptRewardPercentage)) 2
  match providedCoinsOf fees rewardRatio with
  | none => (.error .panic, ctx)
  | some providedCoins =>
  -- lines 36-51
  let ctx := ctx.record (.GetOScriptPath msg.MsgAIRequest.OracleScriptName)
  let oscriptPath := k.GetOScriptPath msg.MsgAIRequest.OracleScriptName
  let ctx := ctx.record (.Run oscriptPath "aiDataSource")
  match k.Run oscriptPath "aiDataSource" with
  | none => (.error (.error .ErrFailedToOpenFile "failed to collect data source name"), ctx)
  | some dataSourceName =>
  let result := TrimSuffixNewline dataSourceName
  let aiDataSources := Fields result
  -- lines 54-66
  let ctx := ctx.record (.Run oscriptPath "testcase")
  match k.Run oscriptPath "testcase" with
  | none =>
    (.error (.error .ErrFailedToOpenFile ("failed to collect test case name: " ++ result)), ctx)
  | some testCaseName =>
  let testCases := Fields (TrimSuffixNewline testCaseName)
  -- lines 70-100
  match testCaseLoop k testCases ctx [] [] with
  | (.error e, ctx) => (.error e, ctx)
  | (.ok (testcaseObjs, totalFees), ctx) =>
  match dataSourceLoop k aiDataSources ctx [] totalFees with
  | (.error e, ctx) => (.error e, ctx)
  | (.ok (dataSourceObjs, totalFees), ctx) =>
  -- lines 103-106
  match valFeesOf totalFees with
  | none => (.error .panic, ctx)
  | some valFees =>
  -- `sdk.NewCoins` has sorted the slice `totalFees` in place
  let totalFees := totalFees.Sort
  match finalFeesOf totalFees valFees msg.MsgAIRequest.ValidatorCount with
  | none => (.error .panic, ctx)
  | some _finalFees =>
  -- lines 111-113
  if totalFees.IsAnyGT providedCoins then
    (.error (.error .ErrNeedMoreFees
      "Fees given by the users are less than the total fees needed"), ctx)
  else
  -- lines 116-120
  let request := NewAIRequest msg.MsgAIRequest.RequestID msg.MsgAIRequest.OracleScriptName
    msg.MsgAIRequest.Creator validators ctx.BlockHeight dataSourceObjs testcaseObjs fees
    msg.MsgAIRequest.Input msg.MsgAIRequest.ExpectedOutput
  let ctx := ctx.record (.SetAIRequest request.RequestID request)
  let ctx := { ctx with store := k.SetAIRequest ctx.store request.RequestID request }
  -- lines 124-149
  let ctx := ctx.EmitEvent (requestEvent request validators)
  let ctx := ctx.EmitEvent (requestWithDataEvent request msg)
  (.ok ⟨ctx.events⟩, ctx)

/-! ## Parameters of the `airesult` module (`x/airesult/types/params.go`) -/

/-- A Go value held in an `interface` variable, with its dynamic type. -/
inductive GoValue where
  | uint64 (v : Nat)
  | int64 (v : Int)
  | int (v : Int)
  | uint32 (v : Nat)
  | string (s : String)
  | bool (b : Bool)
  | nil
  deriving DecidableEq, Repr

/-- The text that the verb `%T` prints for a value. -/
def GoValue.typeName : GoValue → String
  | .uint64 _ => "uint64"
  | .int64 _ => "int64"
  | .int _ => "int"
  | .uint32 _ => "uint32"
  | .string _ => "string"
  | .bool _ => "bool"
  | .nil => "<nil>"

/-- Go `DefaultExpirationCount = uint64(10)`. -/
def DefaultExpirationCount : Nat := 10

/-- Go `Params`. -/
structure Params where
  ExpirationCount : Nat
  deriving DecidableEq, Repr

/-- Go `NewParams`. -/
def NewParams (expirationPercentage : Nat) : Params := ⟨expirationPercentage⟩

/-- Go `DefaultParams`. -/
def DefaultParams : Params := NewParams DefaultExpirationCount

/-- Go `validateExpirationCount`: `none` is the `nil` error, `some text` an error with that
text. -/
def validateExpirationCount (i : GoValue) : Option String :=
  match i with
  | .uint64 v =>
    if v = 0 then some ("invalid expiration count: " ++ toString v)
    else none
  | other => some ("invalid parameter type: " ++ other.typeName)

/-! ## Auxiliary definitions used in the statements and proofs -/

/-- The sum of two coins of one denomination on unbounded integers: the value of `Coin.Add`
when it does not panic. -/
def Coin.sum (coin coinB : Coin) : Coin := ⟨coin.Denom, coin.Amount + coinB.Amount⟩

/-- The merge of `Coins.safeAdd` on unbounded integers: the value of `Coins.safeAddLoop` when
no sum overflows (`Coins.safeAddLoop_some`, `Coins.safeAddLoop_eq`). -/
def Coins.mergeLoop : Nat → Coins → Coins → Coins
  | 0, _, _ => []
  | _ + 1, [], coinsB => removeZeroCoins coinsB
  | _ + 1, coinA :: restA, [] => removeZeroCoins (coinA :: restA)
  | fuel + 1, coinA :: restA, coinB :: restB =>
    if coinA.Denom.data < coinB.Denom.data then
      (if coinA.IsZero then [] else [coinA]) ++ Coins.mergeLoop fuel restA (coinB :: restB)
    else if coinA.Denom = coinB.Denom then
      (if (coinA.sum coinB).IsZero then [] else [coinA.sum coinB])
        ++ Coins.mergeLoop fuel restA restB
    else
      (if coinB.IsZero then [] else [coinB]) ++ Coins.mergeLoop fuel (coinA :: restA) restB

/-- The value of `Coins.Add` when no sum overflows. -/
def Coins.merge (coins coinsB : Coins) : Coins :=
  Coins.mergeLoop (coins.length + coinsB.length + 1) coins coinsB

/-- The amount that a list of coins holds in a denomination, summed entry by entry. -/
def Coins.total : Coins → String → Int
  | [], _ => 0
  | c :: cs, d => (if c.Denom = d then c.Amount else 0) + Coins.total cs d

/-- Denominations strictly increasing along the list. -/
def Coins.Sorted (l : Coins) : Prop := l.Pairwise (fun a b => a.Denom.data < b.Denom.data)

/-- Every amount positive. -/
def Coins.Pos (l : Coins) : Prop := ∀ c ∈ l, 0 < c.Amount

/-- The coin set obtained by applying `g` to every amount and dropping the zero results. -/
def Coins.mapAmount (g : Int → Int) (l : Coins) : Coins :=
  l.filterMap (fun c => if g c.Amount = 0 then none else some ⟨c.Denom, g c.Amount⟩)

/-- The objects that the names of a list resolve to, in listed order. -/
def resolved {α : Type} (f : String → Except String α) (names : List String) : List α :=
  names.filterMap (fun name => (f name).toOption)

/-- A lookup of the name succeeds. -/
def Resolves {α : Type} (f : String → Except String α) (name : String) : Prop :=
  ∃ a, f name = .ok a

/-- The context after a list of calls has been recorded. -/
def Ctx.recordAll (ctx : Ctx) (cs : List Call) : Ctx := { ctx with calls := ctx.calls ++ cs }

/-- The stored reward percentage as the decimal ratio of line 27. -/
def rewardRatioOf (k : Keeper) : Dec :=
  NewDecWithPrec (toInt64 (k.GetParam .KeyOracleScriptRewardPercentage)) 2

/-- The names of the data sources and of the test cases that the handler reads from the two
script outputs. -/
def namesOf (out : String) : List String := Fields (TrimSuffixNewline out)

/-- The calls of lines 19-36, before the first run of the script. -/
def callsBeforeRun (msg : MsgSetOCRRequest) : List Call :=
  [.RandomValidators msg.MsgAIRequest.ValidatorCount msg.MsgAIRequest.RequestID,
   .GetParam .KeyOracleScriptRewardPercentage,
   .GetOScriptPath msg.MsgAIRequest.OracleScriptName]

/-- The two runs of the script, in program order. -/
def runCalls (k : Keeper) (msg : MsgSetOCRRequest) : List Call :=
  [.Run (k.GetOScriptPath msg.MsgAIRequest.OracleScriptName) "aiDataSource",
   .Run (k.GetOScriptPath msg.MsgAIRequest.OracleScriptName) "testcase"]

/-- The total of the fees of resolved test cases and data sources, accumulated as the two
loops do; `none` when an addition panics. -/
def totalFeesOf (tcs : List TestCaseI) (dss : List AIDataSourceI) : Option Coins :=
  ((tcs.map (·.Fees)).foldlM Coins.Add []).bind (fun subtotal =>
    (dss.map (·.Fees)).foldlM Coins.Add subtotal)

/-- The total of the fees on unbounded integers: the value of `totalFeesOf` when no addition
overflows. -/
def mergedFeesOf (tcs : List TestCaseI) (dss : List AIDataSourceI) : Coins :=
  (dss.map (·.Fees)).foldl Coins.merge ((tcs.map (·.Fees)).foldl Coins.merge [])

/-- The sum, in a denomination, of the declared fees of the given test cases and data
sources, one summand per entry. -/
def declaredFees (tcs : List TestCaseI) (dss : List AIDataSourceI) (d : String) : Int :=
  (tcs.map (fun t => t.Fees.AmountOf d)).sum + (dss.map (fun s => s.Fees.AmountOf d)).sum

/-- The request built on line 116. -/
def requestOf (ctx : Ctx) (msg : MsgSetOCRRequest) (validators : List ValAddress)
    (dss : List AIDataSourceI) (tcs : List TestCaseI) : AIRequest :=
  NewAIRequest msg.MsgAIRequest.RequestID msg.MsgAIRequest.OracleScriptName
    msg.MsgAIRequest.Creator validators ctx.BlockHeight dss tcs msg.MsgAIRequest.Fees
    msg.MsgAIRequest.Input msg.MsgAIRequest.ExpectedOutput

/-- The calls made up to the end of the lookups when every name resolves. -/
def callsToLookups (k : Keeper) (msg : MsgSetOCRRequest) (dsOut tcOut : String) : List Call :=
  callsBeforeRun msg ++ runCalls k msg ++ (namesOf tcOut).map Call.GetTestCaseI
    ++ (namesOf dsOut).map Call.GetAIDataSourceI

/-- The context after a successful creation. -/
def createdCtx (ctx : Ctx) (k : Keeper) (msg : MsgSetOCRRequest) (dsOut tcOut : String)
    (request : AIRequest) (vals : List ValAddress) : Ctx :=
  { BlockHeight := ctx.BlockHeight
    Roster := ctx.Roster
    store := k.SetAIRequest ctx.store request.RequestID request
    events := ctx.events ++ [requestEvent request vals, requestWithDataEvent request msg]
    calls := ctx.calls ++ (callsToLookups k msg dsOut tcOut ++
      [.SetAIRequest request.RequestID request, .EmitEvent (requestEvent request vals),
       .EmitEvent (requestWithDataEvent request msg)]) }

deriving instance DecidableEq for Except

/-- The calls that only read from a collaborator. -/
def Call.isRead : Call → Bool
  | .GetParam _ => true
  | .GetOScriptPath _ => true
  | .Run _ _ => true
  | .GetTestCaseI _ => true
  | .GetAIDataSourceI _ => true
  | _ => false

/-- The calls that write: the store write and the event emissions. -/
def Call.isWrite : Call → Bool
  | .SetAIRequest _ _ => true
  | .EmitEvent _ => true
  | _ => false

/-- The call to the sampler made on line 19. -/
def sampleCall (msg : MsgSetOCRRequest) : Call :=
  .RandomValidators msg.MsgAIRequest.ValidatorCount msg.MsgAIRequest.RequestID

/-- The calls that follow the sampling up to the end of the lookups when every name
resolves. -/
def readsToLookups (k : Keeper) (msg : MsgSetOCRRequest) (dsOut tcOut : String) : List Call :=
  [.GetParam .KeyOracleScriptRewardPercentage,
   .GetOScriptPath msg.MsgAIRequest.OracleScriptName] ++ runCalls k msg
    ++ (namesOf tcOut).map Call.GetTestCaseI ++ (namesOf dsOut).map Call.GetAIDataSourceI

/-- A keeper for the examples: the sampler takes the first `size` validators of the roster,
the stored reward percentage is `ratio`, the script lists the data sources `ds1`, `ds2`
(35 orai each) and the test case `tc1` (30 orai), and the store write is `kvSet`. -/
def exKeeper (ratio : Nat) : Keeper where
  RandomValidators := fun _ roster size _ =>
    if 0 ≤ size ∧ size.toNat ≤ roster.length then .ok ((roster.take size.toNat).map (·.Address))
    else .error "not enough validators"
  GetParam := fun _ => ratio
  GetOScriptPath := fun name => name
  Run := fun _ mode =>
    if mode = "aiDataSource" then some "ds1 ds2\n"
    else if mode = "testcase" then some "tc1\n" else none
  GetTestCaseI := fun name =>
    if name = "tc1" then .ok ⟨"tc1", ⟨"orai1owner"⟩, [⟨"orai", 30⟩]⟩
    else .error "test case not found"
  GetAIDataSourceI := fun name =>
    if name = "ds1" ∨ name = "ds2" then .ok ⟨name, ⟨"orai1owner"⟩, [⟨"orai", 35⟩]⟩
    else .error "data source not found"
  SetAIRequest := kvSet

/-- A context for the examples: block height 5, a roster of five validators, an empty store. -/
def exCtx : Ctx :=
  { BlockHeight := 5
    Roster := [⟨⟨"val1"⟩, 10, "bonded"⟩, ⟨⟨"val2"⟩, 10, "bonded"⟩, ⟨⟨"val3"⟩, 10, "bonded"⟩,
      ⟨⟨"val4"⟩, 10, "bonded"⟩, ⟨⟨"val5"⟩, 10, "bonded"⟩]
    store := []
    events := []
    calls := [] }

/-- A message for the examples: request `req1` for `count` validators paying `fee` orai. -/
def exMsg (count fee : Int) : MsgSetOCRRequest :=
  { ImageHash := "hash"
    ImageName := "image"
    MsgAIRequest :=
      { RequestID := "req1"
        OracleScriptName := "oscript"
        Creator := ⟨"orai1creator"⟩
        ValidatorCount := count
        Fees := [⟨"orai", fee⟩]
        Input := "input"
        ExpectedOutput := "output" } }

/-- A lookup of the name succeeds with a valid fee set. -/
def ResolvesValid {α : Type} (f : String → Except String α) (fees : α → Coins)
    (name : String) : Prop :=
  ∃ a, f name = .ok a ∧ (fees a).IsValid = true

/-- A request stored before the examples run, under the ID used by the example message. -/
def exStoredRequest : AIRequest :=
  NewAIRequest "req1" "otherscript" ⟨"orai1other"⟩ [⟨"val5"⟩] 1 [] [] [] "old input" "old output"

/-- The example context with `exStoredRequest` in its store. -/
def exCtxStored : Ctx := { exCtx with store := [("req1", exStoredRequest)] }

/-- The example keeper with a script that lists the unknown data source `ds9`. -/
def exKeeperUnknown : Keeper :=
  { exKeeper 70 with
    Run := fun _ mode =>
      if mode = "aiDataSource" then some "ds1 ds9 ds2\n"
      else if mode = "testcase" then some "tc1\n" else none }

/-- The calls that run the oracle script. -/
def Call.isRun : Call → Bool
  | .Run _ _ => true
  | _ => false

/-- The text that lists the given names separated by single blanks. -/
def joinWords : List String → List Char
  | [] => []
  | [w] => w.data
  | w :: next :: rest => w.data ++ ' ' :: joinWords (next :: rest)

/-- A name as the script can list it: not empty and free of space characters. -/
def IsWord (w : String) : Prop := w.data ≠ [] ∧ ∀ c ∈ w.data, isSpace c = false

/-- The example keeper with a script whose run in data-source mode fails. -/
def exKeeperFailingRun : Keeper :=
  { exKeeper 70 with
    Run := fun _ mode => if mode = "testcase" then some "tc1\n" else none }

/-- The context after a successful creation, seen from the context in which the lookups
ended. -/
def storedCtx (ctx : Ctx) (k : Keeper) (msg : MsgSetOCRRequest) (request : AIRequest)
    (vals : List ValAddress) : Ctx :=
  { BlockHeight := ctx.BlockHeight
    Roster := ctx.Roster
    store := k.SetAIRequest ctx.store request.RequestID request
    events := ctx.events ++ [requestEvent request vals, requestWithDataEvent request msg]
    calls := ctx.calls ++
      [.SetAIRequest request.RequestID request, .EmitEvent (requestEvent request vals),
       .EmitEvent (requestWithDataEvent request msg)] }

/-- Lines 103-149 of the handler: the fee arithmetic, the fee check, the store write and the
two events, from the context in which the lookups ended. -/
def afterLookups (ctx : Ctx) (k : Keeper) (msg : MsgSetOCRRequest) (vals : List ValAddress)
    (providedCoins : Coins) (dss : List AIDataSourceI) (tcs : List TestCaseI)
    (totalFees : Coins) : Except Abort Result × Ctx :=
  match valFeesOf totalFees with
  | none => (.error .panic, ctx)
  | some valFees =>
    match finalFeesOf totalFees.Sort valFees msg.MsgAIRequest.ValidatorCount with
    | none => (.error .panic, ctx)
    | some _ =>
      if totalFees.Sort.IsAnyGT providedCoins then
        (.error (.error .ErrNeedMoreFees
          "Fees given by the users are less than the total fees needed"), ctx)
      else
        (.ok ⟨ctx.events ++
            [requestEvent (requestOf ctx msg vals dss tcs) vals,
             requestWithDataEvent (requestOf ctx msg vals dss tcs) msg]⟩,
         storedCtx ctx k msg (requestOf ctx msg vals dss tcs) vals)

/-- The example keeper with test cases `tc1`, `tc2` of `2^254` orai each and a script that
lists them followed by the unknown test case `tc9`. -/
def exKeeperHuge : Keeper :=
  { exKeeper 70 with
    Run := fun _ mode =>
      if mode = "aiDataSource" then some "ds1\n"
      else if mode = "testcase" then some "tc1 tc2 tc9\n" else none
    GetTestCaseI := fun name =>
      if name = "tc1" ∨ name = "tc2" then
        .ok ⟨name, ⟨"orai1owner"⟩, [⟨"orai", (2 ^ 254 : Nat)⟩]⟩
      else .error "test case not found" }

theorem Coins.total_append (a b : Coins) (d : String) :
    Coins.total (a ++ b) d = Coins.total a d + Coins.total b d := by
  induction a with
  | nil => simp [Coins.total]
  | cons c cs ih => simp [Coins.total, ih]; ring

theorem total_removeZeroCoins (a : Coins) (d : String) :
    Coins.total (removeZeroCoins a) d = Coins.total a d := by
  induction a with
  | nil => simp [removeZeroCoins, Coins.total]
  | cons c cs ih =>
    unfold removeZeroCoins at ih ⊢
    rw [List.filter_cons]
    by_cases h : c.Amount = 0
    · have hz : c.IsZero = true := by simp [Coin.IsZero, h]
      simp [hz, Coins.total, ih, h]
    · have hz : c.IsZero = false := by simp [Coin.IsZero, h]
      simp [hz, Coins.total, ih]

theorem Coins.mergeLoop_total (d : String) :
    ∀ (fuel : Nat) (a b : Coins), a.length + b.length < fuel →
      Coins.total (Coins.mergeLoop fuel a b) d = Coins.total a d + Coins.total b d := by
  intro fuel
  induction fuel with
  | zero => intro a b h; omega
  | succ n ih =>
    intro a b h
    cases a with
    | nil => simp [Coins.mergeLoop, total_removeZeroCoins, Coins.total]
    | cons x xs =>
      cases b with
      | nil => simp [Coins.mergeLoop, total_removeZeroCoins, Coins.total]
      | cons y ys =>
        simp only [List.length_cons] at h
        simp only [Coins.mergeLoop]
        split_ifs with h1 h2 h3 h4 h5
        all_goals simp only [Coins.total_append, List.nil_append]
        all_goals first
          | rw [ih xs (y :: ys) (by simp only [List.length_cons]; omega)]
          | rw [ih xs ys (by omega)]
          | rw [ih (x :: xs) ys (by simp only [List.length_cons]; omega)]
        all_goals simp only [Coins.total, Coin.IsZero, Coin.sum, decide_eq_true_eq] at *
        all_goals (try split_ifs) <;> (try simp_all) <;> (try omega)

theorem Coins.merge_total (a b : Coins) (d : String) :
    Coins.total (a.merge b) d = Coins.total a d + Coins.total b d :=
  Coins.mergeLoop_total d _ a b (by omega)

theorem denom_ne_of_lt {a b : String} (h : a.data < b.data) : a ≠ b := by
  intro e; subst e; exact lt_irrefl _ h

theorem denom_lt_of_not {a b : String} (h1 : ¬ a.data < b.data) (h2 : ¬ a = b) :
    b.data < a.data := by
  rcases lt_trichotomy a.data b.data with h | h | h
  · exact absurd h h1
  · exact absurd (String.ext h) h2
  · exact h

theorem Coins.IsValid_iff (l : Coins) : l.IsValid = true ↔ l.Sorted ∧ l.Pos := by
  induction l with
  | nil => simp [Coins.IsValid, Coins.Sorted, Coins.Pos]
  | cons c cs ih =>
    cases cs with
    | nil => simp [Coins.IsValid, Coins.Sorted, Coins.Pos, Coin.IsPositive]
    | cons n rest =>
      simp only [Coins.IsValid, Bool.and_eq_true, decide_eq_true_eq, ih, Coin.IsPositive]
      unfold Coins.Sorted Coins.Pos
      constructor
      · rintro ⟨⟨hp, hlt⟩, hs, hpos⟩
        refine ⟨?_, ?_⟩
        · rw [List.pairwise_cons]
          refine ⟨?_, hs⟩
          intro x hx
          rw [List.mem_cons] at hx
          rcases hx with rfl | hx
          · exact hlt
          · exact lt_trans hlt ((List.pairwise_cons.mp hs).1 x hx)
        · intro x hx
          rw [List.mem_cons] at hx
          rcases hx with rfl | hx
          · exact hp
          · exact hpos x hx
      · rintro ⟨hs, hpos⟩
        rw [List.pairwise_cons] at hs
        exact ⟨⟨hpos c (List.mem_cons_self _ _), hs.1 n (List.mem_cons_self _ _)⟩, hs.2,
          fun x hx => hpos x (List.mem_cons_of_mem _ hx)⟩

theorem Coins.total_eq_zero (l : Coins) (d : String) (h : ∀ c ∈ l, c.Denom ≠ d) :
    Coins.total l d = 0 := by
  induction l with
  | nil => rfl
  | cons c cs ih =>
    have h1 := h c (List.mem_cons_self _ _)
    simp [Coins.total, h1, ih (fun x hx => h x (List.mem_cons_of_mem _ hx))]

theorem Coins.AmountOfLoop_eq_total (d : String) :
    ∀ (fuel : Nat) (l : Coins), l.length ≤ fuel → l.Sorted →
      Coins.AmountOfLoop fuel l d = Coins.total l d := by
  intro fuel
  induction fuel with
  | zero =>
    intro l hl _
    have : l = [] := List.length_eq_zero.mp (by omega)
    subst this; rfl
  | succ n ih =>
    intro l hl hs
    cases l with
    | nil => rfl
    | cons x xs =>
      cases xs with
      | nil => simp [Coins.AmountOfLoop, Coins.total]
      | cons y ys =>
        have hmid : (x :: y :: ys).length / 2 < (x :: y :: ys).length :=
          Nat.div_lt_self (by simp) (by decide)
        generalize hL : x :: y :: ys = L at hmid hl hs
        generalize hm : L.length / 2 = m at hmid
        have hget : L[m]? = some L[m] := List.getElem?_eq_getElem hmid
        have hsplit : L = L.take m ++ L[m] :: L.drop (m + 1) := by
          rw [← List.drop_eq_getElem_cons hmid, List.take_append_drop]
        have hlow : ∀ c ∈ L.take m, c.Denom.data < L[m].Denom.data := by
          intro c hc
          have hs2 : Coins.Sorted (L.take m ++ L[m] :: L.drop (m + 1)) := hsplit ▸ hs
          exact (List.pairwise_append.mp hs2).2.2 c hc _ (List.mem_cons_self _ _)
        have hhigh : ∀ c ∈ L.drop (m + 1), L[m].Denom.data < c.Denom.data := by
          intro c hc
          have hs2 : Coins.Sorted (L.take m ++ L[m] :: L.drop (m + 1)) := hsplit ▸ hs
          exact (List.pairwise_cons.mp (List.pairwise_append.mp hs2).2.1).1 c hc
        have htot : Coins.total L d = Coins.total (L.take m) d
            + ((if L[m].Denom = d then L[m].Amount else 0) + Coins.total (L.drop (m + 1)) d) := by
          conv_lhs => rw [hsplit]
          rw [Coins.total_append, Coins.total]
        have hunf : Coins.AmountOfLoop (n + 1) L d =
            if d.data < L[m].Denom.data then Coins.AmountOfLoop n (L.take m) d
            else if d = L[m].Denom then L[m].Amount
            else Coins.AmountOfLoop n (L.drop (m + 1)) d := by
          subst hL
          simp only [Coins.AmountOfLoop, hm, hget]
        rw [hunf, htot]
        by_cases h1 : d.data < L[m].Denom.data
        · have hne : ¬ L[m].Denom = d := fun e => denom_ne_of_lt h1 e.symm
          rw [if_pos h1, if_neg hne,
            ih _ (by rw [List.length_take]; omega) (hs.sublist (List.take_sublist _ _)),
            Coins.total_eq_zero (L.drop (m + 1)) d (fun c hc e =>
              lt_irrefl _ (lt_trans (e ▸ hhigh c hc) h1))]
          simp
        · rw [if_neg h1]
          by_cases h2 : d = L[m].Denom
          · rw [if_pos h2, if_pos h2.symm,
              Coins.total_eq_zero (L.take m) d (fun c hc e => by
                have := hlow c hc; rw [e] at this; exact h1 this),
              Coins.total_eq_zero (L.drop (m + 1)) d (fun c hc e => by
                have := hhigh c hc; rw [e] at this
                exact lt_irrefl _ (h2 ▸ this))]
            simp
          · have hlt : L[m].Denom.data < d.data := denom_lt_of_not h1 h2
            rw [if_neg h2, if_neg (fun e => h2 e.symm),
              ih _ (by rw [List.length_drop]; omega) (hs.sublist (List.drop_sublist _ _)),
              Coins.total_eq_zero (L.take m) d (fun c hc e =>
                lt_irrefl _ (lt_trans (e ▸ hlow c hc) hlt))]
            simp

theorem Coins.AmountOf_eq_total (l : Coins) (d : String) (hs : l.Sorted) :
    l.AmountOf d = Coins.total l d :=
  Coins.AmountOfLoop_eq_total d _ l le_rfl hs

theorem mem_optCons {p : Bool} {x c : Coin} {r : Coins}
    (h : c ∈ (if p then [] else [x]) ++ r) : c = x ∨ c ∈ r := by
  cases p <;> simp at h <;> tauto

theorem sorted_optCons {p : Bool} {x : Coin} {r : Coins} (hr : r.Sorted)
    (hx : ∀ c ∈ r, x.Denom.data < c.Denom.data) :
    Coins.Sorted ((if p then [] else [x]) ++ r) := by
  cases p
  · simpa [Coins.Sorted] using ⟨hx, hr⟩
  · simpa using hr

theorem mem_removeZeroCoins {c : Coin} {l : Coins} (h : c ∈ removeZeroCoins l) : c ∈ l :=
  (List.mem_filter.mp h).1

theorem Coins.mergeLoop_mem_denom :
    ∀ (fuel : Nat) (a b : Coins) (c : Coin), c ∈ Coins.mergeLoop fuel a b →
      (∃ x ∈ a, x.Denom = c.Denom) ∨ (∃ y ∈ b, y.Denom = c.Denom) := by
  intro fuel
  induction fuel with
  | zero => intro a b c h; simp [Coins.mergeLoop] at h
  | succ n ih =>
    intro a b c h
    cases a with
    | nil =>
      simp only [Coins.mergeLoop] at h
      exact Or.inr ⟨c, mem_removeZeroCoins h, rfl⟩
    | cons x xs =>
      cases b with
      | nil =>
        simp only [Coins.mergeLoop] at h
        exact Or.inl ⟨c, mem_removeZeroCoins h, rfl⟩
      | cons y ys =>
        simp only [Coins.mergeLoop] at h
        by_cases h1 : x.Denom.data < y.Denom.data
        · rw [if_pos h1] at h
          rcases mem_optCons h with rfl | h
          · exact Or.inl ⟨c, List.mem_cons_self _ _, rfl⟩
          · rcases ih _ _ _ h with ⟨z, hz, e⟩ | ⟨z, hz, e⟩
            · exact Or.inl ⟨z, List.mem_cons_of_mem _ hz, e⟩
            · exact Or.inr ⟨z, hz, e⟩
        · rw [if_neg h1] at h
          by_cases h2 : x.Denom = y.Denom
          · rw [if_pos h2] at h
            rcases mem_optCons h with rfl | h
            · exact Or.inl ⟨x, List.mem_cons_self _ _, rfl⟩
            · rcases ih _ _ _ h with ⟨z, hz, e⟩ | ⟨z, hz, e⟩
              · exact Or.inl ⟨z, List.mem_cons_of_mem _ hz, e⟩
              · exact Or.inr ⟨z, List.mem_cons_of_mem _ hz, e⟩
          · rw [if_neg h2] at h
            rcases mem_optCons h with rfl | h
            · exact Or.inr ⟨c, List.mem_cons_self _ _, rfl⟩
            · rcases ih _ _ _ h with ⟨z, hz, e⟩ | ⟨z, hz, e⟩
              · exact Or.inl ⟨z, hz, e⟩
              · exact Or.inr ⟨z, List.mem_cons_of_mem _ hz, e⟩

theorem Coins.mergeLoop_sorted :
    ∀ (fuel : Nat) (a b : Coins), a.Sorted → b.Sorted →
      (Coins.mergeLoop fuel a b).Sorted := by
  intro fuel
  induction fuel with
  | zero => intro a b _ _; simp [Coins.mergeLoop, Coins.Sorted]
  | succ n ih =>
    intro a b ha hb
    cases a with
    | nil =>
      simp only [Coins.mergeLoop]
      exact hb.sublist (List.filter_sublist _)
    | cons x xs =>
      cases b with
      | nil =>
        simp only [Coins.mergeLoop]
        exact ha.sublist (List.filter_sublist _)
      | cons y ys =>
        have hxs := List.pairwise_cons.mp ha
        have hys := List.pairwise_cons.mp hb
        simp only [Coins.mergeLoop]
        by_cases h1 : x.Denom.data < y.Denom.data
        · rw [if_pos h1]
          refine sorted_optCons (ih _ _ hxs.2 hb) ?_
          intro c hc
          rcases Coins.mergeLoop_mem_denom _ _ _ c hc with ⟨z, hz, e⟩ | ⟨z, hz, e⟩
          · rw [← e]; exact hxs.1 z hz
          · rw [← e]
            rcases List.mem_cons.mp hz with rfl | hz
            · exact h1
            · exact lt_trans h1 (hys.1 z hz)
        · rw [if_neg h1]
          by_cases h2 : x.Denom = y.Denom
          · rw [if_pos h2]
            refine sorted_optCons (ih _ _ hxs.2 hys.2) ?_
            intro c hc
            show x.Denom.data < c.Denom.data
            rcases Coins.mergeLoop_mem_denom _ _ _ c hc with ⟨z, hz, e⟩ | ⟨z, hz, e⟩
            · rw [← e]; exact hxs.1 z hz
            · rw [← e, h2]; exact hys.1 z hz
          · rw [if_neg h2]
            have hlt := denom_lt_of_not h1 h2
            refine sorted_optCons (ih _ _ ha hys.2) ?_
            intro c hc
            rcases Coins.mergeLoop_mem_denom _ _ _ c hc with ⟨z, hz, e⟩ | ⟨z, hz, e⟩
            · rw [← e]
              rcases List.mem_cons.mp hz with rfl | hz
              · exact hlt
              · exact lt_trans hlt (hxs.1 z hz)
            · rw [← e]; exact hys.1 z hz

theorem Coins.mergeLoop_pos :
    ∀ (fuel : Nat) (a b : Coins), a.Pos → b.Pos → (Coins.mergeLoop fuel a b).Pos := by
  intro fuel
  induction fuel with
  | zero => intro a b _ _ c hc; simp [Coins.mergeLoop] at hc
  | succ n ih =>
    intro a b ha hb
    cases a with
    | nil =>
      intro c hc
      simp only [Coins.mergeLoop] at hc
      exact hb c (mem_removeZeroCoins hc)
    | cons x xs =>
      cases b with
      | nil =>
        intro c hc
        simp only [Coins.mergeLoop] at hc
        exact ha c (mem_removeZeroCoins hc)
      | cons y ys =>
        have hx := ha x (List.mem_cons_self _ _)
        have hy := hb y (List.mem_cons_self _ _)
        have hxs : Coins.Pos xs := fun c hc => ha c (List.mem_cons_of_mem _ hc)
        have hys : Coins.Pos ys := fun c hc => hb c (List.mem_cons_of_mem _ hc)
        intro c hc
        simp only [Coins.mergeLoop] at hc
        by_cases h1 : x.Denom.data < y.Denom.data
        · rw [if_pos h1] at hc
          rcases mem_optCons hc with rfl | hc
          · exact hx
          · exact ih _ _ hxs hb c hc
        · rw [if_neg h1] at hc
          by_cases h2 : x.Denom = y.Denom
          · rw [if_pos h2] at hc
            rcases mem_optCons hc with rfl | hc
            · show 0 < x.Amount + y.Amount
              omega
            · exact ih _ _ hxs hys c hc
          · rw [if_neg h2] at hc
            rcases mem_optCons hc with rfl | hc
            · exact hy
            · exact ih _ _ ha hys c hc

theorem Coins.merge_valid (a b : Coins) (ha : a.IsValid = true) (hb : b.IsValid = true) :
    (a.merge b).IsValid = true := by
  rw [Coins.IsValid_iff] at ha hb ⊢
  exact ⟨Coins.mergeLoop_sorted _ a b ha.1 hb.1, Coins.mergeLoop_pos _ a b ha.2 hb.2⟩

theorem Coins.merge_AmountOf (a b : Coins) (ha : a.IsValid = true) (hb : b.IsValid = true)
    (d : String) : (a.merge b).AmountOf d = a.AmountOf d + b.AmountOf d := by
  have hab := Coins.merge_valid a b ha hb
  rw [Coins.IsValid_iff] at ha hb hab
  rw [Coins.AmountOf_eq_total _ _ hab.1, Coins.AmountOf_eq_total _ _ ha.1,
    Coins.AmountOf_eq_total _ _ hb.1, Coins.merge_total]

theorem Coins.mergeLoop_snoc (p : Coin) (hp : p.IsZero = false) :
    ∀ (res : Coins) (fuel : Nat), res.length + 1 < fuel →
      (∀ c ∈ res, c.Denom.data < p.Denom.data) → (∀ c ∈ res, c.IsZero = false) →
      Coins.mergeLoop fuel res [p] = res ++ [p] := by
  intro res
  induction res with
  | nil =>
    intro fuel hf _ _
    obtain ⟨n, rfl⟩ : ∃ n, fuel = n + 1 := ⟨fuel - 1, by omega⟩
    simp [Coins.mergeLoop, removeZeroCoins, hp]
  | cons x xs ih =>
    intro fuel hf hlt hnz
    obtain ⟨n, rfl⟩ : ∃ n, fuel = n + 1 := ⟨fuel - 1, by omega⟩
    have hx := hlt x (List.mem_cons_self _ _)
    have hxz := hnz x (List.mem_cons_self _ _)
    simp only [Coins.mergeLoop, if_pos hx, hxz]
    rw [ih n (by simp only [List.length_cons] at hf; omega)
      (fun c hc => hlt c (List.mem_cons_of_mem _ hc))
      (fun c hc => hnz c (List.mem_cons_of_mem _ hc))]
    simp

theorem Coins.merge_snoc (res : Coins) (p : Coin) (hp : p.IsZero = false)
    (hlt : ∀ c ∈ res, c.Denom.data < p.Denom.data) (hnz : ∀ c ∈ res, c.IsZero = false) :
    res.merge [p] = res ++ [p] :=
  Coins.mergeLoop_snoc p hp res _ (by simp) hlt hnz

theorem Coins.mapAmount_mem {g : Int → Int} {l : Coins} {c : Coin}
    (h : c ∈ Coins.mapAmount g l) :
    ∃ x ∈ l, c.Denom = x.Denom ∧ c.Amount = g x.Amount ∧ g x.Amount ≠ 0 := by
  unfold Coins.mapAmount at h
  rw [List.mem_filterMap] at h
  obtain ⟨x, hx, hc⟩ := h
  by_cases hz : g x.Amount = 0
  · simp [hz] at hc
  · simp only [if_neg hz, Option.some.injEq] at hc
    subst hc
    exact ⟨x, hx, rfl, rfl, hz⟩

theorem Coins.mapAmount_sorted (g : Int → Int) (l : Coins) (hs : l.Sorted) :
    (Coins.mapAmount g l).Sorted := by
  induction l with
  | nil => simp [Coins.mapAmount, Coins.Sorted]
  | cons x xs ih =>
    have hxs := List.pairwise_cons.mp hs
    have ih2 := ih hxs.2
    unfold Coins.mapAmount at ih2 ⊢
    rw [List.filterMap_cons]
    by_cases hz : g x.Amount = 0
    · simpa [hz] using ih2
    · simp only [if_neg hz]
      refine List.pairwise_cons.mpr ⟨?_, ih2⟩
      intro c hc
      obtain ⟨y, hy, hd, _, _⟩ := Coins.mapAmount_mem hc
      rw [hd]
      exact hxs.1 y hy

theorem Coins.mapAmount_pos (g : Int → Int) (l : Coins) (hg : ∀ c ∈ l, 0 ≤ g c.Amount) :
    (Coins.mapAmount g l).Pos := by
  intro c hc
  obtain ⟨y, hy, _, ha, hnz⟩ := Coins.mapAmount_mem hc
  have := hg y hy
  omega

theorem Coins.mapAmount_total (g : Int → Int) (hg : g 0 = 0) (l : Coins) (hs : l.Sorted)
    (d : String) : Coins.total (Coins.mapAmount g l) d = g (Coins.total l d) := by
  induction l with
  | nil => simp [Coins.mapAmount, Coins.total, hg]
  | cons x xs ih =>
    have hxs := List.pairwise_cons.mp hs
    have ih2 := ih hxs.2
    unfold Coins.mapAmount at ih2 ⊢
    rw [List.filterMap_cons]
    by_cases hd : x.Denom = d
    · have h0 : Coins.total xs d = 0 :=
        Coins.total_eq_zero xs d (fun c hc e => by
          have := hxs.1 c hc; rw [e, ← hd] at this; exact lt_irrefl _ this)
      rw [h0, hg] at ih2
      by_cases hz : g x.Amount = 0
      · simp [hz, Coins.total, hd, h0, ih2]
      · simp [hz, Coins.total, hd, h0, ih2]
    · by_cases hz : g x.Amount = 0
      · simp [hz, Coins.total, hd, ih2]
      · simp [hz, Coins.total, hd, ih2]

theorem removeZeroCoins_pos (l : Coins) (h : l.Pos) : removeZeroCoins l = l := by
  unfold removeZeroCoins
  rw [List.filter_eq_self]
  intro c hc
  have := h c hc
  simp only [Coin.IsZero, Bool.not_eq_true', decide_eq_false_iff_not]
  omega

theorem findDup_sorted (l : Coins) (h : l.Sorted) : findDup l = false := by
  induction l with
  | nil => rfl
  | cons x xs ih =>
    cases xs with
    | nil => rfl
    | cons y ys =>
      have hx := List.pairwise_cons.mp h
      simp only [findDup, Bool.or_eq_false_iff, decide_eq_false_iff_not]
      exact ⟨denom_ne_of_lt (hx.1 y (List.mem_cons_self _ _)), ih hx.2⟩

/-- Sorting a valid coin set changes nothing. -/
theorem Coins.Sort_valid (l : Coins) (h : l.IsValid = true) : l.Sort = l :=
  List.Sorted.insertionSort_eq
    (List.Pairwise.imp (fun hab => le_of_lt hab) ((Coins.IsValid_iff l).mp h).1)

theorem NewCoins_valid (l : Coins) (h : l.IsValid = true) : NewCoins l = some l := by
  have h2 := (Coins.IsValid_iff l).mp h
  unfold NewCoins
  simp only [removeZeroCoins_pos l h2.2, Coins.Sort_valid l h, findDup_sorted l h2.1, h]
  cases l <;> simp

theorem NewDecCoinsFromCoins_valid (l : Coins) (h : l.IsValid = true) :
    NewDecCoinsFromCoins l = some (l.map (fun coin => ⟨coin.Denom, ToDec coin.Amount⟩)) := by
  simp [NewDecCoinsFromCoins, NewCoins_valid l h]

theorem precisionReuse_pos : 0 < precisionReuse := by unfold precisionReuse; norm_num

theorem chopPrecisionAndRoundNonNeg_mul (x : Int) :
    chopPrecisionAndRoundNonNeg (x * precisionReuse) = x := by
  unfold chopPrecisionAndRoundNonNeg
  simp only [Int.mul_tmod_left, if_true]
  exact Int.mul_tdiv_cancel x (ne_of_gt precisionReuse_pos)

/-- A product that is a multiple of `10^18` is chopped exactly: the rounding of `Dec.Mul`
does not act. -/
theorem chopPrecisionAndRound_mul (x : Int) :
    chopPrecisionAndRound (x * precisionReuse) = x := by
  unfold chopPrecisionAndRound
  split_ifs with h
  · rw [show -(x * precisionReuse) = (-x) * precisionReuse by ring,
      chopPrecisionAndRoundNonNeg_mul]
    ring
  · exact chopPrecisionAndRoundNonNeg_mul x

theorem Coins.mapAmount_congr (g g' : Int → Int) (l : Coins)
    (h : ∀ c ∈ l, g c.Amount = g' c.Amount) : Coins.mapAmount g l = Coins.mapAmount g' l := by
  unfold Coins.mapAmount
  apply List.filterMap_congr
  intro c hc
  rw [h c hc]

/-- The amount-wise image of a valid coin set under a map that keeps `0` and non-negativity
is valid, and its amount in a denomination is the image of the amount. -/
theorem Coins.mapAmount_valid (g : Int → Int) (l : Coins) (h : l.IsValid = true)
    (hg : ∀ a, 0 ≤ a → 0 ≤ g a) : (Coins.mapAmount g l).IsValid = true := by
  have h2 := (Coins.IsValid_iff l).mp h
  rw [Coins.IsValid_iff]
  exact ⟨Coins.mapAmount_sorted g l h2.1,
    Coins.mapAmount_pos g l (fun c hc => hg _ (le_of_lt (h2.2 c hc)))⟩

theorem Coins.mapAmount_AmountOf (g : Int → Int) (hg : g 0 = 0) (l : Coins)
    (h : l.IsValid = true) (d : String) :
    (Coins.mapAmount g l).AmountOf d = g (l.AmountOf d) := by
  have h2 := (Coins.IsValid_iff l).mp h
  rw [Coins.AmountOf_eq_total _ _ (Coins.mapAmount_sorted g l h2.1),
    Coins.AmountOf_eq_total _ _ h2.1, Coins.mapAmount_total g hg l h2.1]

theorem toInt64_of_lt (v : Nat) (h : v < 2 ^ 63) : toInt64 v = (v : Int) := by
  unfold toInt64
  have h2 : v % 2 ^ 64 = v := Nat.mod_eq_of_lt (by omega)
  rw [h2, if_pos h]

theorem Coins.total_mem (l : Coins) (hs : l.Sorted) (c : Coin) (hc : c ∈ l) :
    Coins.total l c.Denom = c.Amount := by
  induction l with
  | nil => simp at hc
  | cons x xs ih =>
    have hxs := List.pairwise_cons.mp hs
    rcases List.mem_cons.mp hc with rfl | hc
    · rw [Coins.total, if_pos rfl, Coins.total_eq_zero xs _ (fun y hy e => by
        have := hxs.1 y hy; rw [e] at this; exact lt_irrefl _ this)]
      simp
    · have hne : x.Denom ≠ c.Denom := denom_ne_of_lt (hxs.1 c hc)
      rw [Coins.total, if_neg hne, ih hxs.2 hc]
      simp

theorem Coins.AmountOf_mem (l : Coins) (h : l.IsValid = true) (c : Coin) (hc : c ∈ l) :
    l.AmountOf c.Denom = c.Amount := by
  have h2 := (Coins.IsValid_iff l).mp h
  rw [Coins.AmountOf_eq_total _ _ h2.1, Coins.total_mem l h2.1 c hc]

theorem Coins.total_nonneg (l : Coins) (hp : l.Pos) (d : String) : 0 ≤ Coins.total l d := by
  induction l with
  | nil => simp [Coins.total]
  | cons x xs ih =>
    have hx := hp x (List.mem_cons_self _ _)
    have := ih (fun c hc => hp c (List.mem_cons_of_mem _ hc))
    rw [Coins.total]
    split_ifs <;> omega

theorem Coins.AmountOf_nonneg (l : Coins) (h : l.IsValid = true) (d : String) :
    0 ≤ l.AmountOf d := by
  have h2 := (Coins.IsValid_iff l).mp h
  rw [Coins.AmountOf_eq_total _ _ h2.1]
  exact Coins.total_nonneg l h2.2 d

/-- The check of line 111 passes when the second coin set covers the first in every
denomination. -/
theorem Coins.IsAnyGT_false_of_le (a b : Coins) (ha : a.IsValid = true)
    (h : ∀ d, a.AmountOf d ≤ b.AmountOf d) : a.IsAnyGT b = false := by
  unfold Coins.IsAnyGT
  split_ifs
  · rfl
  · rw [List.any_eq_false]
    intro c hc
    have h1 := Coins.AmountOf_mem a ha c hc
    have h2 := h c.Denom
    simp only [Bool.and_eq_true, decide_eq_true_eq, Bool.not_eq_true', decide_eq_false_iff_not,
      not_and, not_not]
    intro hgt
    omega

/-- The check of line 111 fires only when some denomination of the first coin set exceeds
its amount in the second. -/
theorem Coins.IsAnyGT_true_exists (a b : Coins) (ha : a.IsValid = true)
    (h : a.IsAnyGT b = true) : ∃ d, b.AmountOf d < a.AmountOf d := by
  by_contra hne
  push_neg at hne
  rw [Coins.IsAnyGT_false_of_le a b ha hne] at h
  exact Bool.false_ne_true h

theorem foldl_merge_valid (fees : List Coins) (hf : ∀ f ∈ fees, f.IsValid = true) :
    ∀ (acc : Coins), acc.IsValid = true → (fees.foldl Coins.merge acc).IsValid = true := by
  induction fees with
  | nil => intro acc h; exact h
  | cons f fs ih =>
    intro acc h
    rw [List.foldl_cons]
    exact ih (fun g hg => hf g (List.mem_cons_of_mem _ hg)) _
      (Coins.merge_valid acc f h (hf f (List.mem_cons_self _ _)))

theorem foldl_merge_AmountOf (d : String) (fees : List Coins)
    (hf : ∀ f ∈ fees, f.IsValid = true) :
    ∀ (acc : Coins), acc.IsValid = true →
      (fees.foldl Coins.merge acc).AmountOf d
        = acc.AmountOf d + (fees.map (fun f => f.AmountOf d)).sum := by
  induction fees with
  | nil => intro acc _; simp
  | cons f fs ih =>
    intro acc h
    have hf0 := hf f (List.mem_cons_self _ _)
    rw [List.foldl_cons, ih (fun g hg => hf g (List.mem_cons_of_mem _ hg)) _
      (Coins.merge_valid acc f h hf0), Coins.merge_AmountOf acc f h hf0]
    simp [add_assoc]

theorem ResolvesValid.resolves {α : Type} {f : String → Except String α} {fees : α → Coins}
    {name : String} (h : ResolvesValid f fees name) : Resolves f name :=
  let ⟨a, ha, _⟩ := h
  ⟨a, ha⟩

theorem resolved_valid {α : Type} (f : String → Except String α) (fees : α → Coins)
    (names : List String) (h : ∀ name ∈ names, ResolvesValid f fees name) :
    ∀ a ∈ resolved f names, (fees a).IsValid = true := by
  intro a ha
  unfold resolved at ha
  rw [List.mem_filterMap] at ha
  obtain ⟨name, hn, hna⟩ := ha
  obtain ⟨b, hb, hv⟩ := h name hn
  rw [hb] at hna
  simp only [Except.toOption, Option.some.injEq] at hna
  subst hna
  exact hv

theorem mergedFeesOf_valid (tcs : List TestCaseI) (dss : List AIDataSourceI)
    (htc : ∀ t ∈ tcs, t.Fees.IsValid = true) (hds : ∀ s ∈ dss, s.Fees.IsValid = true) :
    (mergedFeesOf tcs dss).IsValid = true := by
  unfold mergedFeesOf
  apply foldl_merge_valid
  · intro f hf
    obtain ⟨s, hs, rfl⟩ := List.mem_map.mp hf
    exact hds s hs
  · apply foldl_merge_valid
    · intro f hf
      obtain ⟨t, ht, rfl⟩ := List.mem_map.mp hf
      exact htc t ht
    · rfl

theorem mergedFeesOf_AmountOf (tcs : List TestCaseI) (dss : List AIDataSourceI)
    (htc : ∀ t ∈ tcs, t.Fees.IsValid = true) (hds : ∀ s ∈ dss, s.Fees.IsValid = true)
    (d : String) :
    (mergedFeesOf tcs dss).AmountOf d
      = (tcs.map (fun t => t.Fees.AmountOf d)).sum + (dss.map (fun s => s.Fees.AmountOf d)).sum := by
  have h1 : ∀ f ∈ tcs.map (·.Fees), f.IsValid = true := fun f hf => by
    obtain ⟨t, ht, rfl⟩ := List.mem_map.mp hf; exact htc t ht
  have h2 : ∀ f ∈ dss.map (·.Fees), f.IsValid = true := fun f hf => by
    obtain ⟨s, hs, rfl⟩ := List.mem_map.mp hf; exact hds s hs
  have hnil : Coins.IsValid [] = true := rfl
  unfold mergedFeesOf
  rw [foldl_merge_AmountOf d _ h2 _ (foldl_merge_valid _ h1 [] hnil),
    foldl_merge_AmountOf d _ h1 [] hnil]
  simp [Coins.AmountOf, Coins.AmountOfLoop, List.map_map, Function.comp_def]

theorem bitLenExceeds_eq_false (i : Int) (n : Nat) :
    bitLenExceeds i n = false ↔ i.natAbs < 2 ^ n := by
  unfold bitLenExceeds
  rw [Nat.shiftRight_eq_div_pow, bne_eq_false_iff_eq, Nat.div_eq_zero_iff (by positivity)]

/-- A non-negative integer below `2^255` passes the guard of `sdk.Int`. -/
theorem fits255 (i : Int) (h0 : 0 ≤ i) (h : i < 2 ^ 255) : bitLenExceeds i maxBitLen = false := by
  rw [bitLenExceeds_eq_false]
  unfold maxBitLen
  omega

/-- A non-negative integer below `2^315` passes the guard of `sdk.Dec`. -/
theorem fits315 (i : Int) (h0 : 0 ≤ i) (h : i < 2 ^ 315) :
    bitLenExceeds i (255 + DecimalPrecisionBits) = false := by
  rw [bitLenExceeds_eq_false]
  unfold DecimalPrecisionBits
  omega

/-- A non-negative integer that passes the guard of `sdk.Int` is below `2^255`. -/
theorem lt_of_fits255 (i : Int) (h : bitLenExceeds i maxBitLen = false) :
    i < 2 ^ 255 := by
  rw [bitLenExceeds_eq_false] at h
  unfold maxBitLen at h
  omega

theorem Coin.Add_sum (coin coinB : Coin) (hd : coin.Denom = coinB.Denom)
    (h : bitLenExceeds (coin.Amount + coinB.Amount) maxBitLen = false) :
    coin.Add coinB = some (coin.sum coinB) := by
  simp [Coin.Add, Int.Add, hd, h, Coin.sum]

theorem Coin.Add_eq_sum (coin coinB r : Coin) (h : coin.Add coinB = some r) :
    r = coin.sum coinB := by
  unfold Coin.Add Int.Add at h
  split_ifs at h with h1
  simp only [Option.map_eq_some', Option.ite_none_left_eq_some, Option.some.injEq] at h
  obtain ⟨a, ⟨_, ha⟩, hr⟩ := h
  rw [← hr, ← ha]
  rfl

/-- When `Coins.safeAdd` does not panic, its value is the merge on unbounded integers. -/
theorem Coins.safeAddLoop_eq :
    ∀ (fuel : Nat) (a b r : Coins), Coins.safeAddLoop fuel a b = some r →
      r = Coins.mergeLoop fuel a b := by
  intro fuel
  induction fuel with
  | zero => intro a b r h; simpa [Coins.safeAddLoop, Coins.mergeLoop] using h.symm
  | succ n ih =>
    intro a b r h
    cases a with
    | nil => simpa [Coins.safeAddLoop, Coins.mergeLoop] using h.symm
    | cons x xs =>
      cases b with
      | nil => simpa [Coins.safeAddLoop, Coins.mergeLoop] using h.symm
      | cons y ys =>
        simp only [Coins.safeAddLoop, Coins.mergeLoop] at h ⊢
        by_cases h1 : x.Denom.data < y.Denom.data
        · rw [if_pos h1] at h ⊢
          cases hrec : Coins.safeAddLoop n xs (y :: ys) with
          | none => rw [hrec] at h; simp at h
          | some s =>
            rw [hrec] at h
            simp only [Option.map_some', Option.some.injEq] at h
            rw [← h, ih _ _ _ hrec]
        · rw [if_neg h1] at h ⊢
          by_cases h2 : x.Denom = y.Denom
          · rw [if_pos h2] at h ⊢
            cases hadd : x.Add y with
            | none => rw [hadd] at h; simp at h
            | some res =>
              rw [hadd] at h
              simp only [Option.some_bind] at h
              cases hrec : Coins.safeAddLoop n xs ys with
              | none => rw [hrec] at h; simp at h
              | some s =>
                rw [hrec] at h
                simp only [Option.map_some', Option.some.injEq] at h
                rw [← h, ih _ _ _ hrec, Coin.Add_eq_sum _ _ _ hadd]
          · rw [if_neg h2] at h ⊢
            cases hrec : Coins.safeAddLoop n (x :: xs) ys with
            | none => rw [hrec] at h; simp at h
            | some s =>
              rw [hrec] at h
              simp only [Option.map_some', Option.some.injEq] at h
              rw [← h, ih _ _ _ hrec]

/-- `Coins.safeAdd` does not panic when every sum of two amounts of one denomination fits. -/
theorem Coins.safeAddLoop_some :
    ∀ (fuel : Nat) (a b : Coins),
      (∀ x ∈ a, ∀ y ∈ b, x.Denom = y.Denom →
        bitLenExceeds (x.Amount + y.Amount) maxBitLen = false) →
      Coins.safeAddLoop fuel a b = some (Coins.mergeLoop fuel a b) := by
  intro fuel
  induction fuel with
  | zero => intro a b _; rfl
  | succ n ih =>
    intro a b h
    cases a with
    | nil => rfl
    | cons x xs =>
      cases b with
      | nil => rfl
      | cons y ys =>
        simp only [Coins.safeAddLoop, Coins.mergeLoop]
        by_cases h1 : x.Denom.data < y.Denom.data
        · rw [if_pos h1, if_pos h1,
            ih xs (y :: ys) (fun a ha b hb => h a (List.mem_cons_of_mem _ ha) b hb)]
          rfl
        · rw [if_neg h1, if_neg h1]
          by_cases h2 : x.Denom = y.Denom
          · rw [if_pos h2, if_pos h2,
              Coin.Add_sum x y h2 (h x (List.mem_cons_self _ _) y (List.mem_cons_self _ _) h2),
              ih xs ys (fun a ha b hb =>
                h a (List.mem_cons_of_mem _ ha) b (List.mem_cons_of_mem _ hb))]
            rfl
          · rw [if_neg h2, if_neg h2,
              ih (x :: xs) ys (fun a ha b hb => h a ha b (List.mem_cons_of_mem _ hb))]
            rfl

theorem Coins.Add_eq (a b r : Coins) (h : a.Add b = some r) : r = a.merge b :=
  Coins.safeAddLoop_eq _ a b r h

/-- The sum of two valid coin sets exists when it stays below `2^255` in every
denomination. -/
theorem Coins.Add_some (a b : Coins) (ha : a.IsValid = true) (hb : b.IsValid = true)
    (h : ∀ d, a.AmountOf d + b.AmountOf d < 2 ^ 255) : a.Add b = some (a.merge b) := by
  apply Coins.safeAddLoop_some
  intro x hx y hy hd
  have hx0 := ((Coins.IsValid_iff a).mp ha).2 x hx
  have hy0 := ((Coins.IsValid_iff b).mp hb).2 y hy
  have h1 := Coins.AmountOf_mem a ha x hx
  have h2 := Coins.AmountOf_mem b hb y hy
  have h3 := h x.Denom
  rw [h1, hd, h2] at h3
  exact fits255 _ (by omega) h3

/-- A coin of a larger denomination is appended without any addition. -/
theorem Coins.Add_snoc (res : Coins) (p : Coin) (hp : p.IsZero = false)
    (hlt : ∀ c ∈ res, c.Denom.data < p.Denom.data) (hnz : ∀ c ∈ res, c.IsZero = false) :
    res.Add [p] = some (res ++ [p]) := by
  have h : res.Add [p] = some (res.merge [p]) := by
    apply Coins.safeAddLoop_some
    intro x hx y hy hd
    rw [List.mem_singleton] at hy
    subst hy
    exact absurd hd (denom_ne_of_lt (hlt x hx))
  rw [h, Coins.merge_snoc res p hp hlt hnz]

theorem DecCoins.safeAddLoop_snoc_dec (p : DecCoin) (hp : p.IsZero = false) :
    ∀ (res : DecCoins) (fuel : Nat), res.length + 1 < fuel →
      (∀ c ∈ res, c.Denom.data < p.Denom.data) → (∀ c ∈ res, c.IsZero = false) →
      DecCoins.safeAddLoop fuel res [p] = some (res ++ [p]) := by
  intro res
  induction res with
  | nil =>
    intro fuel hf _ _
    obtain ⟨n, rfl⟩ : ∃ n, fuel = n + 1 := ⟨fuel - 1, by omega⟩
    simp [DecCoins.safeAddLoop, removeZeroDecCoins, hp]
  | cons x xs ih =>
    intro fuel hf hlt hnz
    obtain ⟨n, rfl⟩ : ∃ n, fuel = n + 1 := ⟨fuel - 1, by omega⟩
    have hx := hlt x (List.mem_cons_self _ _)
    have hxz := hnz x (List.mem_cons_self _ _)
    simp only [DecCoins.safeAddLoop, if_pos hx, hxz]
    rw [ih n (by simp only [List.length_cons] at hf; omega)
      (fun c hc => hlt c (List.mem_cons_of_mem _ hc))
      (fun c hc => hnz c (List.mem_cons_of_mem _ hc))]
    simp

theorem DecCoins.Add_snoc_dec (res : DecCoins) (p : DecCoin) (hp : p.IsZero = false)
    (hlt : ∀ c ∈ res, c.Denom.data < p.Denom.data) (hnz : ∀ c ∈ res, c.IsZero = false) :
    res.Add [p] = some (res ++ [p]) :=
  DecCoins.safeAddLoop_snoc_dec p hp res _ (by simp) hlt hnz

/-- The fold of `MulDec` and `MulDecTruncate` over the decimal coins of a denomination-sorted
coin list appends the non-zero products in order, when no product overflows. -/
theorem DecCoins.mulLoop (mul : Dec → Option Dec) (r : Int → Int) :
    ∀ (l : Coins) (acc : DecCoins), l.Sorted →
      (∀ c ∈ acc, ∀ x ∈ l, c.Denom.data < x.Denom.data) → (∀ c ∈ acc, c.IsZero = false) →
      (∀ x ∈ l, mul (ToDec x.Amount) = some ⟨r x.Amount⟩) →
      (l.map (fun coin => (⟨coin.Denom, ToDec coin.Amount⟩ : DecCoin))).foldlM
        (fun res coin =>
          (mul coin.Amount).bind (fun amount =>
            if !(DecCoin.IsZero ⟨coin.Denom, amount⟩) then res.Add [⟨coin.Denom, amount⟩]
            else some res)) acc
        = some (acc ++ l.filterMap (fun c =>
            if r c.Amount = 0 then none else some (⟨c.Denom, ⟨r c.Amount⟩⟩ : DecCoin))) := by
  intro l
  induction l with
  | nil => intro acc _ _ _ _; simp
  | cons x xs ih =>
    intro acc hs hacc hnz hmul
    have hxs := List.pairwise_cons.mp hs
    rw [List.map_cons, List.foldlM_cons, List.filterMap_cons]
    simp only [hmul x (List.mem_cons_self _ _), Option.some_bind]
    by_cases hz : r x.Amount = 0
    · have hz2 : DecCoin.IsZero ⟨x.Denom, ⟨r x.Amount⟩⟩ = true := by simp [DecCoin.IsZero, hz]
      simp only [hz2, Bool.not_true, Bool.false_eq_true, if_false, if_pos hz,
        Option.bind_eq_bind, Option.some_bind]
      exact ih acc hxs.2 (fun c hc y hy => hacc c hc y (List.mem_cons_of_mem _ hy)) hnz
        (fun y hy => hmul y (List.mem_cons_of_mem _ hy))
    · have hz2 : DecCoin.IsZero ⟨x.Denom, ⟨r x.Amount⟩⟩ = false := by simp [DecCoin.IsZero, hz]
      simp only [hz2, Bool.not_false, if_true, if_neg hz, Option.bind_eq_bind]
      rw [DecCoins.Add_snoc_dec acc _ hz2
        (fun c hc => hacc c hc x (List.mem_cons_self _ _)) hnz, Option.some_bind]
      rw [ih (acc ++ [_]) hxs.2 ?_ ?_ (fun y hy => hmul y (List.mem_cons_of_mem _ hy))]
      · simp
      · intro c hc y hy
        rcases List.mem_append.mp hc with hc | hc
        · exact hacc c hc y (List.mem_cons_of_mem _ hy)
        · rw [List.mem_singleton.mp hc]; exact hxs.1 y hy
      · intro c hc
        rcases List.mem_append.mp hc with hc | hc
        · exact hnz c hc
        · rw [List.mem_singleton.mp hc]; exact hz2

/-- A decimal coin of non-negative amount whose integer part fits in 255 bits truncates
without panic. -/
theorem DecCoin.TruncateDecimal_nonneg (x : DecCoin) (h : 0 ≤ x.Amount.raw)
    (hfit : chopPrecisionAndTruncate x.Amount.raw < 2 ^ 255) :
    x.TruncateDecimal = some (⟨x.Denom, chopPrecisionAndTruncate x.Amount.raw⟩,
      ⟨x.Denom, ⟨x.Amount.raw - chopPrecisionAndTruncate x.Amount.raw * precisionReuse⟩⟩) := by
  have h1 : 0 ≤ chopPrecisionAndTruncate x.Amount.raw :=
    Int.tdiv_nonneg h (le_of_lt precisionReuse_pos)
  have hm := Int.tmod_nonneg precisionReuse h
  have hlt := Int.tmod_lt_of_pos x.Amount.raw precisionReuse_pos
  have hd := Int.tmod_add_tdiv x.Amount.raw precisionReuse
  have h2 : 0 ≤ x.Amount.raw - chopPrecisionAndTruncate x.Amount.raw * precisionReuse := by
    unfold chopPrecisionAndTruncate; linarith
  have h3 : x.Amount.raw - chopPrecisionAndTruncate x.Amount.raw * precisionReuse < 2 ^ 315 := by
    have : x.Amount.raw - chopPrecisionAndTruncate x.Amount.raw * precisionReuse
        < precisionReuse := by
      unfold chopPrecisionAndTruncate; linarith
    have hp : precisionReuse < 2 ^ 315 := by unfold precisionReuse; norm_num
    linarith
  simp [DecCoin.TruncateDecimal, Dec.TruncateInt, NewIntFromBigInt, Dec.Sub, ToDec, NewCoin,
    NewDecCoinFromDec, fits255 _ h1 hfit, fits315 _ h2 h3, not_lt.mpr h1, not_lt.mpr h2]

/-- The fold of `TruncateDecimal` over a denomination-sorted slice of non-negative amounts
whose integer parts fit in 255 bits appends the non-zero truncated coins in order. -/
theorem DecCoins.truncateLoop :
    ∀ (l : DecCoins) (acc : Coins), l.Pairwise (fun a b => a.Denom.data < b.Denom.data) →
      (∀ c ∈ acc, ∀ x ∈ l, c.Denom.data < x.Denom.data) → (∀ c ∈ acc, c.IsZero = false) →
      (∀ x ∈ l, 0 ≤ x.Amount.raw) →
      (∀ x ∈ l, chopPrecisionAndTruncate x.Amount.raw < 2 ^ 255) →
      l.foldlM (fun truncatedCoins coin =>
        coin.TruncateDecimal.bind (fun tc =>
          if !tc.1.IsZero then truncatedCoins.Add [tc.1] else some truncatedCoins)) acc
        = some (acc ++ l.filterMap (fun x =>
            if chopPrecisionAndTruncate x.Amount.raw = 0 then none
            else some (⟨x.Denom, chopPrecisionAndTruncate x.Amount.raw⟩ : Coin))) := by
  intro l
  induction l with
  | nil => intro acc _ _ _ _ _; simp
  | cons x xs ih =>
    intro acc hs hacc hnz hnn hfit
    have hxs := List.pairwise_cons.mp hs
    have hx0 := hnn x (List.mem_cons_self _ _)
    have hxf := hfit x (List.mem_cons_self _ _)
    rw [List.foldlM_cons, DecCoin.TruncateDecimal_nonneg x hx0 hxf, List.filterMap_cons]
    simp only [Option.some_bind, Option.bind_eq_bind]
    by_cases hz : chopPrecisionAndTruncate x.Amount.raw = 0
    · have hz2 : Coin.IsZero ⟨x.Denom, chopPrecisionAndTruncate x.Amount.raw⟩ = true := by
        simp [Coin.IsZero, hz]
      simp only [hz2, Bool.not_true, Bool.false_eq_true, if_false, if_pos hz, Option.some_bind]
      exact ih acc hxs.2 (fun c hc y hy => hacc c hc y (List.mem_cons_of_mem _ hy)) hnz
        (fun y hy => hnn y (List.mem_cons_of_mem _ hy))
        (fun y hy => hfit y (List.mem_cons_of_mem _ hy))
    · have hz2 : Coin.IsZero ⟨x.Denom, chopPrecisionAndTruncate x.Amount.raw⟩ = false := by
        simp [Coin.IsZero, hz]
      simp only [hz2, Bool.not_false, if_true, if_neg hz]
      rw [Coins.Add_snoc acc _ hz2 (fun c hc => hacc c hc x (List.mem_cons_self _ _)) hnz,
        Option.some_bind]
      rw [ih (acc ++ [_]) hxs.2 ?_ ?_ (fun y hy => hnn y (List.mem_cons_of_mem _ hy))
        (fun y hy => hfit y (List.mem_cons_of_mem _ hy))]
      · simp
      · intro c hc y hy
        rcases List.mem_append.mp hc with hc | hc
        · exact hacc c hc y (List.mem_cons_of_mem _ hy)
        · rw [List.mem_singleton.mp hc]; exact hxs.1 y hy
      · intro c hc
        rcases List.mem_append.mp hc with hc | hc
        · exact hnz c hc
        · rw [List.mem_singleton.mp hc]; exact hz2

/-- On a valid coin set, scaling every amount to a decimal, multiplying it through `mul`
(whose product on the amount `a` is `r a`, scaled) and truncating the product is the
amount-wise map of `fun a => chopPrecisionAndTruncate (r a)`, when the products are not
negative and their integer parts fit in 255 bits. -/
theorem mulTruncate_valid (mul : Dec → Option Dec) (r : Int → Int) (l : Coins)
    (h : l.IsValid = true)
    (hmul : ∀ c ∈ l, mul (ToDec c.Amount) = some ⟨r c.Amount⟩)
    (hnn : ∀ c ∈ l, 0 ≤ r c.Amount)
    (hfit : ∀ c ∈ l, chopPrecisionAndTruncate (r c.Amount) < 2 ^ 255) :
    ((l.map (fun coin => (⟨coin.Denom, ToDec coin.Amount⟩ : DecCoin))).foldlM
        (fun (res : DecCoins) (coin : DecCoin) =>
          (mul coin.Amount).bind (fun amount =>
            if !(DecCoin.IsZero ⟨coin.Denom, amount⟩) then res.Add [⟨coin.Denom, amount⟩]
            else some res)) []).bind (fun product => DecCoins.TruncateDecimal product)
      = some (Coins.mapAmount (fun a => chopPrecisionAndTruncate (r a)) l) := by
  have h2 := (Coins.IsValid_iff l).mp h
  rw [DecCoins.mulLoop mul r l [] h2.1 (by simp) (by simp) hmul, Option.some_bind]
  unfold DecCoins.TruncateDecimal
  rw [DecCoins.truncateLoop _ [] ?_ (by simp) (by simp) ?_ ?_]
  · simp only [List.nil_append, List.filterMap_filterMap, Coins.mapAmount]
    congr 1
    apply List.filterMap_congr
    intro c _
    by_cases hz : r c.Amount = 0
    · simp [hz, chopPrecisionAndTruncate]
    · simp [hz]
  · rw [List.nil_append, List.pairwise_filterMap]
    refine h2.1.imp ?_
    intro a b hab x hx y hy
    by_cases ha : r a.Amount = 0
    · simp [ha] at hx
    · by_cases hb : r b.Amount = 0
      · simp [hb] at hy
      · simp only [ha, hb, if_false, Option.mem_def, Option.some.injEq] at hx hy
        subst hx; subst hy
        exact hab
  · intro x hx
    rw [List.nil_append, List.mem_filterMap] at hx
    obtain ⟨c, hc, hcx⟩ := hx
    by_cases hz : r c.Amount = 0
    · simp [hz] at hcx
    · simp only [hz, if_false, Option.some.injEq] at hcx
      subst hcx
      exact hnn c hc
  · intro x hx
    rw [List.nil_append, List.mem_filterMap] at hx
    obtain ⟨c, hc, hcx⟩ := hx
    by_cases hz : r c.Amount = 0
    · simp [hz] at hcx
    · simp only [hz, if_false, Option.some.injEq] at hcx
      subst hcx
      exact hfit c hc

/-- `Dec.Mul` by the ratio `40/100` is exact and does not overflow on an `sdk.Int` amount. -/
theorem mul40_some (a : Int) (h0 : 0 ≤ a) (h : a < 2 ^ 255) :
    (ToDec a).Mul (NewDecWithPrec 40 2) = some ⟨a * 40 * 10 ^ 16⟩ := by
  have e : chopPrecisionAndRound ((ToDec a).raw * (NewDecWithPrec 40 2).raw) = a * 40 * 10 ^ 16 := by
    simp only [ToDec, NewDecWithPrec]
    rw [show a * precisionReuse * (40 * 10 ^ (18 - 2)) = (a * 40 * 10 ^ 16) * precisionReuse by
      norm_num; ring, chopPrecisionAndRound_mul]
  have hf := fits315 (a * 40 * 10 ^ 16) (by omega) (by norm_num at h ⊢; omega)
  simp only [Dec.Mul, e, hf, Bool.false_eq_true, if_false]

/-- `Dec.Mul` by the integer `n` is exact and does not overflow when the product fits in 255
bits. -/
theorem mulInt_some (a n : Int) (h0 : 0 ≤ a * n) (h : a * n < 2 ^ 255) :
    (ToDec a).Mul (NewDec n) = some ⟨a * n * precisionReuse⟩ := by
  have e : chopPrecisionAndRound ((ToDec a).raw * (NewDec n).raw) = a * n * precisionReuse := by
    simp only [ToDec, NewDec, NewDecWithPrec]
    rw [show a * precisionReuse * (n * 10 ^ (18 - 0)) = (a * n * precisionReuse) * precisionReuse by
      unfold precisionReuse; norm_num; ring, chopPrecisionAndRound_mul]
  have hf : bitLenExceeds (a * n * precisionReuse) (255 + DecimalPrecisionBits) = false := by
    apply fits315
    · exact mul_nonneg h0 (le_of_lt precisionReuse_pos)
    · unfold precisionReuse
      generalize a * n = m at h0 h
      norm_num at h ⊢
      omega
  simp only [Dec.Mul, e, hf, Bool.false_eq_true, if_false]

/-- `Dec.MulTruncate` by the ratio `p/100` is exact and does not overflow when the share
`a * p / 100` fits in 255 bits. -/
theorem mulRatio_some (a p : Int) (h0 : 0 ≤ a) (hp : 0 ≤ p) (h : a * p / 100 < 2 ^ 255) :
    (ToDec a).MulTruncate (NewDecWithPrec p 2) = some ⟨a * p * 10 ^ 16⟩ := by
  have e : chopPrecisionAndTruncate ((ToDec a).raw * (NewDecWithPrec p 2).raw)
      = a * p * 10 ^ 16 := by
    simp only [ToDec, NewDecWithPrec, chopPrecisionAndTruncate]
    rw [show a * precisionReuse * (p * 10 ^ (18 - 2)) = (a * p * 10 ^ 16) * precisionReuse by
      norm_num; ring, Int.mul_tdiv_cancel _ (ne_of_gt precisionReuse_pos)]
  have hf : bitLenExceeds (a * p * 10 ^ 16) (255 + DecimalPrecisionBits) = false := by
    have hm : 0 ≤ a * p := mul_nonneg h0 hp
    apply fits315
    · generalize a * p = m at hm h
      omega
    · generalize a * p = m at hm h
      norm_num at h ⊢
      omega
  simp only [Dec.MulTruncate, e, hf, Bool.false_eq_true, if_false]

/-- The integer part of `a * 40 / 100`, scaled, is `a * 40 / 100` on `a ≥ 0`. -/
theorem chop_mul40 (a : Int) (ha : 0 ≤ a) :
    chopPrecisionAndTruncate (a * 40 * 10 ^ 16) = a * 40 / 100 := by
  unfold chopPrecisionAndTruncate
  rw [Int.tdiv_eq_ediv (by positivity) (le_of_lt precisionReuse_pos)]
  rw [show precisionReuse = 100 * 10 ^ 16 by unfold precisionReuse; norm_num]
  exact Int.mul_ediv_mul_of_pos_left _ _ (by norm_num)

/-- The integer part of `a * n`, scaled, is `a * n`. -/
theorem chop_mulInt (a n : Int) : chopPrecisionAndTruncate (a * n * precisionReuse) = a * n := by
  unfold chopPrecisionAndTruncate
  exact Int.mul_tdiv_cancel _ (ne_of_gt precisionReuse_pos)

/-- The integer part of `a * p / 100`, scaled, is `a * p / 100` on `a ≥ 0`, `p ≥ 0`. -/
theorem chop_mulRatio (a p : Int) (ha : 0 ≤ a) (hp : 0 ≤ p) :
    chopPrecisionAndTruncate (a * p * 10 ^ 16) = a * p / 100 := by
  unfold chopPrecisionAndTruncate
  rw [Int.tdiv_eq_ediv (by positivity) (le_of_lt precisionReuse_pos)]
  rw [show precisionReuse = 100 * 10 ^ 16 by unfold precisionReuse; norm_num]
  exact Int.mul_ediv_mul_of_pos_left _ _ (by norm_num)

/-- Line 103 on a valid total whose amounts are `sdk.Int` values. -/
theorem valFeesOf_valid (T : Coins) (h : T.IsValid = true) (hr : ∀ c ∈ T, c.Amount < 2 ^ 255) :
    valFeesOf T = some (Coins.mapAmount (fun a => a * 40 / 100) T) := by
  have hpos := ((Coins.IsValid_iff T).mp h).2
  unfold valFeesOf DecCoins.MulDec
  rw [NewDecCoinsFromCoins_valid T h, Option.some_bind]
  have := mulTruncate_valid (fun x => x.Mul (NewDecWithPrec 40 2)) (fun a => a * 40 * 10 ^ 16) T h
    (fun c hc => mul40_some _ (le_of_lt (hpos c hc)) (hr c hc))
    (fun c hc => by have := hpos c hc; positivity)
    (fun c hc => by
      have := hpos c hc; have := hr c hc
      rw [chop_mul40 _ (le_of_lt (hpos c hc))]; omega)
  rw [Coins.mapAmount_congr _ (fun a => a * 40 / 100) T
    (fun c hc => chop_mul40 _ (le_of_lt (hpos c hc)))] at this
  exact this

/-- Lines 105-106 on valid coin sets, when the sum and its multiple fit in 255 bits. -/
theorem finalFeesOf_valid (T v : Coins) (n : Int) (hT : T.IsValid = true)
    (hv : v.IsValid = true) (hn : 0 ≤ n)
    (hadd : ∀ d, T.AmountOf d + v.AmountOf d < 2 ^ 255)
    (hmul : ∀ d, (T.AmountOf d + v.AmountOf d) * n < 2 ^ 255) :
    finalFeesOf T v n = some (Coins.mapAmount (fun a => a * n) (T.merge v)) := by
  have h := Coins.merge_valid T v hT hv
  have hpos := ((Coins.IsValid_iff _).mp h).2
  have hA : ∀ c ∈ T.merge v, c.Amount = T.AmountOf c.Denom + v.AmountOf c.Denom := fun c hc => by
    rw [← Coins.AmountOf_mem _ h c hc, Coins.merge_AmountOf T v hT hv]
  unfold finalFeesOf DecCoins.MulDec
  rw [Coins.Add_some T v hT hv hadd, Option.some_bind, NewDecCoinsFromCoins_valid _ h,
    Option.some_bind]
  have := mulTruncate_valid (fun x => x.Mul (NewDec n)) (fun a => a * n * precisionReuse)
    (T.merge v) h
    (fun c hc => mulInt_some _ _ (by have := hpos c hc; positivity)
      (by rw [hA c hc]; exact hmul _))
    (fun c hc => by have := hpos c hc; have := precisionReuse_pos; positivity)
    (fun c hc => by rw [chop_mulInt, hA c hc]; exact hmul _)
  rw [Coins.mapAmount_congr _ (fun a => a * n) (T.merge v) (fun c _ => chop_mulInt _ _)] at this
  exact this

/-- Line 31 on a valid fee, when every share fits in 255 bits. -/
theorem providedCoinsOf_valid (fees : Coins) (p : Int) (h : fees.IsValid = true) (hp : 0 ≤ p)
    (hfit : ∀ c ∈ fees, c.Amount * p / 100 < 2 ^ 255) :
    providedCoinsOf fees (NewDecWithPrec p 2)
      = some (Coins.mapAmount (fun a => a * p / 100) fees) := by
  have hpos := ((Coins.IsValid_iff fees).mp h).2
  unfold providedCoinsOf DecCoins.MulDecTruncate
  rw [NewDecCoinsFromCoins_valid fees h, Option.some_bind]
  have := mulTruncate_valid (fun x => x.MulTruncate (NewDecWithPrec p 2))
    (fun a => a * p * 10 ^ 16) fees h
    (fun c hc => mulRatio_some _ _ (le_of_lt (hpos c hc)) hp (hfit c hc))
    (fun c hc => by have := hpos c hc; positivity)
    (fun c hc => by rw [chop_mulRatio _ _ (le_of_lt (hpos c hc)) hp]; exact hfit c hc)
  rw [Coins.mapAmount_congr _ (fun a => a * p / 100) fees
    (fun c hc => chop_mulRatio _ _ (le_of_lt (hpos c hc)) hp)] at this
  exact this

theorem sum_AmountOf_nonneg (fees : List Coins) (hf : ∀ f ∈ fees, f.IsValid = true)
    (d : String) : 0 ≤ (fees.map (fun f => f.AmountOf d)).sum := by
  apply List.sum_nonneg
  intro x hx
  obtain ⟨f, hf2, rfl⟩ := List.mem_map.mp hx
  exact Coins.AmountOf_nonneg f (hf f hf2) d

/-- The accumulation of valid fee sets does not panic when the sum stays below `2^255` in
every denomination; its value is the merge on unbounded integers. -/
theorem foldlM_Add_some (fees : List Coins) (hf : ∀ f ∈ fees, f.IsValid = true) :
    ∀ (acc : Coins), acc.IsValid = true →
      (∀ d, acc.AmountOf d + (fees.map (fun f => f.AmountOf d)).sum < 2 ^ 255) →
      fees.foldlM Coins.Add acc = some (fees.foldl Coins.merge acc) := by
  induction fees with
  | nil => intro acc _ _; rfl
  | cons f fs ih =>
    intro acc hacc hb
    have hf0 := hf f (List.mem_cons_self _ _)
    have hfs : ∀ g ∈ fs, g.IsValid = true := fun g hg => hf g (List.mem_cons_of_mem _ hg)
    have h1 : acc.Add f = some (acc.merge f) := by
      apply Coins.Add_some acc f hacc hf0
      intro d
      have := hb d
      have := sum_AmountOf_nonneg fs hfs d
      simp only [List.map_cons, List.sum_cons] at *
      omega
    rw [List.foldlM_cons, h1, List.foldl_cons]
    simp only [Option.bind_eq_bind, Option.some_bind]
    apply ih hfs _ (Coins.merge_valid acc f hacc hf0)
    intro d
    have := hb d
    rw [Coins.merge_AmountOf acc f hacc hf0]
    simp only [List.map_cons, List.sum_cons] at this
    omega

/-- When the accumulation does not panic, its value is the merge on unbounded integers. -/
theorem foldlM_Add_eq (fees : List Coins) :
    ∀ (acc T : Coins), fees.foldlM Coins.Add acc = some T → T = fees.foldl Coins.merge acc := by
  induction fees with
  | nil => intro acc T h; simpa using h.symm
  | cons f fs ih =>
    intro acc T h
    rw [List.foldlM_cons] at h
    cases hadd : acc.Add f with
    | none => rw [hadd] at h; simp at h
    | some s =>
      rw [hadd] at h
      simp only [Option.bind_eq_bind, Option.some_bind] at h
      rw [List.foldl_cons, ← Coins.Add_eq _ _ _ hadd]
      exact ih s T h

/-- The total of valid declared fees exists when their sum stays below `2^255` in every
denomination; it is valid and holds that sum in every denomination. -/
theorem totalFeesOf_some (tcs : List TestCaseI) (dss : List AIDataSourceI)
    (htc : ∀ t ∈ tcs, t.Fees.IsValid = true) (hds : ∀ s ∈ dss, s.Fees.IsValid = true)
    (hb : ∀ d, declaredFees tcs dss d < 2 ^ 255) :
    totalFeesOf tcs dss = some (mergedFeesOf tcs dss) ∧
    ((tcs.map (·.Fees)).foldlM Coins.Add [] = some ((tcs.map (·.Fees)).foldl Coins.merge [])) ∧
    ((dss.map (·.Fees)).foldlM Coins.Add ((tcs.map (·.Fees)).foldl Coins.merge [])
      = some (mergedFeesOf tcs dss)) ∧
    (mergedFeesOf tcs dss).IsValid = true ∧
    ∀ d, (mergedFeesOf tcs dss).AmountOf d = declaredFees tcs dss d := by
  have h1 : ∀ f ∈ tcs.map (·.Fees), f.IsValid = true := fun f hf => by
    obtain ⟨t, ht, rfl⟩ := List.mem_map.mp hf; exact htc t ht
  have h2 : ∀ f ∈ dss.map (·.Fees), f.IsValid = true := fun f hf => by
    obtain ⟨s, hs, rfl⟩ := List.mem_map.mp hf; exact hds s hs
  have hnil : Coins.IsValid [] = true := rfl
  have hA := mergedFeesOf_AmountOf tcs dss htc hds
  have hsum1 : ∀ d, ((tcs.map (·.Fees)).map (fun f => f.AmountOf d)).sum
      = (tcs.map (fun t => t.Fees.AmountOf d)).sum := fun d => by
    simp [List.map_map, Function.comp_def]
  have hsum2 : ∀ d, ((dss.map (·.Fees)).map (fun f => f.AmountOf d)).sum
      = (dss.map (fun s => s.Fees.AmountOf d)).sum := fun d => by
    simp [List.map_map, Function.comp_def]
  have e1 : (tcs.map (·.Fees)).foldlM Coins.Add []
      = some ((tcs.map (·.Fees)).foldl Coins.merge []) := by
    apply foldlM_Add_some _ h1 [] hnil
    intro d
    have := hb d
    have := sum_AmountOf_nonneg _ h2 d
    rw [hsum2] at this
    rw [hsum1]
    have h0 : Coins.AmountOf [] d = 0 := rfl
    unfold declaredFees at *
    rw [h0]
    omega
  have e2 : (dss.map (·.Fees)).foldlM Coins.Add ((tcs.map (·.Fees)).foldl Coins.merge [])
      = some (mergedFeesOf tcs dss) := by
    apply foldlM_Add_some _ h2 _ (foldl_merge_valid _ h1 [] hnil)
    intro d
    have := hb d
    rw [foldl_merge_AmountOf d _ h1 [] hnil, hsum1, hsum2]
    have h0 : Coins.AmountOf [] d = 0 := rfl
    unfold declaredFees at *
    rw [h0]
    omega
  refine ⟨?_, e1, e2, mergedFeesOf_valid tcs dss htc hds, fun d => ?_⟩
  · unfold totalFeesOf
    rw [e1, Option.some_bind, e2]
  · rw [hA d]; rfl

theorem Ctx.record_eq (ctx : Ctx) (c : Call) : ctx.record c = ctx.recordAll [c] := rfl

theorem Ctx.recordAll_recordAll (ctx : Ctx) (a b : List Call) :
    (ctx.recordAll a).recordAll b = ctx.recordAll (a ++ b) := by
  simp [Ctx.recordAll]

theorem resolved_cons_ok {α : Type} (f : String → Except String α) (name : String)
    (rest : List String) (a : α) (h : f name = .ok a) :
    resolved f (name :: rest) = a :: resolved f rest := by
  simp [resolved, List.filterMap_cons, h, Except.toOption]

/-- Every list of names either resolves entirely or splits at its first unresolved name. -/
theorem resolves_or_split {α : Type} (f : String → Except String α) (names : List String) :
    (∀ name ∈ names, Resolves f name) ∨
    ∃ pre bad post err, names = pre ++ bad :: post ∧ (∀ name ∈ pre, Resolves f name) ∧
      f bad = .error err := by
  induction names with
  | nil => left; simp
  | cons name rest ih =>
    cases hf : f name with
    | error err => right; exact ⟨[], name, rest, err, rfl, by simp, hf⟩
    | ok a =>
      rcases ih with h | ⟨pre, bad, post, err, he, hp, hb⟩
      · left
        intro n hn
        rcases List.mem_cons.mp hn with rfl | hn
        · exact ⟨a, hf⟩
        · exact h n hn
      · right
        refine ⟨name :: pre, bad, post, err, by simp [he], ?_, hb⟩
        intro n hn
        rcases List.mem_cons.mp hn with rfl | hn
        · exact ⟨a, hf⟩
        · exact hp n hn

/-- When every listed test case resolves and the accumulation of the fees does not panic, the
loop returns the resolved objects and the accumulated total, after one lookup per name. -/
theorem testCaseLoop_ok (k : Keeper) :
    ∀ (names : List String) (ctx : Ctx) (objs : List TestCaseI) (total T : Coins),
      (∀ name ∈ names, Resolves k.GetTestCaseI name) →
      ((resolved k.GetTestCaseI names).map (·.Fees)).foldlM Coins.Add total = some T →
      testCaseLoop k names ctx objs total =
        (.ok (objs ++ resolved k.GetTestCaseI names, T),
         ctx.recordAll (names.map Call.GetTestCaseI)) := by
  intro names
  induction names with
  | nil =>
    intro ctx objs total T _ hT
    simp only [resolved, List.filterMap_nil, List.map_nil, List.foldlM_nil, pure,
      Option.some.injEq] at hT
    simp [testCaseLoop, resolved, Ctx.recordAll, hT]
  | cons name rest ih =>
    intro ctx objs total T h hT
    obtain ⟨a, ha⟩ := h name (List.mem_cons_self _ _)
    rw [resolved_cons_ok _ _ _ _ ha, List.map_cons, List.foldlM_cons] at hT
    cases hadd : total.Add a.Fees with
    | none => rw [hadd] at hT; simp at hT
    | some s =>
      rw [hadd] at hT
      simp only [Option.bind_eq_bind, Option.some_bind] at hT
      simp only [testCaseLoop, ha, hadd]
      rw [ih _ _ _ _ (fun n hn => h n (List.mem_cons_of_mem _ hn)) hT,
        resolved_cons_ok _ _ _ _ ha, Ctx.record_eq, Ctx.recordAll_recordAll]
      simp

/-- When a listed test case fails to resolve after an initial segment that resolves and whose
fees accumulate without panic, the loop ends with `ErrTestCaseNotFound` right after the failing
lookup. -/
theorem testCaseLoop_error (k : Keeper) (bad err : String) (post : List String)
    (hbad : k.GetTestCaseI bad = .error err) :
    ∀ (pre : List String) (ctx : Ctx) (objs : List TestCaseI) (total T : Coins),
      (∀ name ∈ pre, Resolves k.GetTestCaseI name) →
      ((resolved k.GetTestCaseI pre).map (·.Fees)).foldlM Coins.Add total = some T →
      testCaseLoop k (pre ++ bad :: post) ctx objs total =
        (.error (.error .ErrTestCaseNotFound ("failed to get test case: " ++ err)),
         ctx.recordAll ((pre ++ [bad]).map Call.GetTestCaseI)) := by
  intro pre
  induction pre with
  | nil => intro ctx objs total T _ _; simp [testCaseLoop, hbad, Ctx.record_eq]
  | cons name rest ih =>
    intro ctx objs total T h hT
    obtain ⟨a, ha⟩ := h name (List.mem_cons_self _ _)
    rw [resolved_cons_ok _ _ _ _ ha, List.map_cons, List.foldlM_cons] at hT
    cases hadd : total.Add a.Fees with
    | none => rw [hadd] at hT; simp at hT
    | some s =>
      rw [hadd] at hT
      simp only [Option.bind_eq_bind, Option.some_bind] at hT
      rw [List.cons_append]
      simp only [testCaseLoop, ha, hadd]
      rw [ih _ _ _ _ (fun n hn => h n (List.mem_cons_of_mem _ hn)) hT, Ctx.record_eq,
        Ctx.recordAll_recordAll]
      simp

/-- The test-case loop either returns the resolved objects and the accumulated total after
one lookup per name, or ends without a result after the lookups of an initial segment of the
names: with a panic of the accumulation, or at a name that does not resolve. -/
theorem testCaseLoop_cases (k : Keeper) :
    ∀ (names : List String) (objs : List TestCaseI) (total : Coins),
      (∃ T, (∀ name ∈ names, Resolves k.GetTestCaseI name) ∧
        ((resolved k.GetTestCaseI names).map (·.Fees)).foldlM Coins.Add total = some T ∧
        ∀ ctx, testCaseLoop k names ctx objs total =
          (.ok (objs ++ resolved k.GetTestCaseI names, T),
           ctx.recordAll (names.map Call.GetTestCaseI))) ∨
      (∃ e n, (e = .panic ∨ ∃ name ∈ names, ¬ Resolves k.GetTestCaseI name) ∧
        ∀ ctx, testCaseLoop k names ctx objs total =
          (.error e, ctx.recordAll ((names.take n).map Call.GetTestCaseI))) := by
  intro names
  induction names with
  | nil =>
    intro objs total
    left
    exact ⟨total, by simp, by simp [resolved], fun ctx => by
      simp [testCaseLoop, resolved, Ctx.recordAll]⟩
  | cons name rest ih =>
    intro objs total
    cases hk : k.GetTestCaseI name with
    | error err =>
      right
      refine ⟨.error .ErrTestCaseNotFound ("failed to get test case: " ++ err), 1,
        Or.inr ⟨name, List.mem_cons_self _ _, ?_⟩, fun ctx => by
          simp [testCaseLoop, hk, Ctx.record_eq]⟩
      rintro ⟨a, ha⟩
      rw [hk] at ha
      exact Except.noConfusion ha
    | ok a =>
      cases hadd : total.Add a.Fees with
      | none =>
        right
        exact ⟨.panic, 1, Or.inl rfl, fun ctx => by
          simp [testCaseLoop, hk, hadd, Ctx.record_eq]⟩
      | some s =>
        rcases ih (objs ++ [a]) s with ⟨T, hres, hfold, hrun⟩ | ⟨e, n, hcls, hrun⟩
        · left
          refine ⟨T, ?_, ?_, fun ctx => ?_⟩
          · intro m hm
            rcases List.mem_cons.mp hm with rfl | hm
            · exact ⟨a, hk⟩
            · exact hres m hm
          · rw [resolved_cons_ok _ _ _ _ hk, List.map_cons, List.foldlM_cons, hadd]
            simpa using hfold
          · simp only [testCaseLoop, hk, hadd]
            rw [hrun, resolved_cons_ok _ _ _ _ hk, Ctx.record_eq, Ctx.recordAll_recordAll]
            simp
        · right
          refine ⟨e, n + 1, ?_, fun ctx => ?_⟩
          · rcases hcls with h | ⟨m, hm, hnot⟩
            · exact Or.inl h
            · exact Or.inr ⟨m, List.mem_cons_of_mem _ hm, hnot⟩
          · simp only [testCaseLoop, hk, hadd]
            rw [hrun, Ctx.record_eq, Ctx.recordAll_recordAll]
            simp

theorem dataSourceLoop_ok (k : Keeper) :
    ∀ (names : List String) (ctx : Ctx) (objs : List AIDataSourceI) (total T : Coins),
      (∀ name ∈ names, Resolves k.GetAIDataSourceI name) →
      ((resolved k.GetAIDataSourceI names).map (·.Fees)).foldlM Coins.Add total = some T →
      dataSourceLoop k names ctx objs total =
        (.ok (objs ++ resolved k.GetAIDataSourceI names, T),
         ctx.recordAll (names.map Call.GetAIDataSourceI)) := by
  intro names
  induction names with
  | nil =>
    intro ctx objs total T _ hT
    simp only [resolved, List.filterMap_nil, List.map_nil, List.foldlM_nil, pure,
      Option.some.injEq] at hT
    simp [dataSourceLoop, resolved, Ctx.recordAll, hT]
  | cons name rest ih =>
    intro ctx objs total T h hT
    obtain ⟨a, ha⟩ := h name (List.mem_cons_self _ _)
    rw [resolved_cons_ok _ _ _ _ ha, List.map_cons, List.foldlM_cons] at hT
    cases hadd : total.Add a.Fees with
    | none => rw [hadd] at hT; simp at hT
    | some s =>
      rw [hadd] at hT
      simp only [Option.bind_eq_bind, Option.some_bind] at hT
      simp only [dataSourceLoop, ha, hadd]
      rw [ih _ _ _ _ (fun n hn => h n (List.mem_cons_of_mem _ hn)) hT,
        resolved_cons_ok _ _ _ _ ha, Ctx.record_eq, Ctx.recordAll_recordAll]
      simp

theorem dataSourceLoop_error (k : Keeper) (bad err : String) (post : List String)
    (hbad : k.GetAIDataSourceI bad = .error err) :
    ∀ (pre : List String) (ctx : Ctx) (objs : List AIDataSourceI) (total T : Coins),
      (∀ name ∈ pre, Resolves k.GetAIDataSourceI name) →
      ((resolved k.GetAIDataSourceI pre).map (·.Fees)).foldlM Coins.Add total = some T →
      dataSourceLoop k (pre ++ bad :: post) ctx objs total =
        (.error (.error .ErrDataSourceNotFound ("failed to get data source: " ++ err)),
         ctx.recordAll ((pre ++ [bad]).map Call.GetAIDataSourceI)) := by
  intro pre
  induction pre with
  | nil => intro ctx objs total T _ _; simp [dataSourceLoop, hbad, Ctx.record_eq]
  | cons name rest ih =>
    intro ctx objs total T h hT
    obtain ⟨a, ha⟩ := h name (List.mem_cons_self _ _)
    rw [resolved_cons_ok _ _ _ _ ha, List.map_cons, List.foldlM_cons] at hT
    cases hadd : total.Add a.Fees with
    | none => rw [hadd] at hT; simp at hT
    | some s =>
      rw [hadd] at hT
      simp only [Option.bind_eq_bind, Option.some_bind] at hT
      rw [List.cons_append]
      simp only [dataSourceLoop, ha, hadd]
      rw [ih _ _ _ _ (fun n hn => h n (List.mem_cons_of_mem _ hn)) hT, Ctx.record_eq,
        Ctx.recordAll_recordAll]
      simp

theorem dataSourceLoop_cases (k : Keeper) :
    ∀ (names : List String) (objs : List AIDataSourceI) (total : Coins),
      (∃ T, (∀ name ∈ names, Resolves k.GetAIDataSourceI name) ∧
        ((resolved k.GetAIDataSourceI names).map (·.Fees)).foldlM Coins.Add total = some T ∧
        ∀ ctx, dataSourceLoop k names ctx objs total =
          (.ok (objs ++ resolved k.GetAIDataSourceI names, T),
           ctx.recordAll (names.map Call.GetAIDataSourceI))) ∨
      (∃ e n, (e = .panic ∨ ∃ name ∈ names, ¬ Resolves k.GetAIDataSourceI name) ∧
        ∀ ctx, dataSourceLoop k names ctx objs total =
          (.error e, ctx.recordAll ((names.take n).map Call.GetAIDataSourceI))) := by
  intro names
  induction names with
  | nil =>
    intro objs total
    left
    exact ⟨total, by simp, by simp [resolved], fun ctx => by
      simp [dataSourceLoop, resolved, Ctx.recordAll]⟩
  | cons name rest ih =>
    intro objs total
    cases hk : k.GetAIDataSourceI name with
    | error err =>
      right
      refine ⟨.error .ErrDataSourceNotFound ("failed to get data source: " ++ err), 1,
        Or.inr ⟨name, List.mem_cons_self _ _, ?_⟩, fun ctx => by
          simp [dataSourceLoop, hk, Ctx.record_eq]⟩
      rintro ⟨a, ha⟩
      rw [hk] at ha
      exact Except.noConfusion ha
    | ok a =>
      cases hadd : total.Add a.Fees with
      | none =>
        right
        exact ⟨.panic, 1, Or.inl rfl, fun ctx => by
          simp [dataSourceLoop, hk, hadd, Ctx.record_eq]⟩
      | some s =>
        rcases ih (objs ++ [a]) s with ⟨T, hres, hfold, hrun⟩ | ⟨e, n, hcls, hrun⟩
        · left
          refine ⟨T, ?_, ?_, fun ctx => ?_⟩
          · intro m hm
            rcases List.mem_cons.mp hm with rfl | hm
            · exact ⟨a, hk⟩
            · exact hres m hm
          · rw [resolved_cons_ok _ _ _ _ hk, List.map_cons, List.foldlM_cons, hadd]
            simpa using hfold
          · simp only [dataSourceLoop, hk, hadd]
            rw [hrun, resolved_cons_ok _ _ _ _ hk, Ctx.record_eq, Ctx.recordAll_recordAll]
            simp
        · right
          refine ⟨e, n + 1, ?_, fun ctx => ?_⟩
          · rcases hcls with h | ⟨m, hm, hnot⟩
            · exact Or.inl h
            · exact Or.inr ⟨m, List.mem_cons_of_mem _ hm, hnot⟩
          · simp only [dataSourceLoop, hk, hadd]
            rw [hrun, Ctx.record_eq, Ctx.recordAll_recordAll]
            simp

theorem handle_sampleError (ctx : Ctx) (k : Keeper) (msg : MsgSetOCRRequest) (err : String)
    (hs : k.RandomValidators ctx.BlockHeight ctx.Roster msg.MsgAIRequest.ValidatorCount
      msg.MsgAIRequest.RequestID = .error err) :
    handleMsgSetOCRRequest ctx k msg =
      (.error (.error .ErrCannotRandomValidators err),
       ctx.recordAll [.RandomValidators msg.MsgAIRequest.ValidatorCount
         msg.MsgAIRequest.RequestID]) := by
  simp only [handleMsgSetOCRRequest, Ctx.record, hs, Ctx.recordAll]

theorem handle_providedPanic (ctx : Ctx) (k : Keeper) (msg : MsgSetOCRRequest)
    (vals : List ValAddress)
    (hs : k.RandomValidators ctx.BlockHeight ctx.Roster msg.MsgAIRequest.ValidatorCount
      msg.MsgAIRequest.RequestID = .ok vals)
    (hp : providedCoinsOf msg.MsgAIRequest.Fees (rewardRatioOf k) = none) :
    handleMsgSetOCRRequest ctx k msg =
      (.error .panic, ctx.recordAll [.RandomValidators msg.MsgAIRequest.ValidatorCount
         msg.MsgAIRequest.RequestID, .GetParam .KeyOracleScriptRewardPercentage]) := by
  unfold rewardRatioOf at hp
  simp [handleMsgSetOCRRequest, Ctx.record, hs, Ctx.recordAll, hp]

theorem handle_firstRunError (ctx : Ctx) (k : Keeper) (msg : MsgSetOCRRequest)
    (vals : List ValAddress) (pc : Coins)
    (hs : k.RandomValidators ctx.BlockHeight ctx.Roster msg.MsgAIRequest.ValidatorCount
      msg.MsgAIRequest.RequestID = .ok vals)
    (hp : providedCoinsOf msg.MsgAIRequest.Fees (rewardRatioOf k) = some pc)
    (hds : k.Run (k.GetOScriptPath msg.MsgAIRequest.OracleScriptName) "aiDataSource" = none) :
    handleMsgSetOCRRequest ctx k msg =
      (.error (.error .ErrFailedToOpenFile "failed to collect data source name"),
       ctx.recordAll (callsBeforeRun msg ++ (runCalls k msg).take 1)) := by
  unfold rewardRatioOf at hp
  simp [handleMsgSetOCRRequest, Ctx.record, hs, Ctx.recordAll, hp, hds, callsBeforeRun, runCalls]

theorem handle_secondRunError (ctx : Ctx) (k : Keeper) (msg : MsgSetOCRRequest)
    (vals : List ValAddress) (pc : Coins) (dsOut : String)
    (hs : k.RandomValidators ctx.BlockHeight ctx.Roster msg.MsgAIRequest.ValidatorCount
      msg.MsgAIRequest.RequestID = .ok vals)
    (hp : providedCoinsOf msg.MsgAIRequest.Fees (rewardRatioOf k) = some pc)
    (hds : k.Run (k.GetOScriptPath msg.MsgAIRequest.OracleScriptName) "aiDataSource"
      = some dsOut)
    (htc : k.Run (k.GetOScriptPath msg.MsgAIRequest.OracleScriptName) "testcase" = none) :
    handleMsgSetOCRRequest ctx k msg =
      (.error (.error .ErrFailedToOpenFile
        ("failed to collect test case name: " ++ TrimSuffixNewline dsOut)),
       ctx.recordAll (callsBeforeRun msg ++ runCalls k msg)) := by
  unfold rewardRatioOf at hp
  simp [handleMsgSetOCRRequest, Ctx.record, hs, Ctx.recordAll, hp, hds, htc, callsBeforeRun,
    runCalls]

/-- The handler from the first lookup on, once sampling, the provided coins and both runs of
the script have succeeded. -/
theorem handle_afterRuns (ctx : Ctx) (k : Keeper) (msg : MsgSetOCRRequest)
    (vals : List ValAddress) (pc : Coins) (dsOut tcOut : String)
    (hs : k.RandomValidators ctx.BlockHeight ctx.Roster msg.MsgAIRequest.ValidatorCount
      msg.MsgAIRequest.RequestID = .ok vals)
    (hp : providedCoinsOf msg.MsgAIRequest.Fees (rewardRatioOf k) = some pc)
    (hds : k.Run (k.GetOScriptPath msg.MsgAIRequest.OracleScriptName) "aiDataSource"
      = some dsOut)
    (htc : k.Run (k.GetOScriptPath msg.MsgAIRequest.OracleScriptName) "testcase"
      = some tcOut) :
    handleMsgSetOCRRequest ctx k msg =
      match testCaseLoop k (namesOf tcOut)
          (ctx.recordAll (callsBeforeRun msg ++ runCalls k msg)) [] [] with
      | (.error e, ctx) => (.error e, ctx)
      | (.ok (testcaseObjs, totalFees), ctx) =>
        match dataSourceLoop k (namesOf dsOut) ctx [] totalFees with
        | (.error e, ctx) => (.error e, ctx)
        | (.ok (dataSourceObjs, totalFees), ctx2) =>
          afterLookups ctx2 k msg vals pc dataSourceObjs testcaseObjs totalFees := by
  unfold rewardRatioOf at hp
  simp only [handleMsgSetOCRRequest, Ctx.record, hs, Ctx.recordAll, hp, hds, htc,
    callsBeforeRun, runCalls, namesOf, List.append_assoc, List.cons_append,
    List.nil_append]
  generalize testCaseLoop k (Fields (TrimSuffixNewline tcOut)) _ [] [] = r1
  rcases r1 with ⟨e | ⟨tcs, sub⟩, c⟩
  · rfl
  · simp only
    generalize dataSourceLoop k (Fields (TrimSuffixNewline dsOut)) c [] sub = r2
    rcases r2 with ⟨e | ⟨dss, T⟩, c2⟩
    · rfl
    · simp only [afterLookups]
      cases valFeesOf T with
      | none => rfl
      | some v =>
        simp only
        cases finalFeesOf T.Sort v msg.MsgAIRequest.ValidatorCount with
        | none => rfl
        | some f =>
          simp only
          split_ifs
          · rfl
          · simp [requestOf, storedCtx, Ctx.EmitEvent, Ctx.record]

/-- The part of the handler after the lookups ends without a result in every context, with
a panic or `ErrNeedMoreFees`, or stores the request in every context. -/
theorem afterLookups_cases (k : Keeper) (msg : MsgSetOCRRequest) (vals : List ValAddress)
    (pc : Coins) (dss : List AIDataSourceI) (tcs : List TestCaseI) (T : Coins) :
    (∃ e, (e = .panic ∨ e = .error .ErrNeedMoreFees
        "Fees given by the users are less than the total fees needed") ∧
      ∀ ctx, afterLookups ctx k msg vals pc dss tcs T = (.error e, ctx)) ∨
    (∀ ctx, afterLookups ctx k msg vals pc dss tcs T =
      (.ok ⟨ctx.events ++
          [requestEvent (requestOf ctx msg vals dss tcs) vals,
           requestWithDataEvent (requestOf ctx msg vals dss tcs) msg]⟩,
       storedCtx ctx k msg (requestOf ctx msg vals dss tcs) vals)) := by
  cases hv : valFeesOf T with
  | none => exact Or.inl ⟨_, Or.inl rfl, fun _ => by simp only [afterLookups, hv]⟩
  | some v =>
    cases hf : finalFeesOf T.Sort v msg.MsgAIRequest.ValidatorCount with
    | none => exact Or.inl ⟨_, Or.inl rfl, fun _ => by simp only [afterLookups, hv, hf]⟩
    | some f =>
      by_cases hgt : T.Sort.IsAnyGT pc = true
      · exact Or.inl ⟨_, Or.inr rfl, fun _ => by simp only [afterLookups, hv, hf, hgt, if_true]⟩
      · exact Or.inr (fun _ => by
          simp only [afterLookups, hv, hf, hgt, Bool.false_eq_true, if_false])

theorem handle_testCaseError (ctx : Ctx) (k : Keeper) (msg : MsgSetOCRRequest)
    (vals : List ValAddress) (pc : Coins) (dsOut tcOut : String)
    (pre post : List String) (bad err : String) (T : Coins)
    (hs : k.RandomValidators ctx.BlockHeight ctx.Roster msg.MsgAIRequest.ValidatorCount
      msg.MsgAIRequest.RequestID = .ok vals)
    (hp : providedCoinsOf msg.MsgAIRequest.Fees (rewardRatioOf k) = some pc)
    (hds : k.Run (k.GetOScriptPath msg.MsgAIRequest.OracleScriptName) "aiDataSource"
      = some dsOut)
    (htc : k.Run (k.GetOScriptPath msg.MsgAIRequest.OracleScriptName) "testcase"
      = some tcOut)
    (hsplit : namesOf tcOut = pre ++ bad :: post)
    (hpre : ∀ name ∈ pre, Resolves k.GetTestCaseI name)
    (hfold : ((resolved k.GetTestCaseI pre).map (·.Fees)).foldlM Coins.Add [] = some T)
    (hbad : k.GetTestCaseI bad = .error err) :
    handleMsgSetOCRRequest ctx k msg =
      (.error (.error .ErrTestCaseNotFound ("failed to get test case: " ++ err)),
       ctx.recordAll (callsBeforeRun msg ++ runCalls k msg
         ++ (pre ++ [bad]).map Call.GetTestCaseI)) := by
  rw [handle_afterRuns ctx k msg vals pc dsOut tcOut hs hp hds htc, hsplit,
    testCaseLoop_error k bad err post hbad pre _ _ _ T hpre hfold, Ctx.recordAll_recordAll]

theorem handle_dataSourceError (ctx : Ctx) (k : Keeper) (msg : MsgSetOCRRequest)
    (vals : List ValAddress) (pc : Coins) (dsOut tcOut : String)
    (pre post : List String) (bad err : String) (sub T : Coins)
    (hs : k.RandomValidators ctx.BlockHeight ctx.Roster msg.MsgAIRequest.ValidatorCount
      msg.MsgAIRequest.RequestID = .ok vals)
    (hp : providedCoinsOf msg.MsgAIRequest.Fees (rewardRatioOf k) = some pc)
    (hds : k.Run (k.GetOScriptPath msg.MsgAIRequest.OracleScriptName) "aiDataSource"
      = some dsOut)
    (htc : k.Run (k.GetOScriptPath msg.MsgAIRequest.OracleScriptName) "testcase"
      = some tcOut)
    (htcs : ∀ name ∈ namesOf tcOut, Resolves k.GetTestCaseI name)
    (hsub : ((resolved k.GetTestCaseI (namesOf tcOut)).map (·.Fees)).foldlM Coins.Add []
      = some sub)
    (hsplit : namesOf dsOut = pre ++ bad :: post)
    (hpre : ∀ name ∈ pre, Resolves k.GetAIDataSourceI name)
    (hfold : ((resolved k.GetAIDataSourceI pre).map (·.Fees)).foldlM Coins.Add sub = some T)
    (hbad : k.GetAIDataSourceI bad = .error err) :
    handleMsgSetOCRRequest ctx k msg =
      (.error (.error .ErrDataSourceNotFound ("failed to get data source: " ++ err)),
       ctx.recordAll (callsBeforeRun msg ++ runCalls k msg
         ++ (namesOf tcOut).map Call.GetTestCaseI
         ++ (pre ++ [bad]).map Call.GetAIDataSourceI)) := by
  rw [handle_afterRuns ctx k msg vals pc dsOut tcOut hs hp hds htc,
    testCaseLoop_ok k _ _ _ _ sub htcs hsub, hsplit]
  simp only
  rw [dataSourceLoop_error k bad err post hbad pre _ _ _ T hpre hfold, Ctx.recordAll_recordAll,
    Ctx.recordAll_recordAll]
  simp only [List.append_assoc]

/-- The handler once sampling, the provided coins, both runs and every lookup have
succeeded and the fees have been accumulated: what remains are lines 103-149. -/
theorem handle_resolved (ctx : Ctx) (k : Keeper) (msg : MsgSetOCRRequest)
    (vals : List ValAddress) (pc : Coins) (dsOut tcOut : String) (T : Coins)
    (hs : k.RandomValidators ctx.BlockHeight ctx.Roster msg.MsgAIRequest.ValidatorCount
      msg.MsgAIRequest.RequestID = .ok vals)
    (hp : providedCoinsOf msg.MsgAIRequest.Fees (rewardRatioOf k) = some pc)
    (hds : k.Run (k.GetOScriptPath msg.MsgAIRequest.OracleScriptName) "aiDataSource"
      = some dsOut)
    (htc : k.Run (k.GetOScriptPath msg.MsgAIRequest.OracleScriptName) "testcase"
      = some tcOut)
    (htcs : ∀ name ∈ namesOf tcOut, Resolves k.GetTestCaseI name)
    (hdss : ∀ name ∈ namesOf dsOut, Resolves k.GetAIDataSourceI name)
    (htot : totalFeesOf (resolved k.GetTestCaseI (namesOf tcOut))
      (resolved k.GetAIDataSourceI (namesOf dsOut)) = some T) :
    handleMsgSetOCRRequest ctx k msg =
      afterLookups (ctx.recordAll (callsToLookups k msg dsOut tcOut)) k msg vals pc
        (resolved k.GetAIDataSourceI (namesOf dsOut))
        (resolved k.GetTestCaseI (namesOf tcOut)) T := by
  unfold totalFeesOf at htot
  obtain ⟨sub, h1, h2⟩ := Option.bind_eq_some.mp htot
  rw [handle_afterRuns ctx k msg vals pc dsOut tcOut hs hp hds htc,
    testCaseLoop_ok k _ _ _ _ sub htcs h1]
  simp only
  rw [dataSourceLoop_ok k _ _ _ _ T hdss h2]
  simp only [Ctx.recordAll_recordAll, List.nil_append]
  rfl

/-- The context after a successful creation, seen from the initial context. -/
theorem storedCtx_recordAll (ctx : Ctx) (k : Keeper) (msg : MsgSetOCRRequest)
    (dsOut tcOut : String) (vals : List ValAddress) (dss : List AIDataSourceI)
    (tcs : List TestCaseI) :
    storedCtx (ctx.recordAll (callsToLookups k msg dsOut tcOut)) k msg
        (requestOf (ctx.recordAll (callsToLookups k msg dsOut tcOut)) msg vals dss tcs) vals
      = createdCtx ctx k msg dsOut tcOut (requestOf ctx msg vals dss tcs) vals := by
  simp [storedCtx, createdCtx, Ctx.recordAll, requestOf]

theorem callsToLookups_eq (k : Keeper) (msg : MsgSetOCRRequest) (dsOut tcOut : String) :
    callsToLookups k msg dsOut tcOut = sampleCall msg :: readsToLookups k msg dsOut tcOut := by
  simp [callsToLookups, readsToLookups, callsBeforeRun, sampleCall]

theorem readsToLookups_isRead (k : Keeper) (msg : MsgSetOCRRequest) (dsOut tcOut : String) :
    ∀ c ∈ readsToLookups k msg dsOut tcOut, c.isRead = true := by
  intro c hc
  simp only [readsToLookups, runCalls, List.mem_append, List.mem_cons, List.mem_map,
    List.mem_singleton, List.not_mem_nil, or_false] at hc
  rcases hc with ((((rfl | rfl) | (rfl | rfl)) | ⟨n, _, rfl⟩) | ⟨n, _, rfl⟩) <;> rfl

theorem filter_isRun_testCases (names : List String) :
    (names.map Call.GetTestCaseI).filter Call.isRun = [] := by
  induction names with
  | nil => rfl
  | cons n ns ih => simp [List.filter_cons, Call.isRun]

theorem filter_isRun_dataSources (names : List String) :
    (names.map Call.GetAIDataSourceI).filter Call.isRun = [] := by
  induction names with
  | nil => rfl
  | cons n ns ih => simp [List.filter_cons, Call.isRun]

theorem readsToLookups_filter_isRun (k : Keeper) (msg : MsgSetOCRRequest) (dsOut tcOut : String) :
    (readsToLookups k msg dsOut tcOut).filter Call.isRun = runCalls k msg := by
  simp [readsToLookups, runCalls, List.filter_cons, Call.isRun, filter_isRun_testCases,
    filter_isRun_dataSources]

theorem Call.isWrite_of_isRead (c : Call) (h : c.isRead = true) : c.isWrite = false := by
  cases c <;> simp_all [Call.isRead, Call.isWrite]

theorem filter_isRun_map_testCases (names : List String) (n : Nat) :
    ((names.take n).map Call.GetTestCaseI).filter Call.isRun = [] :=
  filter_isRun_testCases _

theorem isRead_map_testCases (names : List String) :
    ∀ c ∈ names.map Call.GetTestCaseI, c.isRead = true := by
  intro c hc
  obtain ⟨n, _, rfl⟩ := List.mem_map.mp hc
  rfl

theorem isRead_map_dataSources (names : List String) :
    ∀ c ∈ names.map Call.GetAIDataSourceI, c.isRead = true := by
  intro c hc
  obtain ⟨n, _, rfl⟩ := List.mem_map.mp hc
  rfl

theorem isRead_head (k : Keeper) (msg : MsgSetOCRRequest) :
    ∀ c ∈ [Call.GetParam .KeyOracleScriptRewardPercentage,
        Call.GetOScriptPath msg.MsgAIRequest.OracleScriptName] ++ runCalls k msg,
      c.isRead = true := by
  intro c hc
  simp only [runCalls, List.mem_append, List.mem_cons, List.mem_singleton, List.not_mem_nil,
    or_false] at hc
  rcases hc with (rfl | rfl) | (rfl | rfl) <;> rfl

theorem filter_isRun_head (k : Keeper) (msg : MsgSetOCRRequest) :
    ([Call.GetParam .KeyOracleScriptRewardPercentage,
        Call.GetOScriptPath msg.MsgAIRequest.OracleScriptName] ++ runCalls k msg).filter
      Call.isRun = runCalls k msg := by
  simp [runCalls, List.filter_cons, Call.isRun]

/-- The master case analysis, uniform in the context: for a fixed block height, roster, keeper
and message, either every run aborts with the same error after the sampler call and the same
read calls, or every run succeeds along the creation path. -/
theorem handle_outcome_uniform (height : Int) (roster : List Validator) (k : Keeper)
    (msg : MsgSetOCRRequest) :
    (∃ e rest, (∀ c ∈ rest, c.isRead = true) ∧
      (∃ n, rest.filter Call.isRun = (runCalls k msg).take n) ∧
      ∀ ctx : Ctx, ctx.BlockHeight = height → ctx.Roster = roster →
        handleMsgSetOCRRequest ctx k msg
          = (.error e, ctx.recordAll (sampleCall msg :: rest))) ∨
    (∃ vals dsOut tcOut,
      k.RandomValidators height roster msg.MsgAIRequest.ValidatorCount
        msg.MsgAIRequest.RequestID = .ok vals ∧
      k.Run (k.GetOScriptPath msg.MsgAIRequest.OracleScriptName) "aiDataSource" = some dsOut ∧
      k.Run (k.GetOScriptPath msg.MsgAIRequest.OracleScriptName) "testcase" = some tcOut ∧
      (∀ name ∈ namesOf tcOut, Resolves k.GetTestCaseI name) ∧
      (∀ name ∈ namesOf dsOut, Resolves k.GetAIDataSourceI name) ∧
      ∀ ctx : Ctx, ctx.BlockHeight = height → ctx.Roster = roster →
        handleMsgSetOCRRequest ctx k msg =
        (.ok ⟨ctx.events ++
            [requestEvent (requestOf ctx msg vals (resolved k.GetAIDataSourceI (namesOf dsOut))
                (resolved k.GetTestCaseI (namesOf tcOut))) vals,
             requestWithDataEvent (requestOf ctx msg vals
                (resolved k.GetAIDataSourceI (namesOf dsOut))
                (resolved k.GetTestCaseI (namesOf tcOut))) msg]⟩,
         createdCtx ctx k msg dsOut tcOut
           (requestOf ctx msg vals (resolved k.GetAIDataSourceI (namesOf dsOut))
             (resolved k.GetTestCaseI (namesOf tcOut))) vals)) := by
  cases hs : k.RandomValidators height roster msg.MsgAIRequest.ValidatorCount
      msg.MsgAIRequest.RequestID with
  | error err =>
    left
    exact ⟨_, [], by simp, ⟨0, rfl⟩, fun ctx hh hr =>
      handle_sampleError ctx k msg err (hh ▸ hr ▸ hs)⟩
  | ok vals =>
    cases hp : providedCoinsOf msg.MsgAIRequest.Fees (rewardRatioOf k) with
    | none =>
      left
      exact ⟨_, [.GetParam .KeyOracleScriptRewardPercentage], by simp [Call.isRead], ⟨0, rfl⟩,
        fun ctx hh hr => handle_providedPanic ctx k msg vals (hh ▸ hr ▸ hs) hp⟩
    | some pc =>
      cases hds : k.Run (k.GetOScriptPath msg.MsgAIRequest.OracleScriptName) "aiDataSource" with
      | none =>
        left
        refine ⟨_, [.GetParam .KeyOracleScriptRewardPercentage,
          .GetOScriptPath msg.MsgAIRequest.OracleScriptName] ++ (runCalls k msg).take 1, ?_,
          ⟨1, by simp [runCalls, List.filter_cons, Call.isRun]⟩,
          fun ctx hh hr => handle_firstRunError ctx k msg vals pc (hh ▸ hr ▸ hs) hp hds⟩
        simp [Call.isRead, runCalls]
      | some dsOut =>
        cases htc : k.Run (k.GetOScriptPath msg.MsgAIRequest.OracleScriptName) "testcase" with
        | none =>
          left
          refine ⟨_, [.GetParam .KeyOracleScriptRewardPercentage,
            .GetOScriptPath msg.MsgAIRequest.OracleScriptName] ++ runCalls k msg, ?_,
            ⟨2, by simp [runCalls, List.filter_cons, Call.isRun]⟩,
            fun ctx hh hr =>
              handle_secondRunError ctx k msg vals pc dsOut (hh ▸ hr ▸ hs) hp hds htc⟩
          simp [Call.isRead, runCalls]
        | some tcOut =>
          have hafter := fun (ctx : Ctx) (hh : ctx.BlockHeight = height)
              (hr : ctx.Roster = roster) =>
            handle_afterRuns ctx k msg vals pc dsOut tcOut (hh ▸ hr ▸ hs) hp hds htc
          rcases testCaseLoop_cases k (namesOf tcOut) [] [] with
            ⟨sub, htcs, _, hrun1⟩ | ⟨e, n, _, hrun1⟩
          · rcases dataSourceLoop_cases k (namesOf dsOut) [] sub with
              ⟨T, hdss, _, hrun2⟩ | ⟨e, n, _, hrun2⟩
            · have hcalls : ∀ ctx : Ctx,
                  ((ctx.recordAll (callsBeforeRun msg ++ runCalls k msg)).recordAll
                    ((namesOf tcOut).map Call.GetTestCaseI)).recordAll
                    ((namesOf dsOut).map Call.GetAIDataSourceI)
                  = ctx.recordAll (callsToLookups k msg dsOut tcOut) := fun ctx => by
                simp [Ctx.recordAll, callsToLookups]
              rcases afterLookups_cases k msg vals pc (resolved k.GetAIDataSourceI (namesOf dsOut))
                  (resolved k.GetTestCaseI (namesOf tcOut)) T with ⟨e, _, hrun3⟩ | hrun3
              · left
                refine ⟨e, readsToLookups k msg dsOut tcOut, readsToLookups_isRead k msg dsOut tcOut,
                  ⟨2, readsToLookups_filter_isRun k msg dsOut tcOut⟩, fun ctx hh hr => ?_⟩
                rw [hafter ctx hh hr, hrun1]
                simp only [List.nil_append]
                rw [hrun2]
                simp only [List.nil_append]
                rw [hrun3, hcalls, callsToLookups_eq]
              · right
                refine ⟨vals, dsOut, tcOut, rfl, rfl, rfl, htcs, hdss, fun ctx hh hr => ?_⟩
                rw [hafter ctx hh hr, hrun1]
                simp only [List.nil_append]
                rw [hrun2]
                simp only [List.nil_append]
                rw [hrun3, hcalls, storedCtx_recordAll]
                rfl
            · left
              refine ⟨e, [.GetParam .KeyOracleScriptRewardPercentage,
                    .GetOScriptPath msg.MsgAIRequest.OracleScriptName] ++ runCalls k msg
                  ++ (namesOf tcOut).map Call.GetTestCaseI
                  ++ ((namesOf dsOut).take n).map Call.GetAIDataSourceI, ?_, ⟨2, ?_⟩, ?_⟩
              · intro c hc
                rcases List.mem_append.mp hc with hc | hc
                · rcases List.mem_append.mp hc with hc | hc
                  · exact isRead_head k msg c hc
                  · exact isRead_map_testCases _ c hc
                · exact isRead_map_dataSources _ c hc
              · rw [List.filter_append, List.filter_append, filter_isRun_head,
                  filter_isRun_testCases, filter_isRun_dataSources]
                simp [runCalls]
              · intro ctx hh hr
                rw [hafter ctx hh hr, hrun1]
                simp only [List.nil_append]
                rw [hrun2]
                simp [Ctx.recordAll, callsBeforeRun, sampleCall]
          · left
            refine ⟨e, [.GetParam .KeyOracleScriptRewardPercentage,
                  .GetOScriptPath msg.MsgAIRequest.OracleScriptName] ++ runCalls k msg
                ++ ((namesOf tcOut).take n).map Call.GetTestCaseI, ?_, ⟨2, ?_⟩, ?_⟩
            · intro c hc
              rcases List.mem_append.mp hc with hc | hc
              · exact isRead_head k msg c hc
              · exact isRead_map_testCases _ c hc
            · rw [List.filter_append, filter_isRun_head, filter_isRun_testCases]
              simp [runCalls]
            · intro ctx hh hr
              rw [hafter ctx hh hr, hrun1]
              simp [Ctx.recordAll, callsBeforeRun, sampleCall]

/-- Every run of the handler either aborts after the sampler call and a list of read calls,
leaving store and events as they were, or succeeds along the creation path. -/
theorem handle_outcome (ctx : Ctx) (k : Keeper) (msg : MsgSetOCRRequest) :
    (∃ e rest, handleMsgSetOCRRequest ctx k msg
        = (.error e, ctx.recordAll (sampleCall msg :: rest)) ∧ ∀ c ∈ rest, c.isRead = true) ∨
    (∃ vals dsOut tcOut,
      k.RandomValidators ctx.BlockHeight ctx.Roster msg.MsgAIRequest.ValidatorCount
        msg.MsgAIRequest.RequestID = .ok vals ∧
      k.Run (k.GetOScriptPath msg.MsgAIRequest.OracleScriptName) "aiDataSource" = some dsOut ∧
      k.Run (k.GetOScriptPath msg.MsgAIRequest.OracleScriptName) "testcase" = some tcOut ∧
      (∀ name ∈ namesOf tcOut, Resolves k.GetTestCaseI name) ∧
      (∀ name ∈ namesOf dsOut, Resolves k.GetAIDataSourceI name) ∧
      handleMsgSetOCRRequest ctx k msg =
        (.ok ⟨ctx.events ++
            [requestEvent (requestOf ctx msg vals (resolved k.GetAIDataSourceI (namesOf dsOut))
                (resolved k.GetTestCaseI (namesOf tcOut))) vals,
             requestWithDataEvent (requestOf ctx msg vals
                (resolved k.GetAIDataSourceI (namesOf dsOut))
                (resolved k.GetTestCaseI (namesOf tcOut))) msg]⟩,
         createdCtx ctx k msg dsOut tcOut
           (requestOf ctx msg vals (resolved k.GetAIDataSourceI (namesOf dsOut))
             (resolved k.GetTestCaseI (namesOf tcOut))) vals)) := by
  rcases handle_outcome_uniform ctx.BlockHeight ctx.Roster k msg with
    ⟨e, rest, hread, _, hrun⟩ | ⟨vals, dsOut, tcOut, hs, hds, htc, htcs, hdss, hrun⟩
  · exact Or.inl ⟨e, rest, hrun ctx rfl rfl, hread⟩
  · exact Or.inr ⟨vals, dsOut, tcOut, hs, hds, htc, htcs, hdss, hrun ctx rfl rfl⟩

/-- A successful run, read off the master case analysis: the sampler output is the committee
of the request handed to `SetAIRequest`. -/
theorem handle_ok_request (ctx : Ctx) (k : Keeper) (msg : MsgSetOCRRequest) (res : Result)
    (h : (handleMsgSetOCRRequest ctx k msg).1 = .ok res) :
    ∃ vals request cs,
      k.RandomValidators ctx.BlockHeight ctx.Roster msg.MsgAIRequest.ValidatorCount
        msg.MsgAIRequest.RequestID = .ok vals ∧
      request.Validators = vals ∧
      request.RequestID = msg.MsgAIRequest.RequestID ∧
      (handleMsgSetOCRRequest ctx k msg).2.store
        = k.SetAIRequest ctx.store msg.MsgAIRequest.RequestID request ∧
      (handleMsgSetOCRRequest ctx k msg).2.calls = ctx.calls ++ (sampleCall msg :: cs ++
        [.SetAIRequest msg.MsgAIRequest.RequestID request,
         .EmitEvent (requestEvent request vals),
         .EmitEvent (requestWithDataEvent request msg)]) ∧
      ∀ c ∈ cs, c.isRead = true := by
  rcases handle_outcome ctx k msg with ⟨e, rest, hrun, _⟩ |
    ⟨vals, dsOut, tcOut, hs, _, _, _, _, hrun⟩
  · rw [hrun] at h; simp at h
  · refine ⟨vals, requestOf ctx msg vals (resolved k.GetAIDataSourceI (namesOf dsOut))
      (resolved k.GetTestCaseI (namesOf tcOut)), readsToLookups k msg dsOut tcOut, hs, rfl, rfl,
      ?_, ?_, readsToLookups_isRead k msg dsOut tcOut⟩
    · rw [hrun]; rfl
    · rw [hrun]
      simp only [createdCtx, callsToLookups_eq]
      rfl

theorem resolved_perm {α : Type} (f : String → Except String α) {a b : List String}
    (h : a.Perm b) : (resolved f a).Perm (resolved f b) :=
  List.Perm.filterMap _ h

theorem kvGet_kvSet (store : Store) (id : String) (request : AIRequest) :
    kvGet (kvSet store id request) id = some request := by
  simp [kvGet, kvSet, List.lookup]

theorem FieldsLoop_word (w : List Char) (hw : ∀ c ∈ w, isSpace c = false) :
    ∀ (cur rest : List Char), FieldsLoop (w ++ rest) cur = FieldsLoop rest (w.reverse ++ cur) := by
  induction w with
  | nil => intro cur rest; rfl
  | cons c cs ih =>
    intro cur rest
    have hc := hw c (List.mem_cons_self _ _)
    rw [List.cons_append, FieldsLoop]
    simp only [hc, Bool.false_eq_true, if_false]
    rw [ih (fun x hx => hw x (List.mem_cons_of_mem _ hx))]
    simp

theorem FieldsLoop_append_newline :
    ∀ (l cur : List Char), FieldsLoop (l ++ ['\n']) cur = FieldsLoop l cur := by
  intro l
  induction l with
  | nil =>
    intro cur
    have hs : isSpace '\n' = true := by decide
    simp only [List.nil_append, FieldsLoop, hs, if_true]
    cases cur <;> simp [FieldsLoop]
  | cons c cs ih =>
    intro cur
    rw [List.cons_append, FieldsLoop, FieldsLoop]
    simp only [ih]

/-- The trailing newline that `strings.TrimSuffix` removes contributes no field. -/
theorem Fields_TrimSuffixNewline (s : String) : Fields (TrimSuffixNewline s) = Fields s := by
  unfold TrimSuffixNewline
  split
  · rename_i rest h
    have hd : s.data = rest.reverse ++ ['\n'] := by
      have := congrArg List.reverse h
      simpa using this
    unfold Fields
    rw [hd, FieldsLoop_append_newline]
  · rfl

theorem FieldsLoop_isWord :
    ∀ (l cur : List Char), (∀ c ∈ cur, isSpace c = false) →
      ∀ f ∈ FieldsLoop l cur, IsWord f := by
  intro l
  induction l with
  | nil =>
    intro cur hcur f hf
    cases cur with
    | nil => simp [FieldsLoop] at hf
    | cons c cs =>
      simp only [FieldsLoop, List.isEmpty_cons, Bool.false_eq_true, if_false,
        List.mem_singleton] at hf
      subst hf
      exact ⟨by simp, fun x hx => hcur x (by
        simp only [String.data, List.reverse_cons, List.reverse_reverse, List.mem_append, List.mem_reverse, List.mem_singleton] at hx
        rcases hx with hx | hx
        · exact List.mem_cons_of_mem _ hx
        · exact hx ▸ List.mem_cons_self _ _)⟩
  | cons c cs ih =>
    intro cur hcur f hf
    rw [FieldsLoop] at hf
    by_cases hc : isSpace c = true
    · simp only [hc, if_true] at hf
      cases cur with
      | nil =>
        simp only [List.isEmpty_nil, if_true] at hf
        exact ih [] (by simp) f hf
      | cons x xs =>
        simp only [List.isEmpty_cons, Bool.false_eq_true, if_false, List.mem_cons] at hf
        rcases hf with rfl | hf
        · exact ⟨by simp, fun y hy => hcur y (by
            simp only [String.data, List.reverse_cons, List.reverse_reverse, List.mem_append, List.mem_reverse, List.mem_singleton] at hy
            rcases hy with hy | hy
            · exact List.mem_cons_of_mem _ hy
            · exact hy ▸ List.mem_cons_self _ _)⟩
        · exact ih [] (by simp) f hf
    · simp only [hc, if_false] at hf
      refine ih (c :: cur) ?_ f hf
      intro y hy
      rcases List.mem_cons.mp hy with rfl | hy
      · simpa using hc
      · exact hcur y hy

/-- Every field is a non-empty name without space characters. -/
theorem Fields_isWord (s : String) : ∀ f ∈ Fields s, IsWord f :=
  FieldsLoop_isWord s.data [] (by simp)

/-- The fields of a text that lists names separated by single blanks are those names. -/
theorem FieldsLoop_joinWords :
    ∀ (names : List String), (∀ w ∈ names, IsWord w) →
      FieldsLoop (joinWords names) [] = names := by
  intro names
  induction names with
  | nil => intro _; rfl
  | cons w ws ih =>
    intro h
    have hw := h w (List.mem_cons_self _ _)
    cases ws with
    | nil =>
      have := FieldsLoop_word w.data hw.2 [] []
      rw [List.append_nil] at this
      rw [joinWords, this, FieldsLoop]
      have hne : (w.data.reverse ++ []).isEmpty = false := by
        cases hd : w.data with
        | nil => exact absurd hd hw.1
        | cons c cs => simp
      simp [hne, hw.1]
    | cons n rest =>
      have hs : isSpace ' ' = true := by decide
      rw [joinWords, FieldsLoop_word w.data hw.2, FieldsLoop]
      have hne : (w.data.reverse ++ []).isEmpty = false := by
        cases hd : w.data with
        | nil => exact absurd hd hw.1
        | cons c cs => simp
      simp only [hs, if_true, hne, Bool.false_eq_true, if_false]
      rw [ih (fun x hx => h x (List.mem_cons_of_mem _ hx))]
      simp

theorem namesOf_eq_Fields (out : String) : namesOf out = Fields out :=
  Fields_TrimSuffixNewline out

theorem namesOf_joinWords (names : List String) (h : ∀ w ∈ names, IsWord w) :
    namesOf (String.mk (joinWords names ++ ['\n'])) = names := by
  rw [namesOf_eq_Fields]
  unfold Fields
  rw [FieldsLoop_append_newline, FieldsLoop_joinWords names h]

theorem resolved_forall₂ {α : Type} (f : String → Except String α) :
    ∀ (names : List String), (∀ name ∈ names, Resolves f name) →
      List.Forall₂ (fun name a => f name = .ok a) names (resolved f names) := by
  intro names
  induction names with
  | nil => intro _; exact List.Forall₂.nil
  | cons n ns ih =>
    intro h
    obtain ⟨a, ha⟩ := h n (List.mem_cons_self _ _)
    rw [resolved_cons_ok f n ns a ha]
    exact List.Forall₂.cons ha (ih (fun m hm => h m (List.mem_cons_of_mem _ hm)))

theorem foldl_AppendAttributes (vals : List ValAddress) :
    ∀ e : Event,
      vals.foldl (fun event validator =>
        event.AppendAttributes [⟨.AttributeRequestValidator, validator.bech32⟩]) e
      = ⟨e.Ty, e.Attributes ++ vals.map (fun v => ⟨.AttributeRequestValidator, v.bech32⟩)⟩ := by
  induction vals with
  | nil => intro e; simp
  | cons v vs ih =>
    intro e
    rw [List.foldl_cons, ih]
    simp [Event.AppendAttributes]

/-- The event of lines 124-132: the request ID, then one attribute per validator in order. -/
theorem requestEvent_eq (request : AIRequest) (vals : List ValAddress) :
    requestEvent request vals =
      ⟨.EventTypeSetOCRRequest, ⟨.AttributeRequestID, request.RequestID⟩ ::
        vals.map (fun v => ⟨.AttributeRequestValidator, v.bech32⟩)⟩ := by
  unfold requestEvent
  rw [foldl_AppendAttributes]
  simp [Event.AppendAttributes, NewEvent]

/-- Every amount of a valid coin set is its amount in some denomination. -/
theorem Coins.amount_lt_of_AmountOf (T : Coins) (hT : T.IsValid = true) (b : Int)
    (h : ∀ d, T.AmountOf d < b) : ∀ c ∈ T, c.Amount < b := by
  intro c hc
  rw [← Coins.AmountOf_mem T hT c hc]
  exact h _

/-- Line 31 on a valid fee and a stored percentage that `int64` keeps, when every share fits
in 255 bits: the provided coins exist, are valid and hold `floor(fee * r / 100)`. -/
theorem providedCoins_spec (fees : Coins) (r : Nat) (hfees : fees.IsValid = true)
    (hr : r < 2 ^ 63) (hfit : ∀ c ∈ fees, c.Amount * r / 100 < 2 ^ 255) :
    providedCoinsOf fees (NewDecWithPrec (toInt64 r) 2)
      = some (Coins.mapAmount (fun a => a * (r : Int) / 100) fees) ∧
    (Coins.mapAmount (fun a => a * (r : Int) / 100) fees).IsValid = true ∧
    ∀ d, (Coins.mapAmount (fun a => a * (r : Int) / 100) fees).AmountOf d
      = fees.AmountOf d * r / 100 := by
  refine ⟨?_, ?_, ?_⟩
  · rw [toInt64_of_lt r hr]
    exact providedCoinsOf_valid fees r hfees (by positivity) hfit
  · exact Coins.mapAmount_valid _ fees hfees (fun a ha => by positivity)
  · intro d
    exact Coins.mapAmount_AmountOf (fun a => a * (r : Int) / 100) (by simp) fees hfees d

/-- Line 103 on a valid total of `sdk.Int` amounts: the validator reward exists, is valid and
holds `floor(T * 40 / 100)`. -/
theorem valFees_spec (T : Coins) (hT : T.IsValid = true) (hr : ∀ c ∈ T, c.Amount < 2 ^ 255) :
    valFeesOf T = some (Coins.mapAmount (fun a => a * 40 / 100) T) ∧
    (Coins.mapAmount (fun a => a * 40 / 100) T).IsValid = true ∧
    ∀ d, (Coins.mapAmount (fun a => a * 40 / 100) T).AmountOf d = T.AmountOf d * 40 / 100 :=
  ⟨valFeesOf_valid T hT hr, Coins.mapAmount_valid _ T hT (fun a ha => by positivity),
    fun d => Coins.mapAmount_AmountOf (fun a => a * 40 / 100) (by simp) T hT d⟩

/-- Lines 103-106 on a valid total and at least one validator, when the final fee fits in 255
bits: the validator reward and the final fee exist, are valid and hold the stated amounts. -/
theorem finalFees_spec (T : Coins) (n : Int) (hT : T.IsValid = true) (hn : 1 ≤ n)
    (hb : ∀ d, (T.AmountOf d + T.AmountOf d * 40 / 100) * n < 2 ^ 255) :
    ∃ v f, valFeesOf T = some v ∧ finalFeesOf T v n = some f ∧
      v.IsValid = true ∧ f.IsValid = true ∧
      (∀ d, v.AmountOf d = T.AmountOf d * 40 / 100) ∧
      (∀ d, f.AmountOf d = (T.AmountOf d + v.AmountOf d) * n) := by
  have hnn : ∀ d, 0 ≤ T.AmountOf d := Coins.AmountOf_nonneg T hT
  have hsum : ∀ d, T.AmountOf d + T.AmountOf d * 40 / 100 < 2 ^ 255 := fun d => by
    have h1 := hb d
    have h2 := hnn d
    have h3 : 0 ≤ T.AmountOf d * 40 / 100 := by omega
    have h4 : T.AmountOf d + T.AmountOf d * 40 / 100
        ≤ (T.AmountOf d + T.AmountOf d * 40 / 100) * n := by
      have h5 : 0 ≤ T.AmountOf d + T.AmountOf d * 40 / 100 := by omega
      nlinarith
    exact lt_of_le_of_lt h4 h1
  have hTr : ∀ c ∈ T, c.Amount < 2 ^ 255 := by
    apply Coins.amount_lt_of_AmountOf T hT
    intro d
    have h1 := hsum d
    have h2 := hnn d
    have h3 : 0 ≤ T.AmountOf d * 40 / 100 := by omega
    exact lt_of_le_of_lt (by omega) h1
  obtain ⟨hv, hvv, hvA⟩ := valFees_spec T hT hTr
  have hf := finalFeesOf_valid T _ n hT hvv (by omega)
    (fun d => by rw [hvA d]; exact hsum d) (fun d => by rw [hvA d]; exact hb d)
  refine ⟨_, _, hv, hf, hvv, ?_, hvA, ?_⟩
  · exact Coins.mapAmount_valid _ _ (Coins.merge_valid T _ hT hvv) (fun a ha => by positivity)
  · intro d
    rw [Coins.mapAmount_AmountOf (fun a => a * n) (by simp) _ (Coins.merge_valid T _ hT hvv) d,
      Coins.merge_AmountOf T _ hT hvv]

/-- The check of line 111 fires when some denomination of the second coin set is positive and
below its amount in the first. -/
theorem Coins.IsAnyGT_true_of_lt (a b : Coins) (ha : a.IsValid = true) (d : String)
    (h0 : 0 < b.AmountOf d) (h : b.AmountOf d < a.AmountOf d) : a.IsAnyGT b = true := by
  have hb : b.length ≠ 0 := by
    intro hl
    have : b = [] := List.length_eq_zero.mp hl
    subst this
    simp [Coins.AmountOf, Coins.AmountOfLoop] at h0
  have hs := ((Coins.IsValid_iff a).mp ha).1
  have hmem : ∃ c ∈ a, c.Denom = d := by
    by_contra hne
    push_neg at hne
    have := Coins.total_eq_zero a d hne
    rw [Coins.AmountOf_eq_total a d hs] at h
    omega
  obtain ⟨c, hc, hcd⟩ := hmem
  unfold Coins.IsAnyGT
  rw [if_neg hb, List.any_eq_true]
  refine ⟨c, hc, ?_⟩
  have h1 := Coins.AmountOf_mem a ha c hc
  rw [hcd] at h1 ⊢
  simp only [Bool.and_eq_true, decide_eq_true_eq, Bool.not_eq_true', decide_eq_false_iff_not]
  constructor <;> omega

theorem resolved_append {α : Type} (f : String → Except String α) (a b : List String) :
    resolved f (a ++ b) = resolved f a ++ resolved f b := by
  simp [resolved, List.filterMap_append]

theorem resolved_cons_error {α : Type} (f : String → Except String α) (name err : String)
    (rest : List String) (h : f name = .error err) :
    resolved f (name :: rest) = resolved f rest := by
  simp [resolved, List.filterMap_cons, h, Except.toOption]

/-- The objects that resolve carry valid fees when every listed name that resolves does. -/
theorem resolved_valid_of {α : Type} (f : String → Except String α) (fees : α → Coins)
    (names : List String)
    (h : ∀ name ∈ names, ∀ a, f name = .ok a → (fees a).IsValid = true) :
    ∀ a ∈ resolved f names, (fees a).IsValid = true := by
  intro a ha
  unfold resolved at ha
  rw [List.mem_filterMap] at ha
  obtain ⟨name, hn, hna⟩ := ha
  cases hf : f name with
  | error e => rw [hf] at hna; simp [Except.toOption] at hna
  | ok b =>
    rw [hf] at hna
    simp only [Except.toOption, Option.some.injEq] at hna
    subst hna
    exact h name hn b hf

/-- An initial segment of valid fee sets accumulates without panic when the sum of all of
them stays below `2^255` in every denomination. -/
theorem foldlM_Add_initial (fees1 fees2 : List Coins) (acc : Coins)
    (hv1 : ∀ f ∈ fees1, f.IsValid = true) (hv2 : ∀ f ∈ fees2, f.IsValid = true)
    (hacc : acc.IsValid = true)
    (hb : ∀ d, acc.AmountOf d + ((fees1 ++ fees2).map (fun f => f.AmountOf d)).sum < 2 ^ 255) :
    fees1.foldlM Coins.Add acc = some (fees1.foldl Coins.merge acc) := by
  apply foldlM_Add_some fees1 hv1 acc hacc
  intro d
  have h1 := hb d
  have h2 := sum_AmountOf_nonneg fees2 hv2 d
  rw [List.map_append, List.sum_append] at h1
  omega

theorem sum_map_fees_tc (tcs : List TestCaseI) (d : String) :
    ((tcs.map (·.Fees)).map (fun f => f.AmountOf d)).sum
      = (tcs.map (fun t => t.Fees.AmountOf d)).sum := by
  simp [List.map_map, Function.comp_def]

theorem sum_map_fees_ds (dss : List AIDataSourceI) (d : String) :
    ((dss.map (·.Fees)).map (fun f => f.AmountOf d)).sum
      = (dss.map (fun s => s.Fees.AmountOf d)).sum := by
  simp [List.map_map, Function.comp_def]

theorem valid_map_fees_tc (tcs : List TestCaseI) (h : ∀ t ∈ tcs, t.Fees.IsValid = true) :
    ∀ f ∈ tcs.map (·.Fees), f.IsValid = true := fun f hf => by
  obtain ⟨t, ht, rfl⟩ := List.mem_map.mp hf; exact h t ht

theorem valid_map_fees_ds (dss : List AIDataSourceI) (h : ∀ s ∈ dss, s.Fees.IsValid = true) :
    ∀ f ∈ dss.map (·.Fees), f.IsValid = true := fun f hf => by
  obtain ⟨s, hs, rfl⟩ := List.mem_map.mp hf; exact h s hs

/-- The fees of the test cases before the first unresolved one accumulate without panic when
the declared fees of all resolving artifacts stay below `2^255`. -/
theorem testCase_initial_fold (k : Keeper) (pre post : List String) (bad : String)
    (dss : List AIDataSourceI)
    (hv : ∀ t ∈ resolved k.GetTestCaseI (pre ++ bad :: post), t.Fees.IsValid = true)
    (hd : ∀ s ∈ dss, s.Fees.IsValid = true)
    (hb : ∀ d, declaredFees (resolved k.GetTestCaseI (pre ++ bad :: post)) dss d < 2 ^ 255) :
    ∃ T, ((resolved k.GetTestCaseI pre).map (·.Fees)).foldlM Coins.Add [] = some T := by
  rw [resolved_append] at hv hb
  refine ⟨_, foldlM_Add_initial _ ((resolved k.GetTestCaseI (bad :: post)).map (·.Fees)) []
    (valid_map_fees_tc _ (fun t ht => hv t (List.mem_append_left _ ht)))
    (valid_map_fees_tc _ (fun t ht => hv t (List.mem_append_right _ ht))) rfl ?_⟩
  intro d
  have h1 := hb d
  have h2 := sum_AmountOf_nonneg _ (valid_map_fees_ds dss hd) d
  have h0 : Coins.AmountOf [] d = 0 := rfl
  rw [sum_map_fees_ds] at h2
  rw [← List.map_append, sum_map_fees_tc, h0]
  unfold declaredFees at h1
  omega

/-- The fees of all test cases and of the data sources before the first unresolved one
accumulate without panic when the declared fees of all resolving artifacts stay below
`2^255`. -/
theorem dataSource_initial_fold (k : Keeper) (tcs : List TestCaseI) (pre post : List String)
    (bad : String)
    (ht : ∀ t ∈ tcs, t.Fees.IsValid = true)
    (hv : ∀ s ∈ resolved k.GetAIDataSourceI (pre ++ bad :: post), s.Fees.IsValid = true)
    (hb : ∀ d, declaredFees tcs (resolved k.GetAIDataSourceI (pre ++ bad :: post)) d
      < 2 ^ 255) :
    ∃ sub T, (tcs.map (·.Fees)).foldlM Coins.Add [] = some sub ∧
      ((resolved k.GetAIDataSourceI pre).map (·.Fees)).foldlM Coins.Add sub = some T := by
  rw [resolved_append] at hv hb
  have hnil : Coins.IsValid [] = true := rfl
  have h0 : ∀ d, Coins.AmountOf [] d = 0 := fun _ => rfl
  have hvt := valid_map_fees_tc tcs ht
  have hvd := valid_map_fees_ds _ hv
  have e1 : (tcs.map (·.Fees)).foldlM Coins.Add [] = some ((tcs.map (·.Fees)).foldl Coins.merge [])
      := by
    apply foldlM_Add_some _ hvt [] hnil
    intro d
    have h1 := hb d
    have h2 := sum_AmountOf_nonneg _ hvd d
    rw [sum_map_fees_ds] at h2
    rw [sum_map_fees_tc, h0]
    unfold declaredFees at h1
    omega
  refine ⟨_, _, e1, foldlM_Add_initial _
    ((resolved k.GetAIDataSourceI (bad :: post)).map (·.Fees)) _
    (valid_map_fees_ds _ (fun s hs => hv s (List.mem_append_left _ hs)))
    (valid_map_fees_ds _ (fun s hs => hv s (List.mem_append_right _ hs)))
    (foldl_merge_valid _ hvt [] hnil) ?_⟩
  intro d
  have h1 := hb d
  rw [foldl_merge_AmountOf d _ hvt [] hnil, ← List.map_append, sum_map_fees_ds,
    sum_map_fees_tc, h0]
  unfold declaredFees at h1
  omega

/-! ## The claims -/

/-- C1 (counterexample).  With artifact fees of 100 orai and three validators the final
required fee is 420 orai; a message paying 150 orai is accepted.  With one validator the
final required fee is 140 orai; a message paying exactly 140 orai is rejected with
`ErrNeedMoreFees`.  So success is not equivalent to the message fee covering the final
required fee. -/
theorem C1_counterexample :
    totalFeesOf (resolved (exKeeper 70).GetTestCaseI (namesOf "tc1\n"))
        (resolved (exKeeper 70).GetAIDataSourceI (namesOf "ds1 ds2\n"))
      = some [⟨"orai", 100⟩] ∧
    valFeesOf [⟨"orai", 100⟩] = some [⟨"orai", 40⟩] ∧
    finalFeesOf [⟨"orai", 100⟩] [⟨"orai", 40⟩] 3 = some [⟨"orai", 420⟩] ∧
    Coins.AmountOf (exMsg 3 150).MsgAIRequest.Fees "orai" < Coins.AmountOf [⟨"orai", 420⟩] "orai" ∧
    (handleMsgSetOCRRequest exCtx (exKeeper 70) (exMsg 3 150)).1.isOk = true ∧
    finalFeesOf [⟨"orai", 100⟩] [⟨"orai", 40⟩] 1 = some [⟨"orai", 140⟩] ∧
    Coins.AmountOf [⟨"orai", 140⟩] "orai" ≤ Coins.AmountOf (exMsg 1 140).MsgAIRequest.Fees "orai" ∧
    (handleMsgSetOCRRequest exCtx (exKeeper 70) (exMsg 1 140)).1 =
      .error (.error .ErrNeedMoreFees
        "Fees given by the users are less than the total fees needed") := by
  decide

/-- C1 (amended).  When sampling, both script runs and every lookup succeed, with valid coin
sets, a stored percentage below `2^63`, at least one validator, and amounts in the range of
`sdk.Int` (the shares `floor(fee * percentage / 100)` and the final required fee
`(total + floor(total * 40 / 100)) * ValidatorCount` are below `2^255`), the total artifact
fee is the sum of the declared fees, the fee arithmetic does not panic and the handler either
succeeds or fails with `ErrNeedMoreFees`.  It succeeds whenever the provided coins
`floor(fee * percentage / 100)` cover the final required fee in every denomination; it fails
with `ErrNeedMoreFees` whenever the provided coins are positive and below the total artifact
fee in some denomination; and it fails only if the provided coins are below the final
required fee in some denomination. -/
theorem C1_succeeds_when_provided_coins_cover_final_fee
    (ctx : Ctx) (k : Keeper) (msg : MsgSetOCRRequest) (vals : List ValAddress)
    (dsOut tcOut : String)
    (hs : k.RandomValidators ctx.BlockHeight ctx.Roster msg.MsgAIRequest.ValidatorCount
      msg.MsgAIRequest.RequestID = .ok vals)
    (hds : k.Run (k.GetOScriptPath msg.MsgAIRequest.OracleScriptName) "aiDataSource"
      = some dsOut)
    (htc : k.Run (k.GetOScriptPath msg.MsgAIRequest.OracleScriptName) "testcase"
      = some tcOut)
    (htcs : ∀ name ∈ namesOf tcOut, ResolvesValid k.GetTestCaseI (·.Fees) name)
    (hdss : ∀ name ∈ namesOf dsOut, ResolvesValid k.GetAIDataSourceI (·.Fees) name)
    (hfees : msg.MsgAIRequest.Fees.IsValid = true)
    (hratio : k.GetParam .KeyOracleScriptRewardPercentage < 2 ^ 63)
    (hcount : 1 ≤ msg.MsgAIRequest.ValidatorCount)
    (hshare : ∀ c ∈ msg.MsgAIRequest.Fees,
      c.Amount * (k.GetParam .KeyOracleScriptRewardPercentage) / 100 < 2 ^ 255)
    (hfinal : ∀ d,
      (declaredFees (resolved k.GetTestCaseI (namesOf tcOut))
          (resolved k.GetAIDataSourceI (namesOf dsOut)) d
        + declaredFees (resolved k.GetTestCaseI (namesOf tcOut))
          (resolved k.GetAIDataSourceI (namesOf dsOut)) d * 40 / 100)
        * msg.MsgAIRequest.ValidatorCount < 2 ^ 255) :
    ∃ totalFees providedCoins valFees finalFees,
      totalFeesOf (resolved k.GetTestCaseI (namesOf tcOut))
        (resolved k.GetAIDataSourceI (namesOf dsOut)) = some totalFees ∧
      providedCoinsOf msg.MsgAIRequest.Fees (rewardRatioOf k) = some providedCoins ∧
      valFeesOf totalFees = some valFees ∧
      finalFeesOf totalFees valFees msg.MsgAIRequest.ValidatorCount = some finalFees ∧
      (∀ d, totalFees.AmountOf d = declaredFees (resolved k.GetTestCaseI (namesOf tcOut))
        (resolved k.GetAIDataSourceI (namesOf dsOut)) d) ∧
      (∀ d, providedCoins.AmountOf d = msg.MsgAIRequest.Fees.AmountOf d
        * (k.GetParam .KeyOracleScriptRewardPercentage) / 100) ∧
      (∀ d, finalFees.AmountOf d =
        (totalFees.AmountOf d + totalFees.AmountOf d * 40 / 100)
          * msg.MsgAIRequest.ValidatorCount) ∧
      ((handleMsgSetOCRRequest ctx k msg).1.isOk = true ∨
        (handleMsgSetOCRRequest ctx k msg).1 = .error (.error .ErrNeedMoreFees
          "Fees given by the users are less than the total fees needed")) ∧
      ((∀ d, finalFees.AmountOf d ≤ providedCoins.AmountOf d) →
        (handleMsgSetOCRRequest ctx k msg).1.isOk = true) ∧
      ((∃ d, 0 < providedCoins.AmountOf d ∧ providedCoins.AmountOf d < totalFees.AmountOf d) →
        (handleMsgSetOCRRequest ctx k msg).1 = .error (.error .ErrNeedMoreFees
          "Fees given by the users are less than the total fees needed")) ∧
      ((handleMsgSetOCRRequest ctx k msg).1.isOk = false →
        ∃ d, providedCoins.AmountOf d < finalFees.AmountOf d) := by
  have v1 := resolved_valid _ (fun t : TestCaseI => t.Fees) _ htcs
  have v2 := resolved_valid _ (fun s : AIDataSourceI => s.Fees) _ hdss
  have hS0 : ∀ d, 0 ≤ declaredFees (resolved k.GetTestCaseI (namesOf tcOut))
      (resolved k.GetAIDataSourceI (namesOf dsOut)) d := fun d =>
    add_nonneg
      (List.sum_nonneg (fun x hx => by
        obtain ⟨t, ht, rfl⟩ := List.mem_map.mp hx
        exact Coins.AmountOf_nonneg _ (v1 t ht) d))
      (List.sum_nonneg (fun x hx => by
        obtain ⟨s, hs2, rfl⟩ := List.mem_map.mp hx
        exact Coins.AmountOf_nonneg _ (v2 s hs2) d))
  have hSb : ∀ d, declaredFees (resolved k.GetTestCaseI (namesOf tcOut))
      (resolved k.GetAIDataSourceI (namesOf dsOut)) d < 2 ^ 255 := fun d => by
    have h1 := hfinal d
    have h2 := hS0 d
    generalize declaredFees (resolved k.GetTestCaseI (namesOf tcOut))
      (resolved k.GetAIDataSourceI (namesOf dsOut)) d = S at h1 h2
    have h3 : 0 ≤ S * 40 / 100 := by omega
    have h4 : S + S * 40 / 100 ≤ (S + S * 40 / 100) * msg.MsgAIRequest.ValidatorCount := by
      have h5 : 0 ≤ S + S * 40 / 100 := by omega
      nlinarith
    exact lt_of_le_of_lt (by omega) (lt_of_le_of_lt h4 h1)
  obtain ⟨htot, _, _, hT, hTA⟩ := totalFeesOf_some _ _ v1 v2 hSb
  obtain ⟨hpc, hpv, hpcA⟩ := providedCoins_spec msg.MsgAIRequest.Fees _ hfees hratio hshare
  obtain ⟨v, f, hv, hf, hvv, _, hvA, hfA⟩ := finalFees_spec _ msg.MsgAIRequest.ValidatorCount
    hT hcount (fun d => by rw [hTA d]; exact hfinal d)
  have hrun := handle_resolved ctx k msg vals _ dsOut tcOut _ hs hpc hds htc
    (fun n hn => (htcs n hn).resolves) (fun n hn => (hdss n hn).resolves) htot
  simp only [afterLookups, hv, Coins.Sort_valid _ hT, hf] at hrun
  have hle : ∀ d, (mergedFeesOf (resolved k.GetTestCaseI (namesOf tcOut))
      (resolved k.GetAIDataSourceI (namesOf dsOut))).AmountOf d ≤ f.AmountOf d := by
    intro d
    have h0 := Coins.AmountOf_nonneg _ hT d
    have h1 := Coins.AmountOf_nonneg _ hvv d
    rw [hfA d]
    nlinarith
  have hsuff : (∀ d, f.AmountOf d ≤
        (Coins.mapAmount (fun a => a * (k.GetParam .KeyOracleScriptRewardPercentage : Int) / 100)
          msg.MsgAIRequest.Fees).AmountOf d) →
      (handleMsgSetOCRRequest ctx k msg).1.isOk = true := by
    intro hcov
    have := Coins.IsAnyGT_false_of_le _ _ hT (fun d => le_trans (hle d) (hcov d))
    rw [hrun, this]
    rfl
  refine ⟨_, _, v, f, htot, hpc, hv, hf, hTA, hpcA, ?_, ?_, hsuff, ?_, ?_⟩
  · intro d; rw [hfA d, hvA d]
  · rw [hrun]
    split_ifs
    · right; rfl
    · left; rfl
  · rintro ⟨d, h0, hlt⟩
    have := Coins.IsAnyGT_true_of_lt _ _ hT d h0 hlt
    rw [hrun, this]
    rfl
  · intro hfail
    by_contra hne
    push_neg at hne
    rw [hsuff hne] at hfail
    exact Bool.noConfusion hfail

/-- C1 (witness).  The amended statement at artifact fees of 100 orai, three validators, a
stored percentage of 70 and a message fee of 600 orai. -/
theorem C1_witness :
    ∃ totalFees providedCoins valFees finalFees,
      totalFeesOf (resolved (exKeeper 70).GetTestCaseI (namesOf "tc1\n"))
        (resolved (exKeeper 70).GetAIDataSourceI (namesOf "ds1 ds2\n")) = some totalFees ∧
      providedCoinsOf (exMsg 3 600).MsgAIRequest.Fees (rewardRatioOf (exKeeper 70)) = some providedCoins ∧
      valFeesOf totalFees = some valFees ∧
      finalFeesOf totalFees valFees (exMsg 3 600).MsgAIRequest.ValidatorCount = some finalFees ∧
      (∀ d, totalFees.AmountOf d = declaredFees (resolved (exKeeper 70).GetTestCaseI (namesOf "tc1\n"))
        (resolved (exKeeper 70).GetAIDataSourceI (namesOf "ds1 ds2\n")) d) ∧
      (∀ d, providedCoins.AmountOf d = (exMsg 3 600).MsgAIRequest.Fees.AmountOf d
        * ((exKeeper 70).GetParam .KeyOracleScriptRewardPercentage) / 100) ∧
      (∀ d, finalFees.AmountOf d =
        (totalFees.AmountOf d + totalFees.AmountOf d * 40 / 100)
          * (exMsg 3 600).MsgAIRequest.ValidatorCount) ∧
      ((handleMsgSetOCRRequest exCtx (exKeeper 70) (exMsg 3 600)).1.isOk = true ∨
        (handleMsgSetOCRRequest exCtx (exKeeper 70) (exMsg 3 600)).1 = .error (.error .ErrNeedMoreFees
          "Fees given by the users are less than the total fees needed")) ∧
      ((∀ d, finalFees.AmountOf d ≤ providedCoins.AmountOf d) →
        (handleMsgSetOCRRequest exCtx (exKeeper 70) (exMsg 3 600)).1.isOk = true) ∧
      ((∃ d, 0 < providedCoins.AmountOf d ∧ providedCoins.AmountOf d < totalFees.AmountOf d) →
        (handleMsgSetOCRRequest exCtx (exKeeper 70) (exMsg 3 600)).1 = .error (.error .ErrNeedMoreFees
          "Fees given by the users are less than the total fees needed")) ∧
      ((handleMsgSetOCRRequest exCtx (exKeeper 70) (exMsg 3 600)).1.isOk = false →
        ∃ d, providedCoins.AmountOf d < finalFees.AmountOf d) :=
  C1_succeeds_when_provided_coins_cover_final_fee exCtx (exKeeper 70) (exMsg 3 600)
    [⟨"val1"⟩, ⟨"val2"⟩, ⟨"val3"⟩] "ds1 ds2\n" "tc1\n" (by decide) (by decide) (by decide)
    (by
      intro name hn
      have : name = "tc1" := by
        have h : namesOf "tc1\n" = ["tc1"] := by decide
        rw [h] at hn; simpa using hn
      subst this
      exact ⟨⟨"tc1", ⟨"orai1owner"⟩, [⟨"orai", 30⟩]⟩, by decide, by decide⟩)
    (by
      intro name hn
      have h : namesOf "ds1 ds2\n" = ["ds1", "ds2"] := by decide
      rw [h] at hn
      simp only [List.mem_cons, List.mem_singleton, List.not_mem_nil, or_false] at hn
      rcases hn with rfl | rfl
      · exact ⟨⟨"ds1", ⟨"orai1owner"⟩, [⟨"orai", 35⟩]⟩, by decide, by decide⟩
      · exact ⟨⟨"ds2", ⟨"orai1owner"⟩, [⟨"orai", 35⟩]⟩, by decide, by decide⟩)
    (by decide) (by decide) (by decide) (by simp [exMsg, exKeeper])
    (by
      intro d
      have h1 : resolved (exKeeper 70).GetTestCaseI (namesOf "tc1\n")
          = [⟨"tc1", ⟨"orai1owner"⟩, [⟨"orai", 30⟩]⟩] := by decide
      have h2 : resolved (exKeeper 70).GetAIDataSourceI (namesOf "ds1 ds2\n")
          = [⟨"ds1", ⟨"orai1owner"⟩, [⟨"orai", 35⟩]⟩,
             ⟨"ds2", ⟨"orai1owner"⟩, [⟨"orai", 35⟩]⟩] := by decide
      rw [h1, h2]
      simp only [declaredFees, List.map_cons, List.map_nil, List.sum_cons, List.sum_nil,
        Coins.AmountOf, Coins.AmountOfLoop, List.length_singleton, exMsg]
      split_ifs <;> norm_num)

/-- C2 (counterexample).  The total artifact fee `T = 2^254` orai is a valid coin set and
`n = 3` a valid count.  Line 103 computes `valFees = floor(2^254 * 40 / 100)`, but the decimal
product of line 106, `(T + valFees) * 3` scaled by `10^18`, needs 316 bits and the sdk panics:
no final fee is computed. -/
theorem C2_counterexample :
    Coins.IsValid [⟨"orai", (2 ^ 254 : Nat)⟩] = true ∧
    valFeesOf [⟨"orai", (2 ^ 254 : Nat)⟩] = some [⟨"orai", (2 ^ 254 * 40 / 100 : Nat)⟩] ∧
    finalFeesOf [⟨"orai", (2 ^ 254 : Nat)⟩] [⟨"orai", (2 ^ 254 * 40 / 100 : Nat)⟩] 3 = none ∧
    finalFeesOf [⟨"orai", (2 ^ 254 : Nat)⟩] [⟨"orai", (2 ^ 254 * 40 / 100 : Nat)⟩] 1
      = some [⟨"orai", (2 ^ 254 + 2 ^ 254 * 40 / 100 : Nat)⟩] := by
  decide

/-- C2 (amended).  For every valid total artifact fee `T` and every validator count `n ≥ 1`
such that `(T(d) + floor(T(d) * 40 / 100)) * n` is below `2^255` in every denomination `d`
(the range of `sdk.Int`), lines 103-106 of the handler compute, without panic, `valFees` with
`valFees(d) = floor(T(d) * 40 / 100)` (the decimal product is exact, the truncation never
rounds up) and `finalFees` with `finalFees(d) = (T(d) + valFees(d)) * n` in every
denomination `d`; for `T = 100`, `n = 3` they are `40` and `420`. -/
theorem C2_reward_split_is_exact_truncating (T : Coins) (n : Int) (hT : T.IsValid = true)
    (hn : 1 ≤ n)
    (hb : ∀ d, (T.AmountOf d + T.AmountOf d * 40 / 100) * n < 2 ^ 255) :
    ∃ valFees finalFees,
      valFeesOf T = some valFees ∧ finalFeesOf T valFees n = some finalFees ∧
      (∀ d, valFees.AmountOf d = T.AmountOf d * 40 / 100) ∧
      (∀ d, valFees.AmountOf d * 100 ≤ T.AmountOf d * 40 ∧
        T.AmountOf d * 40 < (valFees.AmountOf d + 1) * 100) ∧
      (∀ d, finalFees.AmountOf d = (T.AmountOf d + valFees.AmountOf d) * n) ∧
      valFeesOf [⟨"orai", 100⟩] = some [⟨"orai", 40⟩] ∧
      finalFeesOf [⟨"orai", 100⟩] [⟨"orai", 40⟩] 3 = some [⟨"orai", 420⟩] := by
  obtain ⟨v, f, hv, hf, _, _, hvA, hfA⟩ := finalFees_spec T n hT hn hb
  refine ⟨v, f, hv, hf, hvA, ?_, hfA, by decide, by decide⟩
  intro d
  rw [hvA d]
  constructor <;> omega

/-- C2 (witness).  The amended statement at `T = 100 orai`, `n = 3`. -/
theorem C2_witness :
    ∃ valFees finalFees,
      valFeesOf [⟨"orai", 100⟩] = some valFees ∧
      finalFeesOf [⟨"orai", 100⟩] valFees 3 = some finalFees ∧
      (∀ d, valFees.AmountOf d = Coins.AmountOf [⟨"orai", 100⟩] d * 40 / 100) ∧
      (∀ d, valFees.AmountOf d * 100 ≤ Coins.AmountOf [⟨"orai", 100⟩] d * 40 ∧
        Coins.AmountOf [⟨"orai", 100⟩] d * 40 < (valFees.AmountOf d + 1) * 100) ∧
      (∀ d, finalFees.AmountOf d = (Coins.AmountOf [⟨"orai", 100⟩] d + valFees.AmountOf d) * 3) ∧
      valFeesOf [⟨"orai", 100⟩] = some [⟨"orai", 40⟩] ∧
      finalFeesOf [⟨"orai", 100⟩] [⟨"orai", 40⟩] 3 = some [⟨"orai", 420⟩] :=
  C2_reward_split_is_exact_truncating [⟨"orai", 100⟩] 3 (by decide) (by decide)
    (by
      intro d
      simp only [Coins.AmountOf, Coins.AmountOfLoop, List.length_singleton]
      split_ifs <;> norm_num)

/-- C3 (counterexample).  With a stored reward percentage of 70 and a total artifact fee of
100 orai, line 103 computes a validator reward of 40 orai, not `floor(100 * 70 / 100) = 70`;
with a stored percentage of 20 the reward is the same 40 orai. -/
theorem C3_counterexample :
    (exKeeper 70).GetParam .KeyOracleScriptRewardPercentage = 70 ∧
    (exKeeper 20).GetParam .KeyOracleScriptRewardPercentage = 20 ∧
    valFeesOf [⟨"orai", 100⟩] = some [⟨"orai", 40⟩] ∧
    Coins.AmountOf [⟨"orai", 40⟩] "orai" ≠
      Coins.AmountOf [⟨"orai", 100⟩] "orai"
        * ((exKeeper 70).GetParam .KeyOracleScriptRewardPercentage) / 100 ∧
    Coins.AmountOf [⟨"orai", 40⟩] "orai" ≠
      Coins.AmountOf [⟨"orai", 100⟩] "orai"
        * ((exKeeper 20).GetParam .KeyOracleScriptRewardPercentage) / 100 := by
  decide

/-- C3 (amended).  The validator reward fraction is the constant `40/100`: for every keeper
(every stored reward percentage) and every valid total artifact fee `T` whose amounts are
below `2^255` (the range of `sdk.Int`), line 103 computes
`valFees(d) = floor(T(d) * 40 / 100)`.  The stored percentage `r`, read on line 27, enters the
provided coins only: for every valid message fee, every `r < 2^63` (where the conversion
`int64(r)` keeps the value) and shares `floor(fee * r / 100)` below `2^255`,
`providedCoins(d) = floor(fee(d) * r / 100)`. -/
theorem C3_validator_reward_is_constant_40_percent (k : Keeper) (T fees : Coins)
    (hT : T.IsValid = true) (hTr : ∀ c ∈ T, c.Amount < 2 ^ 255)
    (hfees : fees.IsValid = true)
    (hratio : k.GetParam .KeyOracleScriptRewardPercentage < 2 ^ 63)
    (hfit : ∀ c ∈ fees,
      c.Amount * (k.GetParam .KeyOracleScriptRewardPercentage) / 100 < 2 ^ 255) :
    ∃ valFees providedCoins,
      valFeesOf T = some valFees ∧
      providedCoinsOf fees (rewardRatioOf k) = some providedCoins ∧
      (∀ d, valFees.AmountOf d = T.AmountOf d * 40 / 100) ∧
      (∀ d, providedCoins.AmountOf d =
        fees.AmountOf d * (k.GetParam .KeyOracleScriptRewardPercentage) / 100) := by
  obtain ⟨hpc, _, hpcA⟩ := providedCoins_spec fees _ hfees hratio hfit
  obtain ⟨hv, _, hvA⟩ := valFees_spec T hT hTr
  exact ⟨_, _, hv, hpc, hvA, hpcA⟩

/-- C3 (witness).  The amended statement at a stored percentage of 70, `T = 100 orai` and a
message fee of 150 orai. -/
theorem C3_witness :
    ∃ valFees providedCoins,
      valFeesOf [⟨"orai", 100⟩] = some valFees ∧
      providedCoinsOf [⟨"orai", 150⟩] (rewardRatioOf (exKeeper 70)) = some providedCoins ∧
      (∀ d, valFees.AmountOf d = Coins.AmountOf [⟨"orai", 100⟩] d * 40 / 100) ∧
      (∀ d, providedCoins.AmountOf d = Coins.AmountOf [⟨"orai", 150⟩] d
        * ((exKeeper 70).GetParam .KeyOracleScriptRewardPercentage) / 100) :=
  C3_validator_reward_is_constant_40_percent (exKeeper 70) [⟨"orai", 100⟩] [⟨"orai", 150⟩]
    (by decide) (by simp) (by decide) (by decide) (by simp [exKeeper])

/-- C4.  Request creation is all-or-nothing.  Whenever the handler ends without a result (any
wrapped error, or a panic of the fee arithmetic), the store and the events are those of the
initial context and none of the calls made is a store write or an event emission.  Whenever it
returns a result, the calls made are read calls followed by exactly one `SetAIRequest` under
the request ID and two event emissions, the store is the result of that write and the events
are the initial ones followed by the two emitted. -/
theorem C4_creation_is_all_or_nothing (ctx : Ctx) (k : Keeper) (msg : MsgSetOCRRequest) :
    (∀ e, (handleMsgSetOCRRequest ctx k msg).1 = .error e →
      (handleMsgSetOCRRequest ctx k msg).2.store = ctx.store ∧
      (handleMsgSetOCRRequest ctx k msg).2.events = ctx.events ∧
      ∃ cs, (handleMsgSetOCRRequest ctx k msg).2.calls = ctx.calls ++ cs ∧
        ∀ c ∈ cs, c.isWrite = false) ∧
    (∀ res, (handleMsgSetOCRRequest ctx k msg).1 = .ok res →
      ∃ request e1 e2 cs,
        (handleMsgSetOCRRequest ctx k msg).2.store
          = k.SetAIRequest ctx.store msg.MsgAIRequest.RequestID request ∧
        (handleMsgSetOCRRequest ctx k msg).2.events = ctx.events ++ [e1, e2] ∧
        res.Events = ctx.events ++ [e1, e2] ∧
        (handleMsgSetOCRRequest ctx k msg).2.calls = ctx.calls ++ (cs ++
          [.SetAIRequest msg.MsgAIRequest.RequestID request, .EmitEvent e1, .EmitEvent e2]) ∧
        ∀ c ∈ cs, c.isWrite = false) := by
  rcases handle_outcome ctx k msg with ⟨e, rest, hrun, hread⟩ |
    ⟨vals, dsOut, tcOut, _, _, _, _, _, hrun⟩
  · rw [hrun]
    refine ⟨fun _ _ => ⟨rfl, rfl, sampleCall msg :: rest, rfl, ?_⟩, fun res h => by simp at h⟩
    intro c hc
    rcases List.mem_cons.mp hc with rfl | hc
    · rfl
    · exact Call.isWrite_of_isRead c (hread c hc)
  · rw [hrun]
    refine ⟨fun e h => by simp at h, fun res h => ?_⟩
    simp only [Except.ok.injEq] at h
    subst h
    refine ⟨_, _, _, callsToLookups k msg dsOut tcOut, rfl, rfl, rfl, rfl, ?_⟩
    intro c hc
    rw [callsToLookups_eq] at hc
    rcases List.mem_cons.mp hc with rfl | hc
    · rfl
    · exact Call.isWrite_of_isRead c (readsToLookups_isRead k msg dsOut tcOut c hc)

/-- C5 (counterexample).  The test cases `tc1` and `tc2` of the example keeper `exKeeperHuge`
resolve, each with the valid fee set of `2^254` orai.  Their sum `2^255` orai does not fit in
an `sdk.Int`: the addition of line 88 panics at the second test case and no total is
accumulated. -/
theorem C5_counterexample :
    exKeeperHuge.GetTestCaseI "tc1"
      = .ok ⟨"tc1", ⟨"orai1owner"⟩, [⟨"orai", (2 ^ 254 : Nat)⟩]⟩ ∧
    exKeeperHuge.GetTestCaseI "tc2"
      = .ok ⟨"tc2", ⟨"orai1owner"⟩, [⟨"orai", (2 ^ 254 : Nat)⟩]⟩ ∧
    Coins.IsValid [⟨"orai", (2 ^ 254 : Nat)⟩] = true ∧
    Coins.Add [⟨"orai", (2 ^ 254 : Nat)⟩] [⟨"orai", (2 ^ 254 : Nat)⟩] = none ∧
    testCaseLoop exKeeperHuge ["tc1", "tc2"] exCtx [] [] =
      (.error .panic, exCtx.recordAll [.GetTestCaseI "tc1", .GetTestCaseI "tc2"]) ∧
    totalFeesOf (resolved exKeeperHuge.GetTestCaseI ["tc1", "tc2"]) [] = none := by
  decide

/-- C5 (amended).  When every listed test case and data source resolves (to an object with a
valid fee set) and the sum of the declared fees stays below `2^255` in every denomination
(the range of `sdk.Int`), the two loops of the handler end without error or panic, return the
resolved objects in listed order, and accumulate a total whose amount in every denomination
is the sum of the declared fees of the resolved test cases plus the sum of the declared fees
of the resolved data sources, one summand per listed occurrence; any reordering of the two
name lists gives the same amount in every denomination. -/
theorem C5_total_fee_is_sum_of_artifact_fees (k : Keeper) (ctx : Ctx)
    (tcNames dsNames : List String)
    (htcs : ∀ name ∈ tcNames, ResolvesValid k.GetTestCaseI (·.Fees) name)
    (hdss : ∀ name ∈ dsNames, ResolvesValid k.GetAIDataSourceI (·.Fees) name)
    (hb : ∀ d, ((resolved k.GetTestCaseI tcNames).map (fun t => t.Fees.AmountOf d)).sum
      + ((resolved k.GetAIDataSourceI dsNames).map (fun s => s.Fees.AmountOf d)).sum
      < 2 ^ 255) :
    ∃ tcs dss subtotal total ctx1 ctx2,
      testCaseLoop k tcNames ctx [] [] = (.ok (tcs, subtotal), ctx1) ∧
      dataSourceLoop k dsNames ctx1 [] subtotal = (.ok (dss, total), ctx2) ∧
      tcs = resolved k.GetTestCaseI tcNames ∧ dss = resolved k.GetAIDataSourceI dsNames ∧
      tcs.length = tcNames.length ∧ dss.length = dsNames.length ∧
      total.IsValid = true ∧
      (∀ d, total.AmountOf d = (tcs.map (fun t => t.Fees.AmountOf d)).sum
        + (dss.map (fun s => s.Fees.AmountOf d)).sum) ∧
      (∀ tcNames2 dsNames2, tcNames2.Perm tcNames → dsNames2.Perm dsNames →
        ∃ tcs2 dss2 subtotal2 total2 ctx3 ctx4,
          testCaseLoop k tcNames2 ctx [] [] = (.ok (tcs2, subtotal2), ctx3) ∧
          dataSourceLoop k dsNames2 ctx3 [] subtotal2 = (.ok (dss2, total2), ctx4) ∧
          ∀ d, total2.AmountOf d = total.AmountOf d) := by
  have key : ∀ (tn dn : List String),
      (∀ name ∈ tn, ResolvesValid k.GetTestCaseI (·.Fees) name) →
      (∀ name ∈ dn, ResolvesValid k.GetAIDataSourceI (·.Fees) name) →
      (∀ d, declaredFees (resolved k.GetTestCaseI tn) (resolved k.GetAIDataSourceI dn) d
        < 2 ^ 255) →
      testCaseLoop k tn ctx [] [] =
        (.ok (resolved k.GetTestCaseI tn,
          ((resolved k.GetTestCaseI tn).map (·.Fees)).foldl Coins.merge []),
         ctx.recordAll (tn.map Call.GetTestCaseI)) ∧
      dataSourceLoop k dn (ctx.recordAll (tn.map Call.GetTestCaseI)) []
          (((resolved k.GetTestCaseI tn).map (·.Fees)).foldl Coins.merge []) =
        (.ok (resolved k.GetAIDataSourceI dn,
          mergedFeesOf (resolved k.GetTestCaseI tn) (resolved k.GetAIDataSourceI dn)),
         (ctx.recordAll (tn.map Call.GetTestCaseI)).recordAll
           (dn.map Call.GetAIDataSourceI)) ∧
      (mergedFeesOf (resolved k.GetTestCaseI tn) (resolved k.GetAIDataSourceI dn)).IsValid
        = true ∧
      ∀ d, (mergedFeesOf (resolved k.GetTestCaseI tn) (resolved k.GetAIDataSourceI dn)).AmountOf d
        = ((resolved k.GetTestCaseI tn).map (fun t => t.Fees.AmountOf d)).sum
          + ((resolved k.GetAIDataSourceI dn).map (fun s => s.Fees.AmountOf d)).sum := by
    intro tn dn h1 h2 hbd
    have v1 := resolved_valid _ (fun t : TestCaseI => t.Fees) _ h1
    have v2 := resolved_valid _ (fun s : AIDataSourceI => s.Fees) _ h2
    obtain ⟨_, e1, e2, hv, hA⟩ := totalFeesOf_some _ _ v1 v2 hbd
    refine ⟨?_, ?_, hv, hA⟩
    · rw [testCaseLoop_ok k tn ctx [] [] _ (fun n hn => (h1 n hn).resolves) e1]
      simp
    · rw [dataSourceLoop_ok k dn _ [] _ _ (fun n hn => (h2 n hn).resolves) e2]
      simp
  have hlen : ∀ {α : Type} (f : String → Except String α) (names : List String),
      (∀ name ∈ names, Resolves f name) → (resolved f names).length = names.length := by
    intro α f names
    induction names with
    | nil => intro _; rfl
    | cons n ns ih =>
      intro h
      obtain ⟨a, ha⟩ := h n (List.mem_cons_self _ _)
      rw [resolved_cons_ok f n ns a ha, List.length_cons, List.length_cons,
        ih (fun m hm => h m (List.mem_cons_of_mem _ hm))]
  obtain ⟨e1, e2, hv, hA⟩ := key tcNames dsNames htcs hdss hb
  refine ⟨_, _, _, _, _, _, e1, e2, rfl, rfl,
    hlen _ _ (fun n hn => (htcs n hn).resolves), hlen _ _ (fun n hn => (hdss n hn).resolves),
    hv, hA, ?_⟩
  intro tn dn hp1 hp2
  have hsum1 : ∀ d, ((resolved k.GetTestCaseI tn).map (fun t => t.Fees.AmountOf d)).sum
      = ((resolved k.GetTestCaseI tcNames).map (fun t => t.Fees.AmountOf d)).sum := fun d =>
    ((resolved_perm k.GetTestCaseI hp1).map (fun t => t.Fees.AmountOf d)).sum_eq
  have hsum2 : ∀ d, ((resolved k.GetAIDataSourceI dn).map (fun s => s.Fees.AmountOf d)).sum
      = ((resolved k.GetAIDataSourceI dsNames).map (fun s => s.Fees.AmountOf d)).sum := fun d =>
    ((resolved_perm k.GetAIDataSourceI hp2).map (fun s => s.Fees.AmountOf d)).sum_eq
  obtain ⟨e3, e4, _, hA2⟩ := key tn dn
    (fun n hn => htcs n (hp1.mem_iff.mp hn)) (fun n hn => hdss n (hp2.mem_iff.mp hn))
    (fun d => by
      show _ + _ < _
      rw [hsum1 d, hsum2 d]
      exact hb d)
  refine ⟨_, _, _, _, _, _, e3, e4, ?_⟩
  intro d
  rw [hA2 d, hA d, hsum1 d, hsum2 d]

/-- C5 (witness).  The amended statement for the test case `tc1` and the data sources `ds1`,
`ds2` of the example keeper. -/
theorem C5_witness :
    ∃ tcs dss subtotal total ctx1 ctx2,
      testCaseLoop (exKeeper 70) ["tc1"] exCtx [] [] = (.ok (tcs, subtotal), ctx1) ∧
      dataSourceLoop (exKeeper 70) ["ds1", "ds2"] ctx1 [] subtotal = (.ok (dss, total), ctx2) ∧
      tcs = resolved (exKeeper 70).GetTestCaseI ["tc1"] ∧
      dss = resolved (exKeeper 70).GetAIDataSourceI ["ds1", "ds2"] ∧
      tcs.length = ["tc1"].length ∧ dss.length = ["ds1", "ds2"].length ∧
      total.IsValid = true ∧
      (∀ d, total.AmountOf d = (tcs.map (fun t => t.Fees.AmountOf d)).sum
        + (dss.map (fun s => s.Fees.AmountOf d)).sum) ∧
      (∀ tcNames2 dsNames2, tcNames2.Perm ["tc1"] → dsNames2.Perm ["ds1", "ds2"] →
        ∃ tcs2 dss2 subtotal2 total2 ctx3 ctx4,
          testCaseLoop (exKeeper 70) tcNames2 exCtx [] [] = (.ok (tcs2, subtotal2), ctx3) ∧
          dataSourceLoop (exKeeper 70) dsNames2 ctx3 [] subtotal2 = (.ok (dss2, total2), ctx4) ∧
          ∀ d, total2.AmountOf d = total.AmountOf d) :=
  C5_total_fee_is_sum_of_artifact_fees (exKeeper 70) exCtx ["tc1"] ["ds1", "ds2"]
    (by
      intro name hn
      rw [List.mem_singleton] at hn
      subst hn
      exact ⟨⟨"tc1", ⟨"orai1owner"⟩, [⟨"orai", 30⟩]⟩, by decide, by decide⟩)
    (by
      intro name hn
      simp only [List.mem_cons, List.mem_singleton, List.not_mem_nil, or_false] at hn
      rcases hn with rfl | rfl
      · exact ⟨⟨"ds1", ⟨"orai1owner"⟩, [⟨"orai", 35⟩]⟩, by decide, by decide⟩
      · exact ⟨⟨"ds2", ⟨"orai1owner"⟩, [⟨"orai", 35⟩]⟩, by decide, by decide⟩)
    (by
      intro d
      have h1 : resolved (exKeeper 70).GetTestCaseI ["tc1"]
          = [⟨"tc1", ⟨"orai1owner"⟩, [⟨"orai", 30⟩]⟩] := by decide
      have h2 : resolved (exKeeper 70).GetAIDataSourceI ["ds1", "ds2"]
          = [⟨"ds1", ⟨"orai1owner"⟩, [⟨"orai", 35⟩]⟩,
             ⟨"ds2", ⟨"orai1owner"⟩, [⟨"orai", 35⟩]⟩] := by decide
      rw [h1, h2]
      simp only [List.map_cons, List.map_nil, List.sum_cons, List.sum_nil, Coins.AmountOf,
        Coins.AmountOfLoop, List.length_singleton]
      split_ifs <;> norm_num)

/-- C7 (counterexample).  The store already holds a request under `req1`; creating a request
with the same ID succeeds (no duplicate-ID error) and the record under `req1` is no longer the
one stored before. -/
theorem C7_counterexample :
    kvGet exCtxStored.store (exMsg 3 150).MsgAIRequest.RequestID = some exStoredRequest ∧
    (handleMsgSetOCRRequest exCtxStored (exKeeper 70) (exMsg 3 150)).1.isOk = true ∧
    kvGet (handleMsgSetOCRRequest exCtxStored (exKeeper 70) (exMsg 3 150)).2.store
      (exMsg 3 150).MsgAIRequest.RequestID ≠ some exStoredRequest := by
  decide

/-- C7 (amended).  The handler has no duplicate-ID check: its outcome does not depend on the
contents of the request store, and on success it hands the new request to `SetAIRequest` under
the message's request ID whether or not that key is present; with a key-value write (`kvSet`)
the record under the ID is then the new request. -/
theorem C7_creation_does_not_check_for_existing_id (ctx : Ctx) (k : Keeper)
    (msg : MsgSetOCRRequest) :
    (∀ store2 : Store,
      (handleMsgSetOCRRequest { ctx with store := store2 } k msg).1
        = (handleMsgSetOCRRequest ctx k msg).1) ∧
    (∀ res, (handleMsgSetOCRRequest ctx k msg).1 = .ok res →
      ∃ request, request.RequestID = msg.MsgAIRequest.RequestID ∧
        (handleMsgSetOCRRequest ctx k msg).2.store
          = k.SetAIRequest ctx.store msg.MsgAIRequest.RequestID request) ∧
    (∀ (store : Store) (request : AIRequest),
      kvGet (kvSet store msg.MsgAIRequest.RequestID request) msg.MsgAIRequest.RequestID
        = some request) := by
  refine ⟨?_, ?_, fun store request => kvGet_kvSet store _ request⟩
  · intro store2
    rcases handle_outcome_uniform ctx.BlockHeight ctx.Roster k msg with ⟨e, rest, _, _, hrun⟩ |
      ⟨vals, dsOut, tcOut, _, _, _, _, _, hrun⟩
    · rw [hrun ctx rfl rfl, hrun { ctx with store := store2 } rfl rfl]
    · rw [hrun ctx rfl rfl, hrun { ctx with store := store2 } rfl rfl]
      rfl
  · intro res h
    obtain ⟨vals, request, _, _, _, hid, hst, _, _⟩ := handle_ok_request ctx k msg res h
    exact ⟨request, hid, hst⟩

/-- C8.  `validateExpirationCount` returns `nil` exactly for the `uint64` values greater than
`0`: it returns an error for `uint64(0)` and for every value of another dynamic type, `nil`
for every `uint64` `v ≥ 1`, and the default parameters (`ExpirationCount = 10`) pass. -/
theorem C8_validateExpirationCount_accepts_positive_uint64 :
    (∀ i : GoValue, validateExpirationCount i = none ↔ ∃ v, i = .uint64 v ∧ 0 < v) ∧
    validateExpirationCount (.uint64 0) = some "invalid expiration count: 0" ∧
    (∀ i : GoValue, (∀ v, i ≠ .uint64 v) →
      validateExpirationCount i = some ("invalid parameter type: " ++ i.typeName)) ∧
    (∀ v : Nat, 1 ≤ v → validateExpirationCount (.uint64 v) = none) ∧
    DefaultParams.ExpirationCount = 10 ∧
    validateExpirationCount (.uint64 DefaultParams.ExpirationCount) = none := by
  refine ⟨?_, by decide, ?_, ?_, rfl, by decide⟩
  · intro i
    cases i with
    | uint64 v =>
      by_cases hv : v = 0
      · subst hv; simp [validateExpirationCount]
      · simp only [validateExpirationCount, if_neg hv, GoValue.uint64.injEq, exists_eq_left',
          true_iff]
        omega
    | _ => simp [validateExpirationCount]
  · intro i hi
    cases i with
    | uint64 v => exact absurd rfl (hi v)
    | _ => rfl
  · intro v hv
    have : v ≠ 0 := by omega
    simp [validateExpirationCount, this]

/-- C9 (counterexample).  At the example keeper `exKeeperHuge` sampling and both script runs
succeed and the listed test case `tc9` does not resolve, yet the handler does not fail with an
artifact-not-found error: the fees of `tc1` and `tc2`, listed before it, are `2^254` orai
each, their addition on line 88 overflows, and the handler ends with that panic after the
lookup of `tc2`, before `tc9` is looked up. -/
theorem C9_counterexample :
    exKeeperHuge.RandomValidators exCtx.BlockHeight exCtx.Roster
        (exMsg 3 150).MsgAIRequest.ValidatorCount (exMsg 3 150).MsgAIRequest.RequestID
      = .ok [⟨"val1"⟩, ⟨"val2"⟩, ⟨"val3"⟩] ∧
    exKeeperHuge.Run (exKeeperHuge.GetOScriptPath (exMsg 3 150).MsgAIRequest.OracleScriptName)
      "aiDataSource" = some "ds1\n" ∧
    exKeeperHuge.Run (exKeeperHuge.GetOScriptPath (exMsg 3 150).MsgAIRequest.OracleScriptName)
      "testcase" = some "tc1 tc2 tc9\n" ∧
    namesOf "tc1 tc2 tc9\n" = ["tc1", "tc2", "tc9"] ∧
    exKeeperHuge.GetTestCaseI "tc9" = .error "test case not found" ∧
    handleMsgSetOCRRequest exCtx exKeeperHuge (exMsg 3 150) =
      (.error .panic,
       exCtx.recordAll (callsBeforeRun (exMsg 3 150) ++ runCalls exKeeperHuge (exMsg 3 150)
         ++ [.GetTestCaseI "tc1", .GetTestCaseI "tc2"])) := by
  decide

/-- C9 (amended).  Given that sampling succeeds, the provided coins are computed (line 31
does not panic) and both script runs succeed, and that the declared fees of the listed
artifacts that resolve are valid coin sets whose sum stays below `2^255` in every
denomination (the range of `sdk.Int`), the handler fails with `ErrTestCaseNotFound` or
`ErrDataSourceNotFound` if and only if some listed name does not resolve.  The test cases are
looked up first, in listed order: at the first unresolved test case the handler returns
`ErrTestCaseNotFound` and has made no lookup after it, none of a data source at all; when all
test cases resolve, at the first unresolved data source it returns `ErrDataSourceNotFound`
and has made no lookup after it. -/
theorem C9_first_unresolved_name_decides_the_error (ctx : Ctx) (k : Keeper)
    (msg : MsgSetOCRRequest) (vals : List ValAddress) (providedCoins : Coins)
    (dsOut tcOut : String)
    (hs : k.RandomValidators ctx.BlockHeight ctx.Roster msg.MsgAIRequest.ValidatorCount
      msg.MsgAIRequest.RequestID = .ok vals)
    (hp : providedCoinsOf msg.MsgAIRequest.Fees (rewardRatioOf k) = some providedCoins)
    (hds : k.Run (k.GetOScriptPath msg.MsgAIRequest.OracleScriptName) "aiDataSource"
      = some dsOut)
    (htc : k.Run (k.GetOScriptPath msg.MsgAIRequest.OracleScriptName) "testcase"
      = some tcOut)
    (htcv : ∀ name ∈ namesOf tcOut, ∀ a, k.GetTestCaseI name = .ok a → a.Fees.IsValid = true)
    (hdsv : ∀ name ∈ namesOf dsOut, ∀ a, k.GetAIDataSourceI name = .ok a →
      a.Fees.IsValid = true)
    (hb : ∀ d,
      ((resolved k.GetTestCaseI (namesOf tcOut)).map (fun t => t.Fees.AmountOf d)).sum
        + ((resolved k.GetAIDataSourceI (namesOf dsOut)).map (fun s => s.Fees.AmountOf d)).sum
        < 2 ^ 255) :
    ((∃ description,
        (handleMsgSetOCRRequest ctx k msg).1 = .error (.error .ErrTestCaseNotFound description) ∨
        (handleMsgSetOCRRequest ctx k msg).1
          = .error (.error .ErrDataSourceNotFound description)) ↔
      ((∃ name ∈ namesOf tcOut, ¬ Resolves k.GetTestCaseI name) ∨
        (∃ name ∈ namesOf dsOut, ¬ Resolves k.GetAIDataSourceI name))) ∧
    (∀ pre bad post err, namesOf tcOut = pre ++ bad :: post →
      (∀ name ∈ pre, Resolves k.GetTestCaseI name) → k.GetTestCaseI bad = .error err →
      handleMsgSetOCRRequest ctx k msg =
        (.error (.error .ErrTestCaseNotFound ("failed to get test case: " ++ err)),
         ctx.recordAll (callsBeforeRun msg ++ runCalls k msg
           ++ (pre ++ [bad]).map Call.GetTestCaseI))) ∧
    (∀ pre bad post err, (∀ name ∈ namesOf tcOut, Resolves k.GetTestCaseI name) →
      namesOf dsOut = pre ++ bad :: post →
      (∀ name ∈ pre, Resolves k.GetAIDataSourceI name) → k.GetAIDataSourceI bad = .error err →
      handleMsgSetOCRRequest ctx k msg =
        (.error (.error .ErrDataSourceNotFound ("failed to get data source: " ++ err)),
         ctx.recordAll (callsBeforeRun msg ++ runCalls k msg
           ++ (namesOf tcOut).map Call.GetTestCaseI
           ++ (pre ++ [bad]).map Call.GetAIDataSourceI))) := by
  have v1 := resolved_valid_of _ (fun t : TestCaseI => t.Fees) _ htcv
  have v2 := resolved_valid_of _ (fun s : AIDataSourceI => s.Fees) _ hdsv
  have hT : ∀ pre bad post err, namesOf tcOut = pre ++ bad :: post →
      (∀ name ∈ pre, Resolves k.GetTestCaseI name) → k.GetTestCaseI bad = .error err →
      handleMsgSetOCRRequest ctx k msg =
        (.error (.error .ErrTestCaseNotFound ("failed to get test case: " ++ err)),
         ctx.recordAll (callsBeforeRun msg ++ runCalls k msg
           ++ (pre ++ [bad]).map Call.GetTestCaseI)) := by
    intro pre bad post err hsplit hpre hbad
    obtain ⟨T, hfold⟩ := testCase_initial_fold k pre post bad
      (resolved k.GetAIDataSourceI (namesOf dsOut)) (hsplit ▸ v1) v2 (hsplit ▸ hb)
    exact handle_testCaseError ctx k msg vals providedCoins dsOut tcOut pre post bad err T hs hp
      hds htc hsplit hpre hfold hbad
  have hD : ∀ pre bad post err, (∀ name ∈ namesOf tcOut, Resolves k.GetTestCaseI name) →
      namesOf dsOut = pre ++ bad :: post →
      (∀ name ∈ pre, Resolves k.GetAIDataSourceI name) → k.GetAIDataSourceI bad = .error err →
      handleMsgSetOCRRequest ctx k msg =
        (.error (.error .ErrDataSourceNotFound ("failed to get data source: " ++ err)),
         ctx.recordAll (callsBeforeRun msg ++ runCalls k msg
           ++ (namesOf tcOut).map Call.GetTestCaseI
           ++ (pre ++ [bad]).map Call.GetAIDataSourceI)) := by
    intro pre bad post err htcs hsplit hpre hbad
    obtain ⟨sub, T, hsub, hfold⟩ := dataSource_initial_fold k
      (resolved k.GetTestCaseI (namesOf tcOut)) pre post bad v1 (hsplit ▸ v2) (hsplit ▸ hb)
    exact handle_dataSourceError ctx k msg vals providedCoins dsOut tcOut pre post bad err sub T
      hs hp hds htc htcs hsub hsplit hpre hfold hbad
  refine ⟨⟨?_, ?_⟩, hT, hD⟩
  · rintro ⟨desc, hdesc⟩
    by_contra hall
    push_neg at hall
    obtain ⟨htot, _⟩ := totalFeesOf_some _ _ v1 v2 hb
    have hrun := handle_resolved ctx k msg vals providedCoins dsOut tcOut _ hs hp hds htc
      hall.1 hall.2 htot
    rw [hrun] at hdesc
    rcases afterLookups_cases k msg vals providedCoins
        (resolved k.GetAIDataSourceI (namesOf dsOut)) (resolved k.GetTestCaseI (namesOf tcOut))
        (mergedFeesOf (resolved k.GetTestCaseI (namesOf tcOut))
          (resolved k.GetAIDataSourceI (namesOf dsOut))) with ⟨e, he, hrun3⟩ | hrun3
    · rw [hrun3] at hdesc
      rcases he with rfl | rfl <;> rcases hdesc with h | h <;> simp at h
    · rw [hrun3] at hdesc
      rcases hdesc with h | h <;> simp at h
  · intro hex
    rcases resolves_or_split k.GetTestCaseI (namesOf tcOut) with
      htcs | ⟨pre, bad, post, err, hsplit, hpre, hbad⟩
    · rcases resolves_or_split k.GetAIDataSourceI (namesOf dsOut) with
        hdss | ⟨pre, bad, post, err, hsplit, hpre, hbad⟩
      · rcases hex with ⟨n, hn, hnot⟩ | ⟨n, hn, hnot⟩
        · exact absurd (htcs n hn) hnot
        · exact absurd (hdss n hn) hnot
      · exact ⟨_, Or.inr (by rw [hD pre bad post err htcs hsplit hpre hbad])⟩
    · exact ⟨_, Or.inl (by rw [hT pre bad post err hsplit hpre hbad])⟩

/-- C9 (witness).  The amended statement for the example keeper whose script lists the
unknown data source `ds9` between `ds1` and `ds2`. -/
theorem C9_witness :
    ((∃ description,
        (handleMsgSetOCRRequest exCtx exKeeperUnknown (exMsg 3 150)).1 = .error (.error .ErrTestCaseNotFound description) ∨
        (handleMsgSetOCRRequest exCtx exKeeperUnknown (exMsg 3 150)).1
          = .error (.error .ErrDataSourceNotFound description)) ↔
      ((∃ name ∈ namesOf "tc1\n", ¬ Resolves exKeeperUnknown.GetTestCaseI name) ∨
        (∃ name ∈ namesOf "ds1 ds9 ds2\n", ¬ Resolves exKeeperUnknown.GetAIDataSourceI name))) ∧
    (∀ pre bad post err, namesOf "tc1\n" = pre ++ bad :: post →
      (∀ name ∈ pre, Resolves exKeeperUnknown.GetTestCaseI name) → exKeeperUnknown.GetTestCaseI bad = .error err →
      handleMsgSetOCRRequest exCtx exKeeperUnknown (exMsg 3 150) =
        (.error (.error .ErrTestCaseNotFound ("failed to get test case: " ++ err)),
         exCtx.recordAll (callsBeforeRun (exMsg 3 150) ++ runCalls exKeeperUnknown (exMsg 3 150)
           ++ (pre ++ [bad]).map Call.GetTestCaseI))) ∧
    (∀ pre bad post err, (∀ name ∈ namesOf "tc1\n", Resolves exKeeperUnknown.GetTestCaseI name) →
      namesOf "ds1 ds9 ds2\n" = pre ++ bad :: post →
      (∀ name ∈ pre, Resolves exKeeperUnknown.GetAIDataSourceI name) → exKeeperUnknown.GetAIDataSourceI bad = .error err →
      handleMsgSetOCRRequest exCtx exKeeperUnknown (exMsg 3 150) =
        (.error (.error .ErrDataSourceNotFound ("failed to get data source: " ++ err)),
         exCtx.recordAll (callsBeforeRun (exMsg 3 150) ++ runCalls exKeeperUnknown (exMsg 3 150)
           ++ (namesOf "tc1\n").map Call.GetTestCaseI
           ++ (pre ++ [bad]).map Call.GetAIDataSourceI))) :=
  C9_first_unresolved_name_decides_the_error exCtx exKeeperUnknown (exMsg 3 150)
    [⟨"val1"⟩, ⟨"val2"⟩, ⟨"val3"⟩] [⟨"orai", 105⟩] "ds1 ds9 ds2\n" "tc1\n"
    (by decide) (by decide) (by decide) (by decide)
    (by
      intro name hn a ha
      have h : namesOf "tc1\n" = ["tc1"] := by decide
      rw [h, List.mem_singleton] at hn
      subst hn
      have : a = ⟨"tc1", ⟨"orai1owner"⟩, [⟨"orai", 30⟩]⟩ :=
        (Except.ok.inj ha).symm
      subst this
      decide)
    (by
      intro name hn a ha
      have h : namesOf "ds1 ds9 ds2\n" = ["ds1", "ds9", "ds2"] := by decide
      rw [h] at hn
      simp only [List.mem_cons, List.mem_singleton, List.not_mem_nil, or_false] at hn
      rcases hn with rfl | rfl | rfl
      · have : a = ⟨"ds1", ⟨"orai1owner"⟩, [⟨"orai", 35⟩]⟩ := (Except.ok.inj ha).symm
        subst this
        decide
      · exact Except.noConfusion ha
      · have : a = ⟨"ds2", ⟨"orai1owner"⟩, [⟨"orai", 35⟩]⟩ := (Except.ok.inj ha).symm
        subst this
        decide)
    (by
      intro d
      have h1 : resolved exKeeperUnknown.GetTestCaseI (namesOf "tc1\n")
          = [⟨"tc1", ⟨"orai1owner"⟩, [⟨"orai", 30⟩]⟩] := by decide
      have h2 : resolved exKeeperUnknown.GetAIDataSourceI (namesOf "ds1 ds9 ds2\n")
          = [⟨"ds1", ⟨"orai1owner"⟩, [⟨"orai", 35⟩]⟩,
             ⟨"ds2", ⟨"orai1owner"⟩, [⟨"orai", 35⟩]⟩] := by decide
      rw [h1, h2]
      simp only [List.map_cons, List.map_nil, List.sum_cons, List.sum_nil, Coins.AmountOf,
        Coins.AmountOfLoop, List.length_singleton]
      split_ifs <;> norm_num)

/-- C10.  A failure of the script runner aborts the creation without retry.
(1) When the run in mode `aiDataSource` is made and fails, the handler returns
`ErrFailedToOpenFile` and has made no call after that run.  (2) When the run in mode
`testcase` is made and fails, the handler returns `ErrFailedToOpenFile` and has made no call
after the second run.  (3) The first run is made whenever sampling succeeds and line 31
computes the provided coins, the second whenever moreover the first run succeeds.  (4) In
every run of the handler, the script runs made are an initial segment of: one run in mode
`aiDataSource`, then one run in mode `testcase`.  (5) On success both runs succeeded and the
lookups made are exactly one `GetTestCaseI` per field of the test-case output followed by
one `GetAIDataSourceI` per field of the data-source output, in order, followed by the writes.
(6) The names read from an output are its whitespace-separated fields: the trailing newline
contributes nothing, every field is non-empty and free of space characters, and a text listing
such names separated by blanks and ended by a newline yields exactly those names. -/
theorem C10_runner_failure_aborts_without_retry (ctx : Ctx) (k : Keeper)
    (msg : MsgSetOCRRequest) :
    (Call.Run (k.GetOScriptPath msg.MsgAIRequest.OracleScriptName) "aiDataSource"
        ∈ (handleMsgSetOCRRequest ctx k msg).2.calls.drop ctx.calls.length →
      k.Run (k.GetOScriptPath msg.MsgAIRequest.OracleScriptName) "aiDataSource" = none →
      handleMsgSetOCRRequest ctx k msg =
        (.error (.error .ErrFailedToOpenFile "failed to collect data source name"),
         ctx.recordAll (callsBeforeRun msg ++
           [.Run (k.GetOScriptPath msg.MsgAIRequest.OracleScriptName) "aiDataSource"]))) ∧
    (∀ dsOut,
      Call.Run (k.GetOScriptPath msg.MsgAIRequest.OracleScriptName) "testcase"
        ∈ (handleMsgSetOCRRequest ctx k msg).2.calls.drop ctx.calls.length →
      k.Run (k.GetOScriptPath msg.MsgAIRequest.OracleScriptName) "aiDataSource"
        = some dsOut →
      k.Run (k.GetOScriptPath msg.MsgAIRequest.OracleScriptName) "testcase" = none →
      handleMsgSetOCRRequest ctx k msg =
        (.error (.error .ErrFailedToOpenFile
          ("failed to collect test case name: " ++ TrimSuffixNewline dsOut)),
         ctx.recordAll (callsBeforeRun msg ++
           [.Run (k.GetOScriptPath msg.MsgAIRequest.OracleScriptName) "aiDataSource",
            .Run (k.GetOScriptPath msg.MsgAIRequest.OracleScriptName) "testcase"]))) ∧
    (∀ vals providedCoins,
      k.RandomValidators ctx.BlockHeight ctx.Roster msg.MsgAIRequest.ValidatorCount
        msg.MsgAIRequest.RequestID = .ok vals →
      providedCoinsOf msg.MsgAIRequest.Fees (rewardRatioOf k) = some providedCoins →
      Call.Run (k.GetOScriptPath msg.MsgAIRequest.OracleScriptName) "aiDataSource"
        ∈ (handleMsgSetOCRRequest ctx k msg).2.calls.drop ctx.calls.length ∧
      ((k.Run (k.GetOScriptPath msg.MsgAIRequest.OracleScriptName) "aiDataSource").isSome
          = true →
        Call.Run (k.GetOScriptPath msg.MsgAIRequest.OracleScriptName) "testcase"
          ∈ (handleMsgSetOCRRequest ctx k msg).2.calls.drop ctx.calls.length)) ∧
    (∃ n, ((handleMsgSetOCRRequest ctx k msg).2.calls.drop ctx.calls.length).filter Call.isRun
      = List.take n
          [.Run (k.GetOScriptPath msg.MsgAIRequest.OracleScriptName) "aiDataSource",
           .Run (k.GetOScriptPath msg.MsgAIRequest.OracleScriptName) "testcase"]) ∧
    (∀ res, (handleMsgSetOCRRequest ctx k msg).1 = .ok res →
      ∃ dsOut tcOut writes,
        k.Run (k.GetOScriptPath msg.MsgAIRequest.OracleScriptName) "aiDataSource"
          = some dsOut ∧
        k.Run (k.GetOScriptPath msg.MsgAIRequest.OracleScriptName) "testcase"
          = some tcOut ∧
        (handleMsgSetOCRRequest ctx k msg).2.calls = ctx.calls ++ (callsBeforeRun msg ++
          [.Run (k.GetOScriptPath msg.MsgAIRequest.OracleScriptName) "aiDataSource",
           .Run (k.GetOScriptPath msg.MsgAIRequest.OracleScriptName) "testcase"]
          ++ (Fields tcOut).map Call.GetTestCaseI
          ++ (Fields dsOut).map Call.GetAIDataSourceI ++ writes) ∧
        ∀ c ∈ writes, c.isWrite = true) ∧
    (∀ out : String, Fields (TrimSuffixNewline out) = Fields out ∧
      ∀ name ∈ Fields out, name.data ≠ [] ∧ ∀ c ∈ name.data, isSpace c = false) ∧
    (∀ names : List String,
      (∀ w ∈ names, w.data ≠ [] ∧ ∀ c ∈ w.data, isSpace c = false) →
      Fields (TrimSuffixNewline (String.mk (joinWords names ++ ['\n']))) = names) := by
  have hne : ("testcase" : String) ≠ "aiDataSource" := by decide
  have hfilter : ∀ (rest : List Call) (n : Nat),
      rest.filter Call.isRun = (runCalls k msg).take n →
      ∀ mode, Call.Run (k.GetOScriptPath msg.MsgAIRequest.OracleScriptName) mode
          ∈ sampleCall msg :: rest →
        Call.Run (k.GetOScriptPath msg.MsgAIRequest.OracleScriptName) mode
          ∈ (runCalls k msg).take n := by
    intro rest n hn mode hmem
    rw [← hn, List.mem_filter]
    rcases List.mem_cons.mp hmem with h | h
    · exact Call.noConfusion h
    · exact ⟨h, rfl⟩
  refine ⟨?_, ?_, ?_, ?_, ?_, fun out => ⟨Fields_TrimSuffixNewline out, Fields_isWord out⟩,
    fun names h => namesOf_joinWords names h⟩
  · intro hmem hds
    cases hs : k.RandomValidators ctx.BlockHeight ctx.Roster msg.MsgAIRequest.ValidatorCount
        msg.MsgAIRequest.RequestID with
    | error err =>
      rw [handle_sampleError ctx k msg err hs] at hmem
      simp [Ctx.recordAll] at hmem
    | ok vals =>
      cases hp : providedCoinsOf msg.MsgAIRequest.Fees (rewardRatioOf k) with
      | none =>
        rw [handle_providedPanic ctx k msg vals hs hp] at hmem
        simp [Ctx.recordAll] at hmem
      | some pc =>
        rw [handle_firstRunError ctx k msg vals pc hs hp hds]
        rfl
  · intro dsOut hmem hds htc
    cases hs : k.RandomValidators ctx.BlockHeight ctx.Roster msg.MsgAIRequest.ValidatorCount
        msg.MsgAIRequest.RequestID with
    | error err =>
      rw [handle_sampleError ctx k msg err hs] at hmem
      simp [Ctx.recordAll] at hmem
    | ok vals =>
      cases hp : providedCoinsOf msg.MsgAIRequest.Fees (rewardRatioOf k) with
      | none =>
        rw [handle_providedPanic ctx k msg vals hs hp] at hmem
        simp [Ctx.recordAll] at hmem
      | some pc =>
        rw [handle_secondRunError ctx k msg vals pc dsOut hs hp hds htc]
        rfl
  · intro vals pc hs hp
    cases hds : k.Run (k.GetOScriptPath msg.MsgAIRequest.OracleScriptName) "aiDataSource" with
    | none =>
      rw [handle_firstRunError ctx k msg vals pc hs hp hds]
      simp [Ctx.recordAll, callsBeforeRun, runCalls]
    | some dsOut =>
      cases htc : k.Run (k.GetOScriptPath msg.MsgAIRequest.OracleScriptName) "testcase" with
      | none =>
        rw [handle_secondRunError ctx k msg vals pc dsOut hs hp hds htc]
        simp [Ctx.recordAll, callsBeforeRun, runCalls]
      | some tcOut =>
        have hrun := handle_afterRuns ctx k msg vals pc dsOut tcOut hs hp hds htc
        have hsub : ∀ c ∈ callsBeforeRun msg ++ runCalls k msg,
            c ∈ (handleMsgSetOCRRequest ctx k msg).2.calls.drop ctx.calls.length := by
          intro c hc
          rw [hrun]
          rcases testCaseLoop_cases k (namesOf tcOut) [] [] with
            ⟨sub, _, _, hrun1⟩ | ⟨e, n, _, hrun1⟩
          · rw [hrun1]
            simp only [List.nil_append]
            rcases dataSourceLoop_cases k (namesOf dsOut) [] sub with
              ⟨T, _, _, hrun2⟩ | ⟨e, n, _, hrun2⟩
            · rw [hrun2]
              simp only [List.nil_append]
              rcases afterLookups_cases k msg vals pc
                  (resolved k.GetAIDataSourceI (namesOf dsOut))
                  (resolved k.GetTestCaseI (namesOf tcOut)) T with ⟨e, _, hrun3⟩ | hrun3
              · rw [hrun3]
                simp only [Ctx.recordAll, List.append_assoc, List.drop_left]
                simp only [List.mem_append] at hc ⊢
                tauto
              · rw [hrun3]
                simp only [storedCtx, Ctx.recordAll, List.append_assoc, List.drop_left]
                simp only [List.mem_append] at hc ⊢
                tauto
            · rw [hrun2]
              simp only [Ctx.recordAll, List.append_assoc, List.drop_left]
              simp only [List.mem_append] at hc ⊢
              tauto
          · rw [hrun1]
            simp only [Ctx.recordAll, List.append_assoc, List.drop_left]
            simp only [List.mem_append] at hc ⊢
            tauto
        exact ⟨hsub _ (by simp [runCalls]), fun _ => hsub _ (by simp [runCalls])⟩
  · rcases handle_outcome_uniform ctx.BlockHeight ctx.Roster k msg with
      ⟨e, rest, _, ⟨n, hn⟩, hrun⟩ | ⟨vals, dsOut, tcOut, _, _, _, _, _, hrun⟩
    · refine ⟨n, ?_⟩
      rw [hrun ctx rfl rfl]
      simp only [Ctx.recordAll, List.drop_left]
      rw [List.filter_cons]
      simpa [sampleCall, Call.isRun, runCalls] using hn
    · refine ⟨2, ?_⟩
      rw [hrun ctx rfl rfl]
      simp only [createdCtx, List.drop_left, callsToLookups_eq]
      simp [List.filter_cons, sampleCall, Call.isRun, List.filter_append,
        readsToLookups_filter_isRun, runCalls]
  · intro res h
    rcases handle_outcome ctx k msg with ⟨e, rest, hrun, _⟩ |
      ⟨vals, dsOut, tcOut, _, hds, htc, _, _, hrun⟩
    · rw [hrun] at h; simp at h
    · refine ⟨dsOut, tcOut,
        [.SetAIRequest msg.MsgAIRequest.RequestID
          (requestOf ctx msg vals (resolved k.GetAIDataSourceI (namesOf dsOut))
            (resolved k.GetTestCaseI (namesOf tcOut))),
         .EmitEvent (requestEvent (requestOf ctx msg vals
            (resolved k.GetAIDataSourceI (namesOf dsOut))
            (resolved k.GetTestCaseI (namesOf tcOut))) vals),
         .EmitEvent (requestWithDataEvent (requestOf ctx msg vals
            (resolved k.GetAIDataSourceI (namesOf dsOut))
            (resolved k.GetTestCaseI (namesOf tcOut))) msg)], hds, htc, ?_, ?_⟩
      · rw [hrun]
        simp only [createdCtx, callsToLookups, runCalls, namesOf_eq_Fields]
        rfl
      · intro c hc
        simp only [List.mem_cons, List.mem_singleton, List.not_mem_nil, or_false] at hc
        rcases hc with rfl | rfl | rfl <;> rfl

/-- C10 (witness).  The first part of the statement at a keeper whose script fails in
data-source mode: the run is made, and the handler returns `ErrFailedToOpenFile` after four
calls. -/
theorem C10_witness :
    handleMsgSetOCRRequest exCtx exKeeperFailingRun (exMsg 3 150) =
      (.error (.error .ErrFailedToOpenFile "failed to collect data source name"),
       exCtx.recordAll (callsBeforeRun (exMsg 3 150) ++
         [.Run (exKeeperFailingRun.GetOScriptPath (exMsg 3 150).MsgAIRequest.OracleScriptName)
           "aiDataSource"])) :=
  (C10_runner_failure_aborts_without_retry exCtx exKeeperFailingRun (exMsg 3 150)).1
    (by decide) (by decide)

/-- C11.  On every successful creation the handler hands to the store write, under the key
`RequestID`, a request whose `RequestID`, `OracleScriptName`, `Creator`, `Input` and
`ExpectedOutput` are the message's fields, whose `BlockHeight` is the current block height,
whose `Fees` are the full fee of the message (not the provided coins), and whose test cases
and data sources are the objects that the names listed by the script resolve to, name by name
in listed order and as many as the names; with a key-value store write the record found under
`RequestID` afterwards is that request. -/
theorem C11_stored_request_carries_the_message_fields (ctx : Ctx) (k : Keeper)
    (msg : MsgSetOCRRequest) (res : Result)
    (h : (handleMsgSetOCRRequest ctx k msg).1 = .ok res) :
    ∃ request dsOut tcOut,
      (handleMsgSetOCRRequest ctx k msg).2.store
        = k.SetAIRequest ctx.store msg.MsgAIRequest.RequestID request ∧
      (k.SetAIRequest = kvSet →
        kvGet (handleMsgSetOCRRequest ctx k msg).2.store msg.MsgAIRequest.RequestID
          = some request) ∧
      request.RequestID = msg.MsgAIRequest.RequestID ∧
      request.OracleScriptName = msg.MsgAIRequest.OracleScriptName ∧
      request.Creator = msg.MsgAIRequest.Creator ∧
      request.Input = msg.MsgAIRequest.Input ∧
      request.ExpectedOutput = msg.MsgAIRequest.ExpectedOutput ∧
      request.BlockHeight = ctx.BlockHeight ∧
      request.Fees = msg.MsgAIRequest.Fees ∧
      k.Run (k.GetOScriptPath msg.MsgAIRequest.OracleScriptName) "aiDataSource"
        = some dsOut ∧
      k.Run (k.GetOScriptPath msg.MsgAIRequest.OracleScriptName) "testcase"
        = some tcOut ∧
      List.Forall₂ (fun name tc => k.GetTestCaseI name = .ok tc)
        (Fields tcOut) request.TestCases ∧
      List.Forall₂ (fun name ds => k.GetAIDataSourceI name = .ok ds)
        (Fields dsOut) request.AIDataSources ∧
      request.TestCases.length = (Fields tcOut).length ∧
      request.AIDataSources.length = (Fields dsOut).length := by
  rcases handle_outcome ctx k msg with ⟨e, rest, hrun, _⟩ |
    ⟨vals, dsOut, tcOut, _, hds, htc, htcs, hdss, hrun⟩
  · rw [hrun] at h; simp at h
  · have hst : (handleMsgSetOCRRequest ctx k msg).2.store
        = k.SetAIRequest ctx.store msg.MsgAIRequest.RequestID
            (requestOf ctx msg vals (resolved k.GetAIDataSourceI (namesOf dsOut))
              (resolved k.GetTestCaseI (namesOf tcOut))) := by
      rw [hrun]; rfl
    have ht := resolved_forall₂ k.GetTestCaseI (namesOf tcOut) htcs
    have hd := resolved_forall₂ k.GetAIDataSourceI (namesOf dsOut) hdss
    rw [namesOf_eq_Fields] at ht hd
    refine ⟨requestOf ctx msg vals (resolved k.GetAIDataSourceI (namesOf dsOut))
      (resolved k.GetTestCaseI (namesOf tcOut)), dsOut, tcOut, hst, ?_, rfl, rfl, rfl, rfl, rfl,
      rfl, rfl, hds, htc, ?_, ?_, ?_, ?_⟩
    · intro hk
      rw [hst, hk, kvGet_kvSet]
    · simpa [requestOf, NewAIRequest, namesOf_eq_Fields] using ht
    · simpa [requestOf, NewAIRequest, namesOf_eq_Fields] using hd
    · simpa [requestOf, NewAIRequest, namesOf_eq_Fields] using ht.length_eq.symm
    · simpa [requestOf, NewAIRequest, namesOf_eq_Fields] using hd.length_eq.symm

/-- C11 (witness).  The statement at the example keeper and a message that pays 150 orai for
three validators. -/
theorem C11_witness :
    ∃ request dsOut tcOut,
      (handleMsgSetOCRRequest exCtx (exKeeper 70) (exMsg 3 150)).2.store
        = (exKeeper 70).SetAIRequest exCtx.store (exMsg 3 150).MsgAIRequest.RequestID request ∧
      ((exKeeper 70).SetAIRequest = kvSet →
        kvGet (handleMsgSetOCRRequest exCtx (exKeeper 70) (exMsg 3 150)).2.store
          (exMsg 3 150).MsgAIRequest.RequestID = some request) ∧
      request.RequestID = (exMsg 3 150).MsgAIRequest.RequestID ∧
      request.OracleScriptName = (exMsg 3 150).MsgAIRequest.OracleScriptName ∧
      request.Creator = (exMsg 3 150).MsgAIRequest.Creator ∧
      request.Input = (exMsg 3 150).MsgAIRequest.Input ∧
      request.ExpectedOutput = (exMsg 3 150).MsgAIRequest.ExpectedOutput ∧
      request.BlockHeight = exCtx.BlockHeight ∧
      request.Fees = (exMsg 3 150).MsgAIRequest.Fees ∧
      (exKeeper 70).Run ((exKeeper 70).GetOScriptPath
        (exMsg 3 150).MsgAIRequest.OracleScriptName) "aiDataSource" = some dsOut ∧
      (exKeeper 70).Run ((exKeeper 70).GetOScriptPath
        (exMsg 3 150).MsgAIRequest.OracleScriptName) "testcase" = some tcOut ∧
      List.Forall₂ (fun name tc => (exKeeper 70).GetTestCaseI name = .ok tc)
        (Fields tcOut) request.TestCases ∧
      List.Forall₂ (fun name ds => (exKeeper 70).GetAIDataSourceI name = .ok ds)
        (Fields dsOut) request.AIDataSources ∧
      request.TestCases.length = (Fields tcOut).length ∧
      request.AIDataSources.length = (Fields dsOut).length :=
  C11_stored_request_carries_the_message_fields exCtx (exKeeper 70) (exMsg 3 150)
    ⟨(handleMsgSetOCRRequest exCtx (exKeeper 70) (exMsg 3 150)).2.events⟩ (by decide)

/-- C12.  On every successful creation the handler emits exactly two events, after the store
write and after all read calls; the events of the context are the earlier ones followed by
these two, and the returned result holds all of them.  The first is the request event: the
request ID followed by one validator attribute per validator of the stored request, in
committee order, `1 + |Validators|` attributes in all.  The second is the request-with-data
event; its first three attributes are the request ID, the oracle script name and the creator
of the stored request. -/
theorem C12_two_events_follow_the_store_write (ctx : Ctx) (k : Keeper)
    (msg : MsgSetOCRRequest) (res : Result)
    (h : (handleMsgSetOCRRequest ctx k msg).1 = .ok res) :
    ∃ request e1 e2 reads,
      (handleMsgSetOCRRequest ctx k msg).2.store
        = k.SetAIRequest ctx.store msg.MsgAIRequest.RequestID request ∧
      (handleMsgSetOCRRequest ctx k msg).2.events = ctx.events ++ [e1, e2] ∧
      res.Events = ctx.events ++ [e1, e2] ∧
      (handleMsgSetOCRRequest ctx k msg).2.calls = ctx.calls ++ (reads ++
        [.SetAIRequest msg.MsgAIRequest.RequestID request, .EmitEvent e1, .EmitEvent e2]) ∧
      (∀ c ∈ reads, c.isWrite = false) ∧
      k.RandomValidators ctx.BlockHeight ctx.Roster msg.MsgAIRequest.ValidatorCount
        msg.MsgAIRequest.RequestID = .ok request.Validators ∧
      e1.Ty = .EventTypeSetOCRRequest ∧
      e1.Attributes = ⟨.AttributeRequestID, request.RequestID⟩ ::
        request.Validators.map (fun v => ⟨.AttributeRequestValidator, v.bech32⟩) ∧
      e1.Attributes.length = 1 + request.Validators.length ∧
      e2.Ty = .EventTypeRequestWithData ∧
      e2.Attributes.take 3 =
        [⟨.AttributeRequestID, request.RequestID⟩,
         ⟨.AttributeOracleScriptName, request.OracleScriptName⟩,
         ⟨.AttributeRequestCreator, request.Creator.bech32⟩] ∧
      e2.Attributes.length = 8 := by
  rcases handle_outcome ctx k msg with ⟨e, rest, hrun, _⟩ |
    ⟨vals, dsOut, tcOut, hs, _, _, _, _, hrun⟩
  · rw [hrun] at h; simp at h
  · rw [hrun] at h
    simp only [Except.ok.injEq] at h
    subst h
    refine ⟨requestOf ctx msg vals (resolved k.GetAIDataSourceI (namesOf dsOut))
        (resolved k.GetTestCaseI (namesOf tcOut)),
      requestEvent (requestOf ctx msg vals (resolved k.GetAIDataSourceI (namesOf dsOut))
        (resolved k.GetTestCaseI (namesOf tcOut))) vals,
      requestWithDataEvent (requestOf ctx msg vals (resolved k.GetAIDataSourceI (namesOf dsOut))
        (resolved k.GetTestCaseI (namesOf tcOut))) msg,
      callsToLookups k msg dsOut tcOut, ?_, ?_, rfl, ?_, ?_, hs, ?_, ?_, ?_, rfl, rfl, rfl⟩
    · rw [hrun]; rfl
    · rw [hrun]; rfl
    · rw [hrun]; rfl
    · intro c hc
      rw [callsToLookups_eq] at hc
      rcases List.mem_cons.mp hc with rfl | hc
      · rfl
      · exact Call.isWrite_of_isRead c (readsToLookups_isRead k msg dsOut tcOut c hc)
    · rw [requestEvent_eq]
    · rw [requestEvent_eq]; rfl
    · rw [requestEvent_eq]
      simp [requestOf, NewAIRequest, Nat.add_comm]

/-- C12 (witness).  The statement at the example keeper and a message that pays 150 orai for
three validators. -/
theorem C12_witness :
    ∃ request e1 e2 reads,
      (handleMsgSetOCRRequest exCtx (exKeeper 70) (exMsg 3 150)).2.store
        = (exKeeper 70).SetAIRequest exCtx.store (exMsg 3 150).MsgAIRequest.RequestID request ∧
      (handleMsgSetOCRRequest exCtx (exKeeper 70) (exMsg 3 150)).2.events
        = exCtx.events ++ [e1, e2] ∧
      (⟨(handleMsgSetOCRRequest exCtx (exKeeper 70) (exMsg 3 150)).2.events⟩ : Result).Events
        = exCtx.events ++ [e1, e2] ∧
      (handleMsgSetOCRRequest exCtx (exKeeper 70) (exMsg 3 150)).2.calls
        = exCtx.calls ++ (reads ++
          [.SetAIRequest (exMsg 3 150).MsgAIRequest.RequestID request, .EmitEvent e1,
           .EmitEvent e2]) ∧
      (∀ c ∈ reads, c.isWrite = false) ∧
      (exKeeper 70).RandomValidators exCtx.BlockHeight exCtx.Roster (exMsg 3 150).MsgAIRequest.ValidatorCount
        (exMsg 3 150).MsgAIRequest.RequestID = .ok request.Validators ∧
      e1.Ty = .EventTypeSetOCRRequest ∧
      e1.Attributes = ⟨.AttributeRequestID, request.RequestID⟩ ::
        request.Validators.map (fun v => ⟨.AttributeRequestValidator, v.bech32⟩) ∧
      e1.Attributes.length = 1 + request.Validators.length ∧
      e2.Ty = .EventTypeRequestWithData ∧
      e2.Attributes.take 3 =
        [⟨.AttributeRequestID, request.RequestID⟩,
         ⟨.AttributeOracleScriptName, request.OracleScriptName⟩,
         ⟨.AttributeRequestCreator, request.Creator.bech32⟩] ∧
      e2.Attributes.length = 8 :=
  C12_two_events_follow_the_store_write exCtx (exKeeper 70) (exMsg 3 150)
    ⟨(handleMsgSetOCRRequest exCtx (exKeeper 70) (exMsg 3 150)).2.events⟩ (by decide)

/-- C14 (the code at the failing input).  Artifact fees of 100 orai, stored percentage 70.
A message paying 1 orai has no provided coins (`floor(0.7) = 0`, dropped); `IsAnyGT` returns
`false` against an empty set, so the creation is accepted although the total fee exceeds the
provided coins.  A message paying 50 orai, more in every denomination, has provided coins of
35 orai and is rejected with `ErrNeedMoreFees`. -/
theorem C14_paying_more_turns_acceptance_into_rejection :
    (∀ d, Coins.AmountOf [⟨"orai", 1⟩] d ≤ Coins.AmountOf [⟨"orai", 50⟩] d) ∧
    totalFeesOf (resolved (exKeeper 70).GetTestCaseI (namesOf "tc1\n"))
        (resolved (exKeeper 70).GetAIDataSourceI (namesOf "ds1 ds2\n"))
      = some [⟨"orai", 100⟩] ∧
    providedCoinsOf (exMsg 3 1).MsgAIRequest.Fees (rewardRatioOf (exKeeper 70)) = some [] ∧
    providedCoinsOf (exMsg 3 50).MsgAIRequest.Fees (rewardRatioOf (exKeeper 70))
      = some [⟨"orai", 35⟩] ∧
    Coins.IsAnyGT [⟨"orai", 100⟩] [] = false ∧
    Coins.IsAnyGT [⟨"orai", 100⟩] [⟨"orai", 35⟩] = true ∧
    (handleMsgSetOCRRequest exCtx (exKeeper 70) (exMsg 3 1)).1.isOk = true ∧
    (handleMsgSetOCRRequest exCtx (exKeeper 70) (exMsg 3 50)).1 =
      .error (.error .ErrNeedMoreFees
        "Fees given by the users are less than the total fees needed") := by
  refine ⟨?_, by decide, by decide, by decide, by decide, by decide, by decide, by decide⟩
  intro d
  simp only [Coins.AmountOf, Coins.AmountOfLoop, List.length_singleton]
  split_ifs <;> omega

/-- C15 (the code at the failing input).  The validator-count attribute is the Go conversion
`string(ValidatorCount)`, the text of the single code point `ValidatorCount`: it always has
exactly one character, for a count of 3 it is the character U+0003 and not the digit `3`, and
for a count of 12 it is U+000C and not `12`.  On every successful creation the sixth attribute
of the request-with-data event is this text. -/
theorem C15_validator_count_attribute_is_a_code_point :
    (∀ n : Int, (runeToString n).length = 1) ∧
    runeToString 3 = String.singleton (Char.ofNat 3) ∧
    runeToString 3 ≠ "3" ∧
    runeToString 12 ≠ "12" ∧
    (∀ (ctx : Ctx) (k : Keeper) (msg : MsgSetOCRRequest) (res : Result),
      (handleMsgSetOCRRequest ctx k msg).1 = .ok res →
      ∃ e1 e2, res.Events = ctx.events ++ [e1, e2] ∧
        e2.Ty = .EventTypeRequestWithData ∧
        e2.Attributes[5]? = some ⟨.AttributeRequestValidatorCount,
          runeToString msg.MsgAIRequest.ValidatorCount⟩) ∧
    (handleMsgSetOCRRequest exCtx (exKeeper 70) (exMsg 3 150)).1.isOk = true ∧
    ((handleMsgSetOCRRequest exCtx (exKeeper 70) (exMsg 3 150)).2.events[1]?).bind
        (fun e => e.Attributes[5]?)
      = some ⟨.AttributeRequestValidatorCount, String.singleton (Char.ofNat 3)⟩ := by
  refine ⟨?_, by decide, by decide, by decide, ?_, by decide, by decide⟩
  · intro n
    unfold runeToString
    split_ifs <;> rfl
  · intro ctx k msg res h
    rcases handle_outcome ctx k msg with ⟨e, rest, hrun, _⟩ |
      ⟨vals, dsOut, tcOut, _, _, _, _, _, hrun⟩
    · rw [hrun] at h; simp at h
    · rw [hrun] at h
      simp only [Except.ok.injEq] at h
      subst h
      exact ⟨_, _, rfl, rfl, rfl⟩

end Orai
